import Mathlib

/-!
Verification of the DataForge SQL guardrail validator and the self-healing
chat coordinator, as a shallow embedding of `src/utils/query_validator.py`,
`src/ui/chat_engine.py` and `src/utils/diff_util.py`.

Strings are modelled as lists of characters; Python's `re` searches used by
the source (`\b`-bounded literal search, `\bSELECT\s+\*`, `\bLIMIT\s+(\d+)\b`,
the two markdown-fence substitutions and the case-insensitive
`(\bLIMIT\s+)\d+` rewrite) are specialised to executable functions with the
exact leftmost / greedy semantics of the corresponding patterns.  `.upper()`,
`.strip()` and `.rstrip("; \t\n\r")` are modelled character-wise (ASCII).
-/

/-- Python `\s` / `str.isspace` on the ASCII range (space, tab, LF, CR, VT, FF),
phrased over code points for arithmetic reasoning. -/
def pyIsSpace (c : Char) : Bool :=
  c.toNat = 32 || c.toNat = 9 || c.toNat = 10 || c.toNat = 13 ||
    c.toNat = 11 || c.toNat = 12

/-- Python regex `\d` on the ASCII range. -/
def pyIsDigit (c : Char) : Bool :=
  48 ≤ c.toNat && c.toNat ≤ 57

/-- Python regex word character `\w` on the ASCII range: letters, digits,
underscore. -/
def isWordChar (c : Char) : Bool :=
  (65 ≤ c.toNat && c.toNat ≤ 90) || (97 ≤ c.toNat && c.toNat ≤ 122) ||
    (48 ≤ c.toNat && c.toNat ≤ 57) || c.toNat = 95

/-- Word-character test lifted to an optional character; `none` (string edge)
counts as a non-word position, matching `\b` semantics at the string edges. -/
def isWordOpt : Option Char → Bool
  | none => false
  | some c => isWordChar c

/-- Drop the longest suffix whose characters satisfy `p`. -/
def dropTrailingWhile (p : Char → Bool) (s : List Char) : List Char :=
  (s.reverse.dropWhile p).reverse

/-- Python `str.strip()` (ASCII whitespace). -/
def pyStrip (s : List Char) : List Char :=
  dropTrailingWhile pyIsSpace (s.dropWhile pyIsSpace)

/-- The set stripped by the source's `sql.rstrip("; \t\n\r")`. -/
def isSemiStripChar (c : Char) : Bool :=
  c = ';' || c = ' ' || c = '\t' || c = '\n' || c = '\r'

/-- The three-backtick fence delimiter. -/
def fenceChars : List Char := ['`', '`', '`']

/-- `re.sub(r"^\s*```(?:sql|SQL)?\s*", "", sql)`: the pattern is anchored, so at
most one replacement happens, and greedy matching is exact because backticks and
the letters of `sql` are not whitespace. -/
def stripLeadingFence (s : List Char) : List Char :=
  let r := s.dropWhile pyIsSpace
  if fenceChars.isPrefixOf r then
    let r := r.drop 3
    let r := if ['s', 'q', 'l'].isPrefixOf r || ['S', 'Q', 'L'].isPrefixOf r
             then r.drop 3 else r
    r.dropWhile pyIsSpace
  else s

/-- `re.sub(r"\s*```\s*$", "", sql)`: a match exists iff the text, after
discarding trailing whitespace, ends with three backticks (`$` also matching
just before a final newline changes nothing, since that newline is whitespace
the greedy `\s*` absorbs).  The replacement removes the fence and the
whitespace on both sides of it. -/
def stripTrailingFence (s : List Char) : List Char :=
  let t := dropTrailingWhile pyIsSpace s
  if fenceChars.isSuffixOf t then
    dropTrailingWhile pyIsSpace (t.take (t.length - 3))
  else s

/-- Markdown-fence clean-up applied by `validate_query` before any check. -/
def stripFences (s : List Char) : List Char :=
  stripTrailingFence (stripLeadingFence s)

/-- One candidate position of `re.search(r'\b<lit>\b', s)` for a literal
pattern `p` (the source builds the pattern with `re.escape`): `p` must be a
prefix here, with a `\b` boundary on each side.  `prev` is whether the
character just before this position is a word character. -/
def wordMatchAt (prev : Bool) (p s : List Char) : Bool :=
  match p with
  | [] => prev != isWordOpt s.head?
  | c :: cs =>
      (c :: cs).isPrefixOf s &&
      (prev != isWordChar c) &&
      (isWordChar (cs.getLastD c) != isWordOpt (s.drop (cs.length + 1)).head?)

/-- Scan of `re.search(r'\b<lit>\b', ·)` over all positions, left to right. -/
def wordSearchAux (prev : Bool) (p : List Char) : List Char → Bool
  | [] => wordMatchAt prev p []
  | c :: cs => wordMatchAt prev p (c :: cs) || wordSearchAux (isWordChar c) p cs

/-- `re.search(r'\b' + re.escape(pat) + r'\b', s)` is not `none`. -/
def hasWordOcc (p s : List Char) : Bool :=
  wordSearchAux false p s

/-- One candidate position of `re.search(r'\bSELECT\s+\*', s)`: the literal
`SELECT` at a word boundary, at least one whitespace character, then a star
(greedy `\s+` is exact because `*` is not whitespace). -/
def selectStarAt (prev : Bool) (s : List Char) : Bool :=
  List.isPrefixOf ("SELECT".data) s && !prev &&
    (let t := s.drop 6
     match t.head? with
     | some c => pyIsSpace c && (t.dropWhile pyIsSpace).head? = some '*'
     | none => false)

/-- Scan of `re.search(r'\bSELECT\s+\*', ·)` over all positions. -/
def selectStarSearchAux (prev : Bool) : List Char → Bool
  | [] => false
  | c :: cs => selectStarAt prev (c :: cs) || selectStarSearchAux (isWordChar c) cs

/-- `re.search(r'\bSELECT\s+\*', s)` is not `none`. -/
def hasSelectStar (s : List Char) : Bool :=
  selectStarSearchAux false s

/-- Numeric value of a digit run, as `int(...)` reads the captured group. -/
def natOfDigits (ds : List Char) : Nat :=
  ds.foldl (fun n c => n * 10 + (c.toNat - 48)) 0

/-- One candidate position of `re.search(r'\bLIMIT\s+(\d+)\b', s)`: `LIMIT` at
a word boundary, at least one whitespace, then a maximal digit run followed by
a word boundary (backtracking inside `\d+` can never restore the final `\b`,
because a digit is itself a word character). -/
def limitSearchAt (prev : Bool) (s : List Char) : Option Nat :=
  if List.isPrefixOf ("LIMIT".data) s && !prev then
    let t := s.drop 5
    match t.head? with
    | some c =>
        if pyIsSpace c then
          let u := t.dropWhile pyIsSpace
          let ds := u.takeWhile pyIsDigit
          if ds.isEmpty then none
          else if isWordOpt (u.drop ds.length).head? then none
          else some (natOfDigits ds)
        else none
    | none => none
  else none

/-- Scan of `re.search(r'\bLIMIT\s+(\d+)\b', ·)`, returning the first captured
integer. -/
def limitSearchAux (prev : Bool) : List Char → Option Nat
  | [] => none
  | c :: cs =>
      match limitSearchAt prev (c :: cs) with
      | some n => some n
      | none => limitSearchAux (isWordChar c) cs

/-- `re.search(r'\bLIMIT\s+(\d+)\b', s)`, with the captured group as a number. -/
def findLimit (s : List Char) : Option Nat :=
  limitSearchAux false s

/-- Case-insensitive prefix test against an upper-case literal, as `(?i)LIMIT`
matches. -/
def ciPrefix (lit : List Char) (s : List Char) : Bool :=
  (s.take lit.length).map Char.toUpper = lit

/-- One match attempt of `re.sub(r'(?i)(\bLIMIT\s+)\d+', ...)`: on success,
returns the kept group-1 text (`LIMIT` in its original case plus the
whitespace run) and the total number of characters the match consumed.  The
digit run is maximal and no trailing boundary is required. -/
def limitSubAt (prev : Bool) (s : List Char) : Option (List Char × Nat) :=
  if ciPrefix ("LIMIT".data) s && s.length ≥ 5 && !prev then
    let t := s.drop 5
    let ws := t.takeWhile pyIsSpace
    if ws.isEmpty then none
    else
      let u := t.drop ws.length
      let ds := u.takeWhile pyIsDigit
      if ds.isEmpty then none
      else some (s.take 5 ++ ws, 5 + ws.length + ds.length)
  else none

/-- Decimal digits of a natural number, as Python's `str(n)` interpolates it. -/
def natDigits (n : Nat) : List Char :=
  (Nat.toDigits 10 n)

/-- Fuel-driven scan of `re.sub(r'(?i)(\bLIMIT\s+)\d+', fr'\g<1>{maxRows}', ·)`:
all non-overlapping matches are replaced, scanning resumes right after each
match (the character before the resume point is a digit, hence a word
character).  `fuel ≥ s.length` makes the scan total. -/
def rewriteLimitsAux (maxRows : Nat) : Nat → Bool → List Char → List Char
  | 0, _, s => s
  | fuel + 1, prev, s =>
      match s with
      | [] => []
      | c :: cs =>
          match limitSubAt prev (c :: cs) with
          | some (kept, consumed) =>
              kept ++ natDigits maxRows ++
                rewriteLimitsAux maxRows fuel true ((c :: cs).drop consumed)
          | none => c :: rewriteLimitsAux maxRows fuel (isWordChar c) cs

/-- `re.sub(r'(?i)(\bLIMIT\s+)\d+', fr'\g<1>{max_rows}', sql)`. -/
def rewriteLimits (maxRows : Nat) (s : List Char) : List Char :=
  rewriteLimitsAux maxRows s.length false s

/-- The typed rejection outcomes of the validator (§3 of the spec); the source
raises `ValidationError` with a fixed message for each. -/
inductive Rejection
  | EmptyInput
  | NotSelectStatement
  | WildcardSelect
  | BannedPattern (pattern : String)
deriving Repr, DecidableEq

/-- The exact `ValidationError` message the source raises for each rejection. -/
def rejectionMessage : Rejection → String
  | .EmptyInput => "Empty query is not allowed."
  | .NotSelectStatement => "Only SELECT queries are allowed."
  | .WildcardSelect => "SELECT * is not allowed. Please specify columns."
  | .BannedPattern p => "Banned SQL pattern detected: " ++ p

/-- The `sql_upper` text `validate_query` inspects: fences stripped, upper-cased,
trimmed. -/
def normalizedUpper (sql : String) : List Char :=
  pyStrip ((stripFences sql.data).map Char.toUpper)

/-- The test `validate_query` applies to one banned pattern: `"SELECT *"` is
special-cased to the `\bSELECT\s+\*` search, every other pattern is searched
as an escaped literal between word boundaries. -/
def bannedProbe (p : String) (su : List Char) : Bool :=
  if p = "SELECT *" then hasSelectStar su else hasWordOcc p.data su

/-- The sweep `for pattern in banned_patterns: ...` of `validate_query`: the
first pattern whose probe matches is reported. -/
def firstBanned (banned : List String) (su : List Char) : Option String :=
  banned.find? (fun p => bannedProbe p su)

/-- `validate_query` of `src/utils/query_validator.py`, parametrised by the
`banned_sql_patterns` and `max_rows_returned` entries that `load_guardrails()`
reads from configuration.  Returns the possibly modified SQL on success and
the typed rejection otherwise. -/
def validate_query (banned : List String) (maxRows : Nat) (sql : String) :
    Except Rejection String :=
  if sql.data = [] then .error .EmptyInput
  else
    let s1 := stripFences sql.data
    let su := normalizedUpper sql
    if !(List.isPrefixOf ("SELECT".data) su || List.isPrefixOf ("WITH".data) su) then
      .error .NotSelectStatement
    else
      match firstBanned banned su with
      | some p => .error (if p = "SELECT *" then .WildcardSelect else .BannedPattern p)
      | none =>
          match findLimit su with
          | some n =>
              if n > maxRows then .ok ⟨rewriteLimits maxRows s1⟩
              else .ok ⟨s1⟩
          | none =>
              .ok ⟨dropTrailingWhile isSemiStripChar s1 ++ (" LIMIT ".data ++ natDigits maxRows)⟩

/-- `is_query_valid` of `src/utils/query_validator.py`. -/
def is_query_valid (banned : List String) (maxRows : Nat) (sql : String) : Bool :=
  (validate_query banned maxRows sql).isOk

/-- Modelled from the spec: the repository's `config/guardrails.yaml` (read by
`load_guardrails`, missing from `src/`) supplies `banned_sql_patterns`; §4.1
lists the canonical banned keywords, the wildcard entry `"SELECT *"` is pinned
by the special case in `validate_query` and by `test_select_star_blocked`. -/
def banned_sql_patterns : List String :=
  ["SELECT *", "DROP", "DELETE", "UPDATE", "INSERT", "ALTER",
   "TRUNCATE", "GRANT", "REVOKE", "CREATE", "REPLACE"]

/-- Modelled from the spec: `max_rows_returned` of `config/guardrails.yaml`
(missing from `src/`), pinned to 10000 by the spec's scenarios and by
`test_limit_enforced`. -/
def max_rows_returned : Nat := 10000

/-! ## Chat engine (`src/ui/chat_engine.py`)

The LLM collaborators (`_generate_sql_via_llm`, `_self_heal_sql`,
`_generate_insight`) and the warehouse driver are external boundaries (§6 of
the spec); they are passed in as oracle functions with the interfaces the
source gives them, while every decision made by `answer_chat`, `_run_query`
and `_keyword_fallback` themselves is embedded from the source. -/

/-- A result row, as the dict `{col: value}` built by `_run_query`. -/
def Row : Type := List (String × String)

deriving instance DecidableEq for Row

/-- The frozen dataclass `ChatResult`. -/
structure ChatResult where
  can_answer : Bool
  assistant_text : String
  sql : String
  policy_note : String
  preview_rows : List Row
  insight : String
deriving DecidableEq

/-- Observable collaborator invocations of one `answer_chat` run: each warehouse
execution (with the exact SQL text handed to `cursor.execute`) and each call of
the LLM repair agent `_self_heal_sql`. -/
inductive Event
  | execCall (sql : String)
  | healCall (failedSql err : String)
deriving DecidableEq

/-- The external collaborators consumed by the chat engine:
`credsOk` is whether the three Databricks environment variables are set;
`exec` is the warehouse round-trip (connect / execute / fetch, with its
`except` clause folded into an `ok = false` triple, as `_run_query` returns);
`gen p safe` is `_generate_sql_via_llm` (`none` when Claude is unavailable,
cannot answer, or returned empty SQL — the cases that fall to the keyword
fallback); `heal sql err p safe` is `_self_heal_sql`'s returned SQL (`none`
for "cannot fix"); `insight rows p` is `_generate_insight`. -/
structure Collaborators where
  credsOk : Bool
  exec : String → Bool × List Row × String
  gen : String → Bool → Option (String × String)
  heal : String → String → String → Bool → Option String
  insight : List Row → String → String

/-- `_run_query` of `src/ui/chat_engine.py`: checks credentials, validates the
SQL through `validate_query` (converting a rejection into a
`"Validation: ..."` failure), and only on success hands the validated text to
the warehouse.  Also returns the list of executor invocations it performed. -/
def run_query (banned : List String) (maxRows : Nat) (co : Collaborators)
    (sql : String) : (Bool × List Row × String) × List Event :=
  if !co.credsOk then ((false, [], "Missing Databricks credentials"), [])
  else
    match validate_query banned maxRows sql with
    | .error e => ((false, [], "Validation: " ++ rejectionMessage e), [])
    | .ok validated => (co.exec validated, [.execCall validated])

/-- `_BLOCKED_TERMS` of `src/ui/chat_engine.py`. -/
def blockedTerms : List String :=
  ["email", "phone", "ssn", "address", "password",
   "credit card", "card number", "social security",
   "personal info", "pii"]

/-- One query template of `_TABLES_META`: display label, SQL text, trigger
keywords. -/
structure QueryShape where
  label : String
  sql : String
  triggers : List String

/-- Builds one `_TABLES_META` query entry. -/
def mkShape (label sql : String) (triggers : List String) : QueryShape :=
  ⟨label, sql, triggers⟩

/-- One table entry of `_TABLES_META`; `queries` keeps the dict's insertion
order. -/
structure TableMeta where
  fqn : String
  icon : String
  keywords : List String
  queries : List (String × QueryShape)

/-- The `orders` entry of `_TABLES_META`. -/
def ordersMeta : TableMeta where
  fqn := "workspace.governed.orders"
  icon := "🌍"
  keywords := ["order", "orders", "purchase", "buy", "bought", "sales",
               "transaction", "quantity", "qty", "transfer", "return"]
  queries :=
    [("by_region", mkShape ("Orders by region and type")
        ("SELECT region, order_type, COUNT(order_nbr) AS order_count, SUM(ord_qty) AS total_qty FROM workspace.governed.orders GROUP BY region, order_type ORDER BY total_qty DESC")
        ["region", "area", "geography", "where", "location"]),
     ("by_type", mkShape ("Orders by type")
        ("SELECT order_type, COUNT(order_nbr) AS order_count, SUM(ord_qty) AS total_qty FROM workspace.governed.orders GROUP BY order_type ORDER BY total_qty DESC")
        ["type", "kind", "category", "breakdown"]),
     ("totals", mkShape ("Order totals")
        ("SELECT COUNT(order_nbr) AS total_orders, SUM(ord_qty) AS total_qty FROM workspace.governed.orders")
        ["total", "count", "how many", "sum", "overall"]),
     ("default", mkShape ("Orders overview")
        ("SELECT region, order_type, COUNT(order_nbr) AS order_count, SUM(ord_qty) AS total_qty FROM workspace.governed.orders GROUP BY region, order_type ORDER BY total_qty DESC")
        [])]

/-- The `inventory` entry of `_TABLES_META`. -/
def inventoryMeta : TableMeta where
  fqn := "workspace.governed.inventory"
  icon := "📦"
  keywords := ["inventory", "stock", "sku", "warehouse", "supply",
               "qoh", "product", "item", "goods", "cost", "value",
               "expensive", "cheap", "price"]
  queries :=
    [("by_sku", mkShape ("Inventory by SKU")
        ("SELECT sku, sku_description, region, SUM(qoh) AS total_qty, SUM(qoh_cost) AS total_cost FROM workspace.governed.inventory GROUP BY sku, sku_description, region ORDER BY total_cost DESC")
        ["sku", "product", "item", "part", "description"]),
     ("by_region", mkShape ("Inventory by region")
        ("SELECT region, COUNT(sku) AS sku_count, SUM(qoh) AS total_qty, SUM(qoh_cost) AS total_cost FROM workspace.governed.inventory GROUP BY region ORDER BY total_cost DESC")
        ["region", "area", "where"]),
     ("totals", mkShape ("Inventory totals")
        ("SELECT COUNT(DISTINCT sku) AS unique_skus, SUM(qoh) AS total_qty, SUM(qoh_cost) AS total_value FROM workspace.governed.inventory")
        ["total", "count", "how many", "sum", "overall", "value", "worth"]),
     ("top", mkShape ("Top inventory by value")
        ("SELECT sku, sku_description, region, SUM(qoh) AS total_qty, SUM(qoh_cost) AS total_cost FROM workspace.governed.inventory GROUP BY sku, sku_description, region ORDER BY total_cost DESC")
        ["top", "most", "expensive", "highest", "largest", "biggest"]),
     ("low", mkShape ("Lowest stock items")
        ("SELECT sku, sku_description, region, SUM(qoh) AS total_qty, SUM(qoh_cost) AS total_cost FROM workspace.governed.inventory GROUP BY sku, sku_description, region ORDER BY total_qty ASC")
        ["low", "lowest", "least", "minimum", "running out"]),
     ("default", mkShape ("Inventory overview")
        ("SELECT sku, sku_description, region, SUM(qoh) AS total_qty, SUM(qoh_cost) AS total_cost FROM workspace.governed.inventory GROUP BY sku, sku_description, region ORDER BY total_cost DESC")
        [])]

/-- The `shipping` entry of `_TABLES_META`. -/
def shippingMeta : TableMeta where
  fqn := "workspace.governed.shipping"
  icon := "🚚"
  keywords := ["ship", "shipping", "transit", "delivery", "deliver",
               "carrier", "logistics", "transport", "shipment",
               "status", "tracking", "delayed", "intransit", "wms"]
  queries :=
    [("by_status", mkShape ("Shipping by status")
        ("SELECT wms_shipment_status, COUNT(sku) AS shipment_count, SUM(intransit_value) AS total_value FROM workspace.governed.shipping GROUP BY wms_shipment_status ORDER BY total_value DESC")
        ["status", "state", "progress", "tracking", "delayed", "pending"]),
     ("by_region", mkShape ("Shipping by region")
        ("SELECT region, shipping_org, wms_shipment_status, COUNT(sku) AS shipment_count, SUM(intransit_value) AS total_value FROM workspace.governed.shipping GROUP BY region, shipping_org, wms_shipment_status ORDER BY total_value DESC")
        ["region", "area", "where"]),
     ("by_carrier", mkShape ("Shipping by carrier")
        ("SELECT shipping_org, wms_shipment_status, COUNT(sku) AS shipment_count, SUM(intransit_value) AS total_value FROM workspace.governed.shipping GROUP BY shipping_org, wms_shipment_status ORDER BY total_value DESC")
        ["carrier", "org", "company", "shipper"]),
     ("totals", mkShape ("Shipping totals")
        ("SELECT COUNT(sku) AS total_shipments, SUM(intransit_value) AS total_transit_value FROM workspace.governed.shipping")
        ["total", "count", "how many", "sum", "overall"]),
     ("default", mkShape ("Shipping overview")
        ("SELECT region, shipping_org, wms_shipment_status, COUNT(sku) AS shipment_count, SUM(intransit_value) AS total_value FROM workspace.governed.shipping GROUP BY region, shipping_org, wms_shipment_status ORDER BY total_value DESC")
        [])]

/-- `_TABLES_META` in its dict insertion order. -/
def tablesMeta : List (String × TableMeta) :=
  [("orders", ordersMeta), ("inventory", inventoryMeta), ("shipping", shippingMeta)]

/-- Lower-cased text, as Python `str.lower()` (ASCII). -/
def pyLower (s : String) : List Char :=
  s.data.map Char.toLower

/-- Python substring containment `needle in hay` over character lists. -/
def listContains (needle : List Char) : List Char → Bool
  | [] => needle.isEmpty
  | c :: cs => needle.isPrefixOf (c :: cs) || listContains needle cs

/-- Python substring test `needle in haystack` on the lowered prompt. -/
def strIn (needle : String) (hay : List Char) : Bool :=
  listContains needle.data hay

/-- Number of keywords of `kws` occurring in the lowered prompt — the
`sum(1 for kw in ... if kw in lower)` scores of `_keyword_fallback`. -/
def keywordScore (kws : List String) (lower : List Char) : Nat :=
  (kws.filter (fun kw => strIn kw lower)).length

/-- `max(scores, key=scores.get)` over the tables with a positive score:
Python's `max` keeps the first maximum in iteration (insertion) order. -/
def argmaxTable (scores : List (String × TableMeta × Nat)) :
    Option (String × TableMeta × Nat) :=
  scores.foldl
    (fun best cur =>
      match best with
      | none => some cur
      | some b => if cur.2.2 > b.2.2 then some cur else some b)
    none

/-- The sub-query selection loop of `_keyword_fallback`: starting from
`("default", 0)`, a shape replaces the incumbent only with a strictly greater
trigger score, in dict order, skipping `"default"`. -/
def pickShape (meta : TableMeta) (lower : List Char) : String :=
  (meta.queries.foldl
    (fun best cur =>
      if cur.1 = "default" then best
      else
        let s := keywordScore cur.2.triggers lower
        if s > best.2 then (cur.1, s) else best)
    ("default", 0)).1

/-- Replacement scan for `re.sub(r"LIMIT \d+", f"LIMIT {limit}", sql)` in
`_keyword_fallback` (case sensitive, single space, maximal digit run). -/
def subLimitTemplateAux (limit : Nat) : Nat → List Char → List Char
  | 0, s => s
  | _fuel + 1, [] => []
  | fuel + 1, c :: cs =>
      let s := c :: cs
      let ds := (s.drop 6).takeWhile pyIsDigit
      if List.isPrefixOf ("LIMIT ".data) s && !ds.isEmpty then
        "LIMIT ".data ++ natDigits limit ++
          subLimitTemplateAux limit fuel ((s.drop 6).drop ds.length)
      else c :: subLimitTemplateAux limit fuel cs

/-- `_keyword_fallback` of `src/ui/chat_engine.py`: keyword-scores the three
tables, picks the best sub-query by trigger score, and forces the row limit.
Returns `(sql, label, icon)`. -/
def keyword_fallback (prompt : String) (limit : Nat) : String × String × String :=
  let lower := pyLower prompt
  let scores := (tablesMeta.map (fun t => (t.1, t.2, keywordScore t.2.keywords lower))).filter
    (fun t => t.2.2 > 0)
  match argmaxTable scores with
  | none =>
      ("SELECT region, order_type, COUNT(order_nbr) AS order_count, SUM(ord_qty) AS total_qty FROM workspace.governed.orders GROUP BY region, order_type ORDER BY total_qty DESC LIMIT "
         ++ Nat.repr limit,
       "Orders overview (default)", "📋")
  | some (_, meta, _) =>
      let shape := pickShape meta lower
      match (meta.queries.find? (fun q => q.1 = shape)).map Prod.snd with
      | none => ("", "", meta.icon)
      | some q =>
          let sql :=
            if !(strIn "LIMIT" q.sql.data) then q.sql ++ " LIMIT " ++ Nat.repr limit
            else ⟨subLimitTemplateAux limit q.sql.data.length q.sql.data⟩
          (sql, q.label, meta.icon)

/-- The fixed `ChatResult` returned when the prompt matches a blocked PII term. -/
def blockedChatResult : ChatResult where
  can_answer := false
  assistant_text := "**🛡️ BLOCKED** — This request touches sensitive fields.\n\nI can help with:\n- 🌍 Orders by region / type\n- 📦 Inventory levels by SKU\n- 🚚 Shipping status by carrier"
  sql := "-- BLOCKED: sensitive/PII fields"
  policy_note := "🛡️ Blocked by governance: request touches sensitive fields."
  preview_rows := []
  insight := ""

/-- Step 2 of `answer_chat`: obtain SQL from Agent 1 or the keyword fallback.
Returns `(sql, sourceAI, reason)`; on the AI path a missing `LIMIT` (upper-case
substring test) makes the engine append one. -/
def chooseSql (co : Collaborators) (p : String) (limit : Nat) (safe_mode : Bool) :
    String × Bool × String :=
  match co.gen p safe_mode with
  | none =>
      let (fsql, flabel, _icon) := keyword_fallback p limit
      (fsql, false, flabel)
  | some (sql, reason) =>
      (if !listContains ("LIMIT".data) (sql.data.map Char.toUpper)
       then sql ++ " LIMIT " ++ Nat.repr limit else sql,
       true, reason)

/-- Steps 3–4 of `answer_chat`: one execution attempt through `_run_query`,
then — only when it failed and the SQL came from the LLM — a single
`_self_heal_sql` call, whose result (if any) is re-run through `_run_query`
and adopted only when that second attempt succeeds.  Returns
`((ok, rows, err), final sql, healed, events)`. -/
def executeWithHealing (banned : List String) (maxRows : Nat) (co : Collaborators)
    (sql : String) (sourceAI : Bool) (p : String) (safe_mode : Bool) :
    (Bool × List Row × String) × String × Bool × List Event :=
  let r1 := run_query banned maxRows co sql
  let ok := r1.1.1
  let err := r1.1.2.2
  if !ok && sourceAI then
    match co.heal sql err p safe_mode with
    | some healedSql =>
        let r2 := run_query banned maxRows co healedSql
        if r2.1.1 then
          ((true, r2.1.2.1, ""), healedSql, true, r1.2 ++ [.healCall sql err] ++ r2.2)
        else (r1.1, sql, false, r1.2 ++ [.healCall sql err] ++ r2.2)
    | none => (r1.1, sql, false, r1.2 ++ [.healCall sql err])
  else (r1.1, sql, false, r1.2)

/-- Steps 5–6 of `answer_chat`: response message, insight and policy note. -/
def buildChatResult (co : Collaborators) (p reason : String) (limit : Nat)
    (safe_mode : Bool) (out : (Bool × List Row × String) × String × Bool)
    (sourceAI : Bool) : ChatResult :=
  let ok := out.1.1
  let rows := out.1.2.1
  let err := out.1.2.2
  let sqlF := out.2.1
  let healed := out.2.2
  let msg :=
    if ok && !rows.isEmpty then
      "**" ++ reason ++ "**\n\n✅ **" ++ Nat.repr rows.length ++
        " rows** returned live from Databricks." ++
        (if healed then "\n\n🩹 *Query was auto-corrected by the self-healing agent.*" else "")
    else if ok then "**" ++ reason ++ "**\n\n⚠️ Query returned 0 rows."
    else "**" ++ reason ++ "**\n\n❌ **Error:** " ++ err
  let insight := if ok && !rows.isEmpty then co.insight rows p else ""
  let sourceLabel :=
    if healed then "ai (self-healed)" else if sourceAI then "ai" else "keyword_fallback"
  { can_answer := ok
    assistant_text := msg
    sql := sqlF
    policy_note := "Source: " ++ sourceLabel ++
      " • governed views • masked PII • SELECT-only • LIMIT " ++ Nat.repr limit ++
      (if safe_mode then " • safe mode" else "") ++
      (if healed then " • self-healed" else "")
    preview_rows := rows.take 20
    insight := insight }

/-- The row limit `50 if safe_mode else 500` picked in step 2 of `answer_chat`. -/
def chatLimit (safe_mode : Bool) : Nat := if safe_mode then 50 else 500

/-- `answer_chat` of `src/ui/chat_engine.py`, with the trace of executor and
repair-agent invocations it caused.  `days`, `demo_mode` and `seed` are unused
by the source's body and kept for interface fidelity. -/
def answer_chat (banned : List String) (maxRows : Nat) (co : Collaborators)
    (prompt : String) (_days : Nat) (safe_mode : Bool) (_demo_mode : Bool)
    (_seed : Nat) : ChatResult × List Event :=
  let p : String := ⟨pyStrip prompt.data⟩
  let lower := pyLower p
  if blockedTerms.any (fun t => strIn t lower) then (blockedChatResult, [])
  else
    let limit := chatLimit safe_mode
    let c := chooseSql co p limit safe_mode
    let r := executeWithHealing banned maxRows co c.1 c.2.1 p safe_mode
    (buildChatResult co p c.2.2 limit safe_mode (r.1, r.2.1, r.2.2.1) c.2.1, r.2.2.2)

/-- Whether an event is a warehouse execution. -/
def isExecEvent : Event → Bool
  | .execCall _ => true
  | .healCall _ _ => false

/-- Whether an event is an invocation of the LLM repair agent. -/
def isHealEvent : Event → Bool
  | .execCall _ => false
  | .healCall _ _ => true

/-- Number of warehouse executions in a trace. -/
def countExec (t : List Event) : Nat := t.countP isExecEvent

/-- Number of repair-agent invocations in a trace. -/
def countHeal (t : List Event) : Nat := t.countP isHealEvent


/-- A collaborator assignment whose LLM generator returns a fixed clean query
and whose warehouse succeeds; used to instantiate the general theorems. -/
def okCollab : Collaborators where
  credsOk := true
  exec := fun _ => (true, [], "")
  gen := fun _ _ => some ("SELECT 1", "row count")
  heal := fun _ _ _ _ => none
  insight := fun _ _ => ""

/-- A collaborator assignment whose LLM generator proposes a query the
validator rejects (`DROP TABLE x`), and whose repair agent declines to fix it;
exercises the healing path on a validation failure. -/
def valFailCollab : Collaborators where
  credsOk := true
  exec := fun _ => (true, [], "")
  gen := fun _ _ => some ("DROP TABLE x", "drop")
  heal := fun _ _ _ _ => none
  insight := fun _ _ => ""


/-! ## Structural notions for the idempotence analysis -/

/-- Whether the character just before the current scan position is a word
character: the last character of the already-scanned prefix `a`, or the
incoming state `prev` when `a` is empty. -/
def prevAt (prev : Bool) (a : List Char) : Bool :=
  match a.getLast? with
  | some c => isWordChar c
  | none => prev

/-- A position of `\bLIMIT\s+(\d+)\b` inside `s = a ++ "LIMIT" ++ w ++ d ++ b`:
word boundary before `LIMIT`, at least one whitespace, a digit run that is
maximal (forced: `w` is followed by a digit and `d` by a non-word character),
and a word boundary after the digits. -/
def LimitDecomp (prev : Bool) (s a w d b : List Char) : Prop :=
  s = a ++ "LIMIT".data ++ w ++ d ++ b ∧
  prevAt prev a = false ∧
  w ≠ [] ∧ (∀ c ∈ w, pyIsSpace c = true) ∧
  d ≠ [] ∧ (∀ c ∈ d, pyIsDigit c = true) ∧
  isWordOpt b.head? = false

/-- Two texts that differ only by replacing nonempty digit runs with nonempty
digit runs — the character-level shape that the `(?i)(\bLIMIT\s+)\d+` rewrite
leaves behind. -/
inductive DigitSwap : List Char → List Char → Prop
  | nil : DigitSwap [] []
  | copy (c : Char) {s t : List Char} : DigitSwap s t → DigitSwap (c :: s) (c :: t)
  | swap {d e s t : List Char} (hd : d ≠ []) (hd' : ∀ c ∈ d, pyIsDigit c = true)
      (he : e ≠ []) (he' : ∀ c ∈ e, pyIsDigit c = true) :
      DigitSwap s t → DigitSwap (d ++ s) (e ++ t)

/-- The step structure of the `(?i)(\bLIMIT\s+)\d+` rewrite scan: characters
where `limitSubAt` fails are copied verbatim, and each match contributes its
kept group-1 text followed by the digits of `maxRows`, resuming with a
word-character state (the last consumed character is a digit). -/
inductive RW (M : Nat) : Bool → List Char → List Char → Prop
  | nil (prev : Bool) : RW M prev [] []
  | copy (c : Char) {prev : Bool} {s t : List Char}
      (h : limitSubAt prev (c :: s) = none) :
      RW M (isWordChar c) s t → RW M prev (c :: s) (c :: t)
  | site {prev : Bool} {s t : List Char} (kept : List Char) (consumed : Nat)
      (h : limitSubAt prev s = some (kept, consumed)) :
      RW M true (s.drop consumed) t → RW M prev s (kept ++ natDigits M ++ t)

/-- A position of `\bSELECT\s+\*` inside `s = a ++ "SELECT" ++ w ++ '*' :: b`:
word boundary before `SELECT`, then at least one whitespace and a star. -/
def StarDecomp (prev : Bool) (s a w b : List Char) : Prop :=
  s = a ++ "SELECT".data ++ w ++ '*' :: b ∧
  prevAt prev a = false ∧
  w ≠ [] ∧ (∀ c ∈ w, pyIsSpace c = true)

/-! ## The diff reporter (`src/utils/diff_util.py`): `difflib.unified_diff` -/

/-! ## `str.splitlines(keepends=True)` -/

/-- The line-boundary characters of Python `str.splitlines` (LF, VT, FF, CR,
FS, GS, RS, NEL, LINE SEPARATOR, PARAGRAPH SEPARATOR); `\r\n` is handled as a
single boundary by `firstLine`. -/
def isLineBreakChar (c : Char) : Bool :=
  c.toNat = 10 || c.toNat = 11 || c.toNat = 12 || c.toNat = 13 ||
    c.toNat = 28 || c.toNat = 29 || c.toNat = 30 || c.toNat = 133 ||
    c.toNat = 8232 || c.toNat = 8233

/-- Split off the first line (keeping its terminator) and return the rest. -/
def firstLine : List Char → List Char × List Char
  | [] => ([], [])
  | c :: cs =>
    if c = '\r' then
      match cs with
      | '\n' :: cs' => (['\r', '\n'], cs')
      | _ => (['\r'], cs)
    else if isLineBreakChar c then ([c], cs)
    else (c :: (firstLine cs).1, (firstLine cs).2)

/-- Fuelled worker for `splitlinesKE`; the fuel `s.length + 1` always
suffices because `firstLine` consumes at least one character. -/
def splitlinesAux : Nat → List Char → List (List Char)
  | 0, _ => []
  | _, [] => []
  | f + 1, c :: cs =>
    (firstLine (c :: cs)).1 :: splitlinesAux f (firstLine (c :: cs)).2

/-- Python `str.splitlines(keepends=True)`. -/
def splitlinesKE (s : List Char) : List (List Char) :=
  splitlinesAux (s.length + 1) s

/-! ## `difflib.SequenceMatcher.__chain_b`: the `b2j` index -/

/-- Association-list lookup modelling a Python `dict` keyed by lines. -/
def alistGet : List (List Char × List Nat) → List Char → Option (List Nat)
  | [], _ => none
  | (k, v) :: rest, x => if k = x then some v else alistGet rest x

/-- `b2j.setdefault(elt, []).append(i)`. -/
def b2jAdd (m : List (List Char × List Nat)) (elt : List Char) (i : Nat) :
    List (List Char × List Nat) :=
  match m with
  | [] => [(elt, [i])]
  | (k, v) :: rest =>
    if k = elt then (k, v ++ [i]) :: rest else (k, v) :: b2jAdd rest elt i

/-- `for i, elt in enumerate(b): b2j.setdefault(elt, []).append(i)`. -/
def b2jBuildAux : List (List Char) → Nat → List (List Char × List Nat) →
    List (List Char × List Nat)
  | [], _, m => m
  | x :: xs, i, m => b2jBuildAux xs (i + 1) (b2jAdd m x i)

def b2jBuild (b : List (List Char)) : List (List Char × List Nat) :=
  b2jBuildAux b 0 []

/-- `__chain_b` for `isjunk = None`: `bjunk` stays empty, and (autojunk)
entries occurring more than `n // 100 + 1` times are purged when
`n >= 200`. -/
def chainB (b : List (List Char)) : List (List Char × List Nat) :=
  let m := b2jBuild b
  let n := b.length
  if 200 ≤ n then m.filter (fun p => !(n / 100 + 1 < p.2.length)) else m

/-- `b2j.get(x, nothing)`. -/
def occsOf (m : List (List Char × List Nat)) (x : List Char) : List Nat :=
  (alistGet m x).getD []

/-! ## `find_longest_match` -/

/-- Association-list lookup modelling the `j2len` dict. -/
def natGet : List (Nat × Nat) → Nat → Option Nat
  | [], _ => none
  | (k, v) :: rest, x => if k = x then some v else natGet rest x

/-- `j2len.get(j, 0)`. -/
def natGetD (m : List (Nat × Nat)) (j : Nat) : Nat :=
  (natGet m j).getD 0

/-- `newj2len[j] = k`. -/
def assocPut (m : List (Nat × Nat)) (j k : Nat) : List (Nat × Nat) :=
  match m with
  | [] => [(j, k)]
  | (k0, v0) :: rest =>
    if k0 = j then (k0, k) :: rest else (k0, v0) :: assocPut rest j k

/-- Loop state of `find_longest_match`: the `j2len` dict of the round being
built and the current best block. -/
structure FlmState where
  j2len : List (Nat × Nat)
  besti : Nat
  bestj : Nat
  bestsize : Nat

/-- Inner loop `for j in b2j.get(a[i], nothing)` of one round `i`: `continue`
below `blo`, `break` at `bhi`, and the `j2len` / best updates.  Python's
`j2lenget(j-1, 0)` reads index `-1` as `0` when `j = 0`, hence the guard; and
`i-k+1` is written `i+1-k` (equal over ℤ, and `k ≤ i+1` in every reachable
state). -/
def flmInner (blo bhi i : Nat) (prev : List (Nat × Nat)) :
    List Nat → FlmState → FlmState
  | [], st => st
  | j :: js, st =>
    if j < blo then flmInner blo bhi i prev js st
    else if bhi ≤ j then st
    else
      let k := (if j = 0 then 0 else natGetD prev (j - 1)) + 1
      let d := assocPut st.j2len j k
      if st.bestsize < k then
        flmInner blo bhi i prev js ⟨d, i + 1 - k, j + 1 - k, k⟩
      else
        flmInner blo bhi i prev js ⟨d, st.besti, st.bestj, st.bestsize⟩

/-- Outer loop `for i in range(alo, ahi)`: each round reads the previous
round's `j2len` and builds a fresh one. -/
def flmOuter (b2j : List (List Char × List Nat)) (a : List (List Char))
    (blo bhi : Nat) : List Nat → FlmState → FlmState
  | [], st => st
  | i :: is, st =>
    flmOuter b2j a blo bhi is
      (flmInner blo bhi i st.j2len (occsOf b2j (a.getD i [])) ⟨[], st.besti, st.bestj, st.bestsize⟩)

/-- The backward extension loop (`bjunk` is empty, so the junk variants of
the loops never run and are omitted); fuelled by `besti`, which strictly
decreases each iteration. -/
def extendBack (a b : List (List Char)) (alo blo : Nat) :
    Nat → Nat × Nat × Nat → Nat × Nat × Nat
  | 0, st => st
  | f + 1, (bi, bj, bs) =>
    if alo < bi ∧ blo < bj ∧ a.getD (bi - 1) [] = b.getD (bj - 1) [] then
      extendBack a b alo blo f (bi - 1, bj - 1, bs + 1)
    else (bi, bj, bs)

/-- The forward extension loop; `bi + bs` strictly increases and stays below
`ahi`, so fuel `ahi` suffices. -/
def extendFwd (a b : List (List Char)) (ahi bhi : Nat) :
    Nat → Nat × Nat × Nat → Nat × Nat × Nat
  | 0, st => st
  | f + 1, (bi, bj, bs) =>
    if bi + bs < ahi ∧ bj + bs < bhi ∧ a.getD (bi + bs) [] = b.getD (bj + bs) [] then
      extendFwd a b ahi bhi f (bi, bj, bs + 1)
    else (bi, bj, bs)

/-- `find_longest_match(alo, ahi, blo, bhi)` with `isjunk = None`. -/
def findLongestMatch (a b : List (List Char)) (b2j : List (List Char × List Nat))
    (alo ahi blo bhi : Nat) : Nat × Nat × Nat :=
  let st := flmOuter b2j a blo bhi (List.range' alo (ahi - alo)) ⟨[], alo, blo, 0⟩
  let r := extendBack a b alo blo st.besti (st.besti, st.bestj, st.bestsize)
  extendFwd a b ahi bhi ahi r

/-! ## `get_matching_blocks` -/

/-- Lexicographic order on block triples, as used by `matching_blocks.sort()`. -/
def blockLE (p q : Nat × Nat × Nat) : Bool :=
  decide (p.1 < q.1 ∨ (p.1 = q.1 ∧ (p.2.1 < q.2.1 ∨ (p.2.1 = q.2.1 ∧ p.2.2 ≤ q.2.2))))

def insertBlock (p : Nat × Nat × Nat) : List (Nat × Nat × Nat) → List (Nat × Nat × Nat)
  | [] => [p]
  | q :: qs => if blockLE p q then p :: q :: qs else q :: insertBlock p qs

/-- Stable insertion sort, modelling `list.sort()` on block triples. -/
def sortBlocks : List (Nat × Nat × Nat) → List (Nat × Nat × Nat)
  | [] => []
  | p :: ps => insertBlock p (sortBlocks ps)

/-- The `while queue` loop: `queue.pop()` takes the head (the most recently
pushed window first, as with Python's `list.pop()`).  Each popped window with
a nonempty match consumes at least one `a`-position and one `b`-position and
pushes at most two windows, so at most `la + lb + 1` iterations ever run and
the fuel passed by `getMatchingBlocks` is never exhausted. -/
def gmbLoop (a b : List (List Char)) (b2j : List (List Char × List Nat)) :
    Nat → List (Nat × Nat × Nat × Nat) → List (Nat × Nat × Nat) → List (Nat × Nat × Nat)
  | 0, _, acc => acc
  | _ + 1, [], acc => acc
  | f + 1, (alo, ahi, blo, bhi) :: rest, acc =>
    let r := findLongestMatch a b b2j alo ahi blo bhi
    if r.2.2 ≠ 0 then
      let q1 := if r.1 + r.2.2 < ahi ∧ r.2.1 + r.2.2 < bhi then
        [(r.1 + r.2.2, ahi, r.2.1 + r.2.2, bhi)] else []
      let q2 := if alo < r.1 ∧ blo < r.2.1 then [(alo, r.1, blo, r.2.1)] else []
      gmbLoop a b b2j f (q1 ++ q2 ++ rest) (acc ++ [r])
    else gmbLoop a b b2j f rest acc

/-- The adjacent-block collapsing loop of `get_matching_blocks`. -/
def collapseBlocks : Nat → Nat → Nat → List (Nat × Nat × Nat) → List (Nat × Nat × Nat)
  | i1, j1, k1, [] => if k1 ≠ 0 then [(i1, j1, k1)] else []
  | i1, j1, k1, (i2, j2, k2) :: rest =>
    if i1 + k1 = i2 ∧ j1 + k1 = j2 then collapseBlocks i1 j1 (k1 + k2) rest
    else (if k1 ≠ 0 then [(i1, j1, k1)] else []) ++ collapseBlocks i2 j2 k2 rest

/-- `get_matching_blocks`, including the `(la, lb, 0)` sentinel. -/
def getMatchingBlocks (a b : List (List Char)) : List (Nat × Nat × Nat) :=
  let la := a.length
  let lb := b.length
  let blocks := gmbLoop a b (chainB b) (la + lb + 1) [(0, la, 0, lb)] []
  collapseBlocks 0 0 0 (sortBlocks blocks) ++ [(la, lb, 0)]

/-! ## `get_opcodes` and `get_grouped_opcodes` -/

structure Opcode where
  tag : String
  i1 : Nat
  i2 : Nat
  j1 : Nat
  j2 : Nat
deriving DecidableEq

instance : Inhabited Opcode := ⟨⟨"", 0, 0, 0, 0⟩⟩

/-- The opcode generation loop over the matching blocks. -/
def getOpcodesAux : Nat → Nat → List (Nat × Nat × Nat) → List Opcode
  | _, _, [] => []
  | i, j, (ai, bj, size) :: rest =>
    (if i < ai ∧ j < bj then [⟨"replace", i, ai, j, bj⟩]
     else if i < ai then [⟨"delete", i, ai, j, bj⟩]
     else if j < bj then [⟨"insert", i, ai, j, bj⟩]
     else []) ++
    (if size ≠ 0 then [⟨"equal", ai, ai + size, bj, bj + size⟩] else []) ++
    getOpcodesAux (ai + size) (bj + size) rest

def getOpcodes (a b : List (List Char)) : List Opcode :=
  getOpcodesAux 0 0 (getMatchingBlocks a b)

/-- `get_grouped_opcodes`: trim a leading `equal` opcode to `n` context lines
(Python's `max(i1, i2-n)` agrees with the ℕ-truncated subtraction). -/
def fixupHead (n : Nat) : List Opcode → List Opcode
  | [] => []
  | c :: rest =>
    if c.tag = "equal" then
      ⟨c.tag, max c.i1 (c.i2 - n), c.i2, max c.j1 (c.j2 - n), c.j2⟩ :: rest
    else c :: rest

def fixLastOp (n : Nat) (c : Opcode) : Opcode :=
  if c.tag = "equal" then ⟨c.tag, c.i1, min c.i2 (c.i1 + n), c.j1, min c.j2 (c.j1 + n)⟩
  else c

/-- Trim a trailing `equal` opcode to `n` context lines. -/
def fixupLast (n : Nat) (codes : List Opcode) : List Opcode :=
  match codes.reverse with
  | [] => []
  | c :: rest => (fixLastOp n c :: rest).reverse

/-- The grouping loop: split at `equal` opcodes spanning more than `2n`
lines, and drop a final group that is a single `equal` opcode. -/
def groupLoop (n : Nat) : List Opcode → List Opcode → List (List Opcode)
  | group, [] =>
    if group ≠ [] ∧ ¬(group.length = 1 ∧ (group.headD default).tag = "equal") then
      [group]
    else []
  | group, c :: rest =>
    if c.tag = "equal" ∧ n + n < c.i2 - c.i1 then
      (group ++ [⟨c.tag, c.i1, min c.i2 (c.i1 + n), c.j1, min c.j2 (c.j1 + n)⟩]) ::
        groupLoop n [⟨c.tag, max c.i1 (c.i2 - n), c.i2, max c.j1 (c.j2 - n), c.j2⟩] rest
    else groupLoop n (group ++ [c]) rest

def getGroupedOpcodes (codes0 : List Opcode) (n : Nat) : List (List Opcode) :=
  let codes1 := if codes0 = [] then [⟨"equal", 0, 1, 0, 1⟩] else codes0
  groupLoop n [] (fixupLast n (fixupHead n codes1))

/-! ## `unified_diff` with `lineterm=""` and `"\n".join` -/

/-- `_format_range_unified`. -/
def formatRangeUnified (start stop : Nat) : List Char :=
  if stop - start = 1 then natDigits (start + 1)
  else if stop - start = 0 then natDigits start ++ ',' :: natDigits 0
  else natDigits (start + 1) ++ ',' :: natDigits (stop - start)

/-- The shape of a `@@ -… +… @@` range header. -/
def hunkHeader (i1 i2 j1 j2 : Nat) : List Char :=
  "@@ -".data ++ formatRangeUnified i1 i2 ++ " +".data ++
    formatRangeUnified j1 j2 ++ " @@".data

/-- The `@@` group header: ranges from the first and last opcode of the group. -/
def atLine (g : List Opcode) : List Char :=
  hunkHeader (g.headD default).i1 (g.getLastD default).i2
    (g.headD default).j1 (g.getLastD default).j2

/-- The body lines of one group: context, deletion and insertion lines, each
an input line with a one-character prefix. -/
def groupLines (a b : List (List Char)) : List Opcode → List (List Char)
  | [] => []
  | c :: rest =>
    (if c.tag = "equal" then ((a.drop c.i1).take (c.i2 - c.i1)).map (fun l => ' ' :: l)
     else
       (if c.tag = "replace" ∨ c.tag = "delete" then
         ((a.drop c.i1).take (c.i2 - c.i1)).map (fun l => '-' :: l)
        else []) ++
       (if c.tag = "replace" ∨ c.tag = "insert" then
         ((b.drop c.j1).take (c.j2 - c.j1)).map (fun l => '+' :: l)
        else [])) ++
    groupLines a b rest

/-- One `@@` header plus body lines per group. -/
def groupsOut (a b : List (List Char)) : List (List Opcode) → List (List Char)
  | [] => []
  | g :: gs => (atLine g :: groupLines a b g) ++ groupsOut a b gs

/-- `unified_diff(a, b, fromfile, tofile, lineterm="")` as a list of output
lines: the two file headers are produced once, before the first group. -/
def unifiedDiffLines (a b : List (List Char)) (fromfile tofile : List Char)
    (n : Nat) : List (List Char) :=
  let gs := getGroupedOpcodes (getOpcodes a b) n
  if gs = [] then []
  else ("--- ".data ++ fromfile) :: ("+++ ".data ++ tofile) :: groupsOut a b gs

/-- `"\n".join(lines)`. -/
def joinNL : List (List Char) → List Char
  | [] => []
  | [l] => l
  | l :: ls => l ++ '\n' :: joinNL ls

/-- The diff lines produced by `sql_diff` (`src/utils/diff_util.py`): both
inputs are stripped, split into lines with their terminators kept, and
compared by `difflib.unified_diff` with three lines of context. -/
def sqlDiffLines (original_sql healed_sql : String) : List (List Char) :=
  unifiedDiffLines (splitlinesKE (pyStrip original_sql.data))
    (splitlinesKE (pyStrip healed_sql.data))
    "Original SQL (failed)".data "Healed SQL (succeeded)".data 3

/-- `sql_diff` from `src/utils/diff_util.py`. -/
def sql_diff (original_sql healed_sql : String) : String :=
  ⟨joinNL (sqlDiffLines original_sql healed_sql)⟩


/-! ## Definitions supporting the analysis -/

/-- The positions at which line `x` occurs in the suffix of `b` starting at
index `i`. -/
def posOfAux : List (List Char) → Nat → List Char → List Nat
  | [], _, _ => []
  | y :: ys, i, x => (if y = x then [i] else []) ++ posOfAux ys (i + 1) x

/-- The length of the run of positions `j ∈ b2j[a[i]]` chains ending at
`(i, j)` that `find_longest_match`'s dynamic programming computes on the
identical call `a = b`. -/
def runLen (a : List (List Char)) : Nat → Nat → Nat
  | 0, j => if j ∈ occsOf (chainB a) (a.getD 0 []) then 1 else 0
  | i + 1, j =>
    if j ∈ occsOf (chainB a) (a.getD (i + 1) []) then
      match j with
      | 0 => 1
      | j' + 1 => runLen a i j' + 1
    else 0

/-- The `j2len` table contents before round `i`: empty before round `0`,
`runLen` of the previous round otherwise. -/
def prevR (a : List (List Char)) : Nat → Nat → Nat
  | 0, _ => 0
  | i + 1, j => runLen a i j

/-- `a[i:i+k] == b[j:j+k]`, element by element. -/
def MatchAt (a b : List (List Char)) (i j k : Nat) : Prop :=
  ∀ t, t < k → a.getD (i + t) [] = b.getD (j + t) []

/-! ## Theorems -/

theorem run_query_exec_validated (b : List String) (m : Nat) (co : Collaborators)
    (s t : String) (h : Event.execCall t ∈ (run_query b m co s).2) :
    validate_query b m s = .ok t := by
  unfold run_query at h
  split at h
  · simp at h
  · split at h
    · simp at h
    · next validated heq =>
        simp only [List.mem_singleton, Event.execCall.injEq] at h
        subst h; exact heq

theorem run_query_countExec (b : List String) (m : Nat) (co : Collaborators)
    (s : String) : countExec (run_query b m co s).2 ≤ 1 := by
  unfold run_query
  split
  · simp [countExec]
  · split <;> simp [countExec, List.countP_cons, List.countP_nil, isExecEvent]

theorem run_query_countHeal (b : List String) (m : Nat) (co : Collaborators)
    (s : String) : countHeal (run_query b m co s).2 = 0 := by
  unfold run_query
  split
  · simp [countHeal]
  · split <;> simp [countHeal, isHealEvent]

theorem executeWithHealing_trace_cases (b : List String) (m : Nat)
    (co : Collaborators) (sql : String) (ai : Bool) (p : String) (sm : Bool) :
    (∃ s₁, (executeWithHealing b m co sql ai p sm).2.2.2 = (run_query b m co s₁).2) ∨
    (∃ s₁ e s₂, (executeWithHealing b m co sql ai p sm).2.2.2 =
      (run_query b m co s₁).2 ++ [Event.healCall sql e] ++ (run_query b m co s₂).2) ∨
    (∃ s₁ e, (executeWithHealing b m co sql ai p sm).2.2.2 =
      (run_query b m co s₁).2 ++ [Event.healCall sql e]) := by
  unfold executeWithHealing
  dsimp only
  split
  · split
    · split
      · exact Or.inr (Or.inl ⟨sql, _, _, rfl⟩)
      · exact Or.inr (Or.inl ⟨sql, _, _, rfl⟩)
    · exact Or.inr (Or.inr ⟨sql, _, rfl⟩)
  · exact Or.inl ⟨sql, rfl⟩

theorem countExec_append (l₁ l₂ : List Event) :
    countExec (l₁ ++ l₂) = countExec l₁ + countExec l₂ :=
  List.countP_append _ _ _

theorem countHeal_append (l₁ l₂ : List Event) :
    countHeal (l₁ ++ l₂) = countHeal l₁ + countHeal l₂ :=
  List.countP_append _ _ _

theorem countExec_healCall (s e : String) : countExec [Event.healCall s e] = 0 := rfl

theorem countHeal_healCall (s e : String) : countHeal [Event.healCall s e] = 1 := rfl

theorem countHeal_cons_heal (s e : String) (l : List Event) :
    countHeal (Event.healCall s e :: l) = countHeal l + 1 := by
  simp [countHeal, List.countP_cons, isHealEvent]

theorem answer_chat_trace_eq (b : List String) (m : Nat) (co : Collaborators)
    (prompt : String) (days : Nat) (sm dm : Bool) (seed : Nat) :
    (answer_chat b m co prompt days sm dm seed).2 =
      if blockedTerms.any (fun t => strIn t (pyLower ⟨pyStrip prompt.data⟩)) then []
      else (executeWithHealing b m co
        (chooseSql co ⟨pyStrip prompt.data⟩ (chatLimit sm) sm).1
        (chooseSql co ⟨pyStrip prompt.data⟩ (chatLimit sm) sm).2.1
        ⟨pyStrip prompt.data⟩ sm).2.2.2 := by
  unfold answer_chat
  dsimp only
  split <;> rfl

/-- C9: in every run of the coordinator `answer_chat`, the warehouse executor
is invoked at most twice in total, and the LLM repair collaborator
(`_self_heal_sql`) is invoked at most once — there is never a second healing
attempt. -/
theorem answer_chat_collaborator_budget (b : List String) (m : Nat)
    (co : Collaborators) (prompt : String) (days : Nat) (sm dm : Bool) (seed : Nat) :
    countExec (answer_chat b m co prompt days sm dm seed).2 ≤ 2 ∧
    countHeal (answer_chat b m co prompt days sm dm seed).2 ≤ 1 := by
  rw [answer_chat_trace_eq]
  split
  · simp [countExec, countHeal]
  · rcases executeWithHealing_trace_cases b m co
        (chooseSql co ⟨pyStrip prompt.data⟩ (chatLimit sm) sm).1
        (chooseSql co ⟨pyStrip prompt.data⟩ (chatLimit sm) sm).2.1
        ⟨pyStrip prompt.data⟩ sm with ⟨s₁, h⟩ | ⟨s₁, e, s₂, h⟩ | ⟨s₁, e, h⟩ <;> rw [h]
    · have e1 := run_query_countExec b m co s₁
      have h1 := run_query_countHeal b m co s₁
      constructor <;> omega
    · have e1 := run_query_countExec b m co s₁
      have e2 := run_query_countExec b m co s₂
      have h1 := run_query_countHeal b m co s₁
      have h2 := run_query_countHeal b m co s₂
      refine ⟨?_, ?_⟩
      · rw [countExec_append, countExec_append, countExec_healCall]; omega
      · rw [countHeal_append, countHeal_append, countHeal_healCall]; omega
    · have e1 := run_query_countExec b m co s₁
      have h1 := run_query_countHeal b m co s₁
      refine ⟨?_, ?_⟩
      · rw [countExec_append, countExec_healCall]; omega
      · rw [countHeal_append, countHeal_healCall]; omega

/-- C1: every SQL string handed to the warehouse executor during a run of
`answer_chat` — the original query or a healed replacement — is the output of
`validate_query` on some input: both executions go through `_run_query`, which
validates (and row-limits) on the same code path before executing, so the
executor is never invoked with text that failed validation. -/
theorem answer_chat_executes_only_validated_sql (b : List String) (m : Nat)
    (co : Collaborators) (prompt : String) (days : Nat) (sm dm : Bool) (seed : Nat)
    (t : String)
    (h : Event.execCall t ∈ (answer_chat b m co prompt days sm dm seed).2) :
    ∃ q, validate_query b m q = Except.ok t := by
  rw [answer_chat_trace_eq] at h
  split at h
  · simp at h
  · rcases executeWithHealing_trace_cases b m co
        (chooseSql co ⟨pyStrip prompt.data⟩ (chatLimit sm) sm).1
        (chooseSql co ⟨pyStrip prompt.data⟩ (chatLimit sm) sm).2.1
        ⟨pyStrip prompt.data⟩ sm with ⟨s₁, hh⟩ | ⟨s₁, e, s₂, hh⟩ | ⟨s₁, e, hh⟩ <;>
      rw [hh] at h
    · exact ⟨s₁, run_query_exec_validated b m co s₁ t h⟩
    · rcases List.mem_append.mp h with h' | h'
      · rcases List.mem_append.mp h' with h'' | h''
        · exact ⟨s₁, run_query_exec_validated b m co s₁ t h''⟩
        · simp at h''
      · exact ⟨s₂, run_query_exec_validated b m co s₂ t h'⟩
    · rcases List.mem_append.mp h with h' | h'
      · exact ⟨s₁, run_query_exec_validated b m co s₁ t h'⟩
      · simp at h'

theorem answer_chat_executes_only_validated_sql_witness :
    ∃ q, validate_query banned_sql_patterns max_rows_returned q =
      Except.ok ("SELECT 1 LIMIT 500") :=
  answer_chat_executes_only_validated_sql banned_sql_patterns max_rows_returned
    okCollab ("go") 0 false false 0 ("SELECT 1 LIMIT 500") (by decide)

/-- C3 (counterexample): with a generator proposing `DROP TABLE x` and a repair
agent that declines, the first attempt fails as a validator rejection
(`_run_query` reports `"Validation: Only SELECT queries are allowed."`), and
`answer_chat` nevertheless invokes the LLM repair collaborator — its trace is
exactly that healing call, contradicting the claim that validator rejections
are never healed. -/
theorem validator_rejection_is_healed_counterexample :
    (run_query banned_sql_patterns max_rows_returned valFailCollab
        ("DROP TABLE x LIMIT 500")).1.2.2 =
      "Validation: Only SELECT queries are allowed." ∧
    (answer_chat banned_sql_patterns max_rows_returned valFailCollab
        ("fetch") 0 false false 0).2 =
      [Event.healCall ("DROP TABLE x LIMIT 500")
        ("Validation: Only SELECT queries are allowed.")] := by
  exact ⟨rfl, rfl⟩

/-- C3 (amended): the healing cycle of `answer_chat` is gated only on the
failure of the first attempt and on the SQL having come from the LLM — not on
the kind of failure.  The repair collaborator is invoked exactly when the
prompt is not PII-blocked, the source is the LLM, and the first `_run_query`
attempt failed, whether that failure was a validator rejection, missing
credentials, or a runtime error; keyword-fallback queries are never healed. -/
theorem answer_chat_heal_gate (b : List String) (m : Nat) (co : Collaborators)
    (prompt : String) (days : Nat) (sm dm : Bool) (seed : Nat) :
    0 < countHeal (answer_chat b m co prompt days sm dm seed).2 ↔
      (blockedTerms.any (fun t => strIn t (pyLower ⟨pyStrip prompt.data⟩)) = false ∧
       (chooseSql co ⟨pyStrip prompt.data⟩ (chatLimit sm) sm).2.1 = true ∧
       (run_query b m co
         (chooseSql co ⟨pyStrip prompt.data⟩ (chatLimit sm) sm).1).1.1 = false) := by
  rw [answer_chat_trace_eq]
  split
  · next hb =>
      simp only [countHeal, List.countP_nil, lt_self_iff_false, false_iff]
      intro hc
      exact absurd hb (by simp [hc.1])
  · next hb =>
      rw [Bool.not_eq_true] at hb
      unfold executeWithHealing
      dsimp only
      split
      · next hcond =>
          rw [Bool.and_eq_true, Bool.not_eq_true'] at hcond
          split
          · split <;>
            · simp [countHeal_append, countHeal_healCall, hb, hcond.1, hcond.2]
              exact Or.inr (by rw [countHeal_cons_heal]; omega)
          · simp [countHeal_append, countHeal_healCall, hb, hcond.1, hcond.2]
      · next hcond =>
          rw [Bool.and_eq_true, Bool.not_eq_true'] at hcond
          push_neg at hcond
          have h1 := run_query_countHeal b m co
            (chooseSql co ⟨pyStrip prompt.data⟩ (chatLimit sm) sm).1
          simp only [h1, lt_self_iff_false, false_iff]
          intro hc
          exact absurd (hcond hc.2.2) (by simp [hc.2.1])

/-! ## Lemmas about the validator -/

theorem find?_unique_hit {α : Type} (l : List α) (f : α → Bool) (p : α)
    (hmem : p ∈ l) (hp : f p = true) (hall : ∀ q ∈ l, f q = true → q = p) :
    l.find? f = some p := by
  induction l with
  | nil => cases hmem
  | cons a t ih =>
      by_cases hfa : f a = true
      · have ha : a = p := hall a (List.mem_cons_self a t) hfa
        subst ha
        exact List.find?_cons_of_pos _ hfa
      · have hne : a ≠ p := fun h => hfa (h ▸ hp)
        have hm : p ∈ t := by
          rcases List.mem_cons.mp hmem with h | h
          · exact absurd h.symm hne
          · exact h
        rw [List.find?_cons_of_neg _ (by simpa using hfa)]
        exact ih hm (fun q hq hfq => hall q (List.mem_cons_of_mem a hq) hfq)

theorem find?_first_decomp {α : Type} (l : List α) (f : α → Bool) (p : α)
    (h : l.find? f = some p) :
    f p = true ∧ ∃ l₁ l₂, l = l₁ ++ p :: l₂ ∧ ∀ q ∈ l₁, f q = false := by
  induction l with
  | nil => simp [List.find?] at h
  | cons a t ih =>
      cases hfa : f a
      · rw [List.find?_cons_of_neg _ (by simp [hfa])] at h
        obtain ⟨hf, l₁, l₂, heq, hall⟩ := ih h
        refine ⟨hf, a :: l₁, l₂, by rw [heq, List.cons_append], ?_⟩
        intro q hq
        rcases List.mem_cons.mp hq with rfl | hq'
        · exact hfa
        · exact hall q hq'
      · rw [List.find?_cons_of_pos _ hfa] at h
        injection h with h
        subst h
        exact ⟨hfa, [], t, rfl, by intro q hq; cases hq⟩

theorem validate_query_banned_result (banned : List String) (maxRows : Nat)
    (sql : String) (hne : sql.data ≠ [])
    (hshape : (List.isPrefixOf ("SELECT".data) (normalizedUpper sql) ||
               List.isPrefixOf ("WITH".data) (normalizedUpper sql)) = true)
    (p : String) (hfb : firstBanned banned (normalizedUpper sql) = some p) :
    validate_query banned maxRows sql =
      .error (if p = "SELECT *" then Rejection.WildcardSelect
              else Rejection.BannedPattern p) := by
  unfold validate_query
  rw [if_neg hne]
  dsimp only
  rw [hshape, hfb]
  rfl

theorem toUpper_of_pyIsSpace {c : Char} (h : pyIsSpace c = true) : c.toUpper = c := by
  simp only [pyIsSpace, Bool.or_eq_true, decide_eq_true_eq] at h
  unfold Char.toUpper
  dsimp only
  rw [if_neg (by omega)]

theorem dropWhile_nil_of_all {p : Char → Bool} {l : List Char} (h : l.all p = true) :
    l.dropWhile p = [] := by
  rw [List.dropWhile_eq_nil_iff]
  intro x hx
  exact List.all_eq_true.mp h x hx

theorem dropTrailingWhile_nil_of_all {p : Char → Bool} {l : List Char}
    (h : l.all p = true) : dropTrailingWhile p l = [] := by
  unfold dropTrailingWhile
  rw [dropWhile_nil_of_all (by
    rw [List.all_eq_true]
    intro x hx
    exact List.all_eq_true.mp h x (List.mem_reverse.mp hx))]
  rfl

theorem stripLeadingFence_of_space {l : List Char} (h : l.all pyIsSpace = true) :
    stripLeadingFence l = l := by
  unfold stripLeadingFence
  dsimp only
  rw [dropWhile_nil_of_all h]
  rfl

theorem stripTrailingFence_of_space {l : List Char} (h : l.all pyIsSpace = true) :
    stripTrailingFence l = l := by
  unfold stripTrailingFence
  dsimp only
  rw [dropTrailingWhile_nil_of_all h]
  rfl

theorem all_space_map_toUpper {l : List Char} (h : l.all pyIsSpace = true) :
    (l.map Char.toUpper).all pyIsSpace = true := by
  rw [List.all_eq_true]
  intro x hx
  rcases List.mem_map.mp hx with ⟨c, hc, rfl⟩
  have hc' := List.all_eq_true.mp h c hc
  rw [toUpper_of_pyIsSpace hc']
  exact hc'

theorem normalizedUpper_of_space {s : String} (h : s.data.all pyIsSpace = true) :
    normalizedUpper s = [] := by
  unfold normalizedUpper stripFences
  rw [stripLeadingFence_of_space h, stripTrailingFence_of_space h]
  unfold pyStrip
  rw [dropWhile_nil_of_all (all_space_map_toUpper h)]
  rfl

/-- C7 (amended): every nonempty string whose text — after markdown-fence
stripping, upper-casing and trimming — starts with neither `SELECT` nor
`WITH` is rejected with `NotSelectStatement`; this is a prefix check only, so
any statement beginning with a DML/DDL verb is rejected at this step.  (The
empty string is the one exception: it is rejected earlier, as `EmptyInput`.) -/
theorem not_select_or_with_rejected (banned : List String) (maxRows : Nat)
    (s : String) (hne : s.data ≠ [])
    (h : (List.isPrefixOf ("SELECT".data) (normalizedUpper s) ||
          List.isPrefixOf ("WITH".data) (normalizedUpper s)) = false) :
    validate_query banned maxRows s = Except.error Rejection.NotSelectStatement := by
  unfold validate_query
  rw [if_neg hne]
  dsimp only
  rw [h]
  rfl

theorem not_select_or_with_rejected_witness :
    validate_query banned_sql_patterns max_rows_returned ("DELETE FROM t") =
      Except.error Rejection.NotSelectStatement :=
  not_select_or_with_rejected banned_sql_patterns max_rows_returned
    ("DELETE FROM t") (by decide) (by decide)

/-- C7 (counterexample): the empty string also fails the SELECT/WITH prefix
test after normalization, but `validate_query` rejects it with `EmptyInput`,
not `NotSelectStatement` — the claim's universal quantification over every
string fails at `""`. -/
theorem empty_string_not_select_counterexample :
    (List.isPrefixOf ("SELECT".data) (normalizedUpper ("")) ||
     List.isPrefixOf ("WITH".data) (normalizedUpper (""))) = false ∧
    validate_query banned_sql_patterns max_rows_returned ("") =
      Except.error Rejection.EmptyInput ∧
    Rejection.EmptyInput ≠ Rejection.NotSelectStatement :=
  ⟨rfl, rfl, by decide⟩

/-- C6 (amended): the empty string is rejected with `EmptyInput`, but a
nonempty all-whitespace string passes the `if not sql` test and is instead
rejected with `NotSelectStatement` (its normalized text is empty, so the
SELECT/WITH prefix test fails). -/
theorem empty_and_whitespace_rejections (banned : List String) (maxRows : Nat)
    (s : String) :
    (s = "" → validate_query banned maxRows s = Except.error Rejection.EmptyInput) ∧
    (s.data ≠ [] → s.data.all pyIsSpace = true →
      validate_query banned maxRows s = Except.error Rejection.NotSelectStatement) := by
  constructor
  · rintro rfl
    rfl
  · intro hne hws
    unfold validate_query
    rw [if_neg hne]
    dsimp only
    rw [normalizedUpper_of_space hws]
    rfl

theorem empty_and_whitespace_rejections_witness :
    validate_query banned_sql_patterns max_rows_returned ("") =
      Except.error Rejection.EmptyInput ∧
    validate_query banned_sql_patterns max_rows_returned (" \t ") =
      Except.error Rejection.NotSelectStatement :=
  ⟨(empty_and_whitespace_rejections banned_sql_patterns max_rows_returned ("")).1 rfl,
   (empty_and_whitespace_rejections banned_sql_patterns max_rows_returned (" \t ")).2
     (by decide) (by decide)⟩

/-- C6 (counterexample): a whitespace-only input is rejected, but with
`NotSelectStatement`, not the claimed `EmptyInput`. -/
theorem whitespace_not_empty_input_counterexample :
    validate_query banned_sql_patterns max_rows_returned (" ") =
      Except.error Rejection.NotSelectStatement ∧
    Rejection.NotSelectStatement ≠ Rejection.EmptyInput :=
  ⟨rfl, by decide⟩

/-- C2 (counterexample): under a policy whose banned-pattern list is empty,
`validate_query` accepts `SELECT * FROM governed.sales` (and appends a limit):
the wildcard check is implemented as the `"SELECT *"` entry of the banned
list, so rejection is not independent of the list's contents. -/
theorem wildcard_depends_on_policy_counterexample :
    validate_query [] 10000 ("SELECT * FROM governed.sales") =
      Except.ok ("SELECT * FROM governed.sales LIMIT 10000") := rfl

/-- C2 (amended): a standalone `SELECT` followed by whitespace and `*` is
rejected with `WildcardSelect` whenever the policy's banned-pattern list
contains the entry `"SELECT *"` and no other listed pattern also matches the
text; in particular `SELECT * FROM governed.sales` is so rejected under the
canonical policy.  The check is an entry of the banned-list sweep, not an
independent step. -/
theorem wildcard_select_rejected (banned : List String) (maxRows : Nat)
    (hmem : "SELECT *" ∈ banned)
    (honly : ∀ q ∈ banned,
      bannedProbe q (normalizedUpper ("SELECT * FROM governed.sales")) = true →
        q = "SELECT *") :
    validate_query banned maxRows ("SELECT * FROM governed.sales") =
      Except.error Rejection.WildcardSelect := by
  have hfb : firstBanned banned (normalizedUpper ("SELECT * FROM governed.sales")) =
      some ("SELECT *") :=
    find?_unique_hit banned _ _ hmem (by rfl) honly
  have h := validate_query_banned_result banned maxRows
    ("SELECT * FROM governed.sales") (by decide) (by decide) ("SELECT *") hfb
  rw [if_pos rfl] at h
  exact h

theorem wildcard_select_rejected_witness :
    validate_query banned_sql_patterns max_rows_returned
        ("SELECT * FROM governed.sales") =
      Except.error Rejection.WildcardSelect :=
  wildcard_select_rejected banned_sql_patterns max_rows_returned
    (by decide) (by decide)

/-- C4: banned-pattern matching is whole-word and first-match-in-policy-order:
(1) whenever the sweep reports a pattern, that pattern's whole-word probe
matched and every pattern listed before it failed its probe (so the reported
pattern is the first match in the policy's declared order); (2) `UPDATE`
occurring only inside the longer identifier `UPDATED_AT` does not trigger
`BannedPattern` — the query is accepted — and indeed the word-bounded search
for `UPDATE` fails on that text; (3) a whole-word `DELETE` after a semicolon
in a multi-statement payload is rejected with `BannedPattern "DELETE"`. -/
theorem banned_pattern_whole_word_first_match :
    (∀ (banned : List String) (su : List Char) (p : String),
        firstBanned banned su = some p →
          bannedProbe p su = true ∧
          ∃ l₁ l₂, banned = l₁ ++ p :: l₂ ∧ ∀ q ∈ l₁, bannedProbe q su = false) ∧
    validate_query banned_sql_patterns max_rows_returned
        ("SELECT UPDATED_AT FROM governed.orders") =
      Except.ok ("SELECT UPDATED_AT FROM governed.orders LIMIT 10000") ∧
    hasWordOcc ("UPDATE".data)
        (normalizedUpper ("SELECT UPDATED_AT FROM governed.orders")) = false ∧
    validate_query banned_sql_patterns max_rows_returned
        ("SELECT id FROM governed.customers; DELETE FROM governed.customers WHERE id=1") =
      Except.error (Rejection.BannedPattern ("DELETE")) :=
  ⟨fun banned su p h => find?_first_decomp banned (fun q => bannedProbe q su) p h, rfl, rfl, rfl⟩

theorem banned_pattern_whole_word_first_match_witness :
    bannedProbe ("DELETE")
        (normalizedUpper ("SELECT id FROM governed.customers; DELETE FROM governed.customers WHERE id=1")) = true ∧
    ∃ l₁ l₂, banned_sql_patterns = l₁ ++ "DELETE" :: l₂ ∧
      ∀ q ∈ l₁, bannedProbe q
        (normalizedUpper ("SELECT id FROM governed.customers; DELETE FROM governed.customers WHERE id=1")) = false :=
  banned_pattern_whole_word_first_match.1 banned_sql_patterns
    (normalizedUpper ("SELECT id FROM governed.customers; DELETE FROM governed.customers WHERE id=1"))
    ("DELETE") (by rfl)

/-- C5 (counterexample): only the first `LIMIT <integer>` clause is examined.
Here the first clause is `LIMIT 5` (within bound), so the query is returned
completely untouched even though its later clause `LIMIT 50000` exceeds
`max_rows = 10000` — the claim required that clause to be rewritten and its
digits to disappear. -/
theorem limit_only_first_clause_counterexample :
    validate_query banned_sql_patterns max_rows_returned
        ("SELECT a LIMIT 5 LIMIT 50000") =
      Except.ok ("SELECT a LIMIT 5 LIMIT 50000") ∧
    listContains ("50000".data) ("SELECT a LIMIT 5 LIMIT 50000").data = true ∧
    50000 > max_rows_returned :=
  ⟨rfl, rfl, by decide⟩

/-- C5 (amended): on accepted queries, row-limit enforcement is driven by the
first `LIMIT <integer>` clause (word-bounded, integer followed by a word
boundary) of the normalized text: if its integer exceeds `max_rows`, every
`LIMIT <digits>` occurrence of the fence-stripped text is rewritten in place
to `LIMIT max_rows`; if it is within bound the fence-stripped text is
returned untouched (even when a later clause exceeds the bound); if there is
no such clause, trailing semicolons/whitespace are stripped and
`" LIMIT <max_rows>"` is appended.  On the spec's example the oversized limit
is clamped and its digits disappear. -/
theorem limit_enforcement_behaviour (banned : List String) (maxRows : Nat)
    (q r : String) (h : validate_query banned maxRows q = Except.ok r) :
    ((∀ n, findLimit (normalizedUpper q) = some n → n > maxRows →
        r.data = rewriteLimits maxRows (stripFences q.data)) ∧
     (∀ n, findLimit (normalizedUpper q) = some n → ¬(n > maxRows) →
        r.data = stripFences q.data) ∧
     (findLimit (normalizedUpper q) = none →
        r.data = dropTrailingWhile isSemiStripChar (stripFences q.data) ++
          (" LIMIT ".data ++ natDigits maxRows))) ∧
    (validate_query banned_sql_patterns max_rows_returned
        ("SELECT id FROM governed.sales LIMIT 50000") =
      Except.ok ("SELECT id FROM governed.sales LIMIT 10000") ∧
     listContains ("LIMIT 10000".data)
        ("SELECT id FROM governed.sales LIMIT 10000").data = true ∧
     listContains ("50000".data)
        ("SELECT id FROM governed.sales LIMIT 10000").data = false) := by
  refine ⟨?_, rfl, rfl, rfl⟩
  unfold validate_query at h
  split at h
  · exact absurd h (by simp)
  · dsimp only at h
    split at h
    · exact absurd h (by simp)
    · split at h
      · exact absurd h (by simp)
      · next hnone =>
          split at h
          · next n heq =>
              split at h
              · next hgt =>
                  have hr : r.data = rewriteLimits maxRows (stripFences q.data) := by
                    have := Except.ok.inj h
                    rw [← this]
                  refine ⟨?_, ?_, ?_⟩
                  · intro n' hn' _
                    exact hr
                  · intro n' hn' hle
                    rw [heq] at hn'
                    injection hn' with hnn
                    exact absurd (hnn ▸ hgt) hle
                  · intro hcontra
                    rw [heq] at hcontra
                    cases hcontra
              · next hle =>
                  have hr : r.data = stripFences q.data := by
                    have := Except.ok.inj h
                    rw [← this]
                  refine ⟨?_, ?_, ?_⟩
                  · intro n' hn' hgt
                    rw [heq] at hn'
                    injection hn' with hnn
                    exact absurd (hnn ▸ hgt) hle
                  · intro n' _ _
                    exact hr
                  · intro hcontra
                    rw [heq] at hcontra
                    cases hcontra
          · next heq =>
              have hr : r.data = dropTrailingWhile isSemiStripChar (stripFences q.data) ++
                  (" LIMIT ".data ++ natDigits maxRows) := by
                have := Except.ok.inj h
                rw [← this]
              refine ⟨?_, ?_, ?_⟩
              · intro n' hn' _
                rw [heq] at hn'
                cases hn'
              · intro n' hn' _
                rw [heq] at hn'
                cases hn'
              · intro _
                exact hr

theorem limit_enforcement_behaviour_witness :
    ("SELECT id FROM governed.sales LIMIT 10000").data =
      rewriteLimits max_rows_returned
        (stripFences ("SELECT id FROM governed.sales LIMIT 50000").data) :=
  (limit_enforcement_behaviour banned_sql_patterns max_rows_returned
      ("SELECT id FROM governed.sales LIMIT 50000")
      ("SELECT id FROM governed.sales LIMIT 10000") (by rfl)).1.1 50000
    (by rfl) (by decide)

/-! ## List utilities for the scan analyses -/

theorem dropWhile_all_append {p : Char → Bool} {a : List Char} (b : List Char)
    (h : ∀ c ∈ a, p c = true) : (a ++ b).dropWhile p = b.dropWhile p := by
  induction a with
  | nil => rfl
  | cons c t ih =>
      rw [List.cons_append, List.dropWhile_cons_of_pos (h c (by simp))]
      exact ih (fun x hx => h x (by simp [hx]))

theorem dropWhile_head_neg' {p : Char → Bool} {c : Char} (s : List Char)
    (h : p c = false) : (c :: s).dropWhile p = c :: s :=
  List.dropWhile_cons_of_neg (by simp [h])

theorem head_dropWhile_neg {p : Char → Bool} {l : List Char} {c : Char}
    (h : (l.dropWhile p).head? = some c) : p c = false := by
  induction l with
  | nil => simp [List.dropWhile] at h
  | cons a t ih =>
      by_cases hp : p a = true
      · rw [List.dropWhile_cons_of_pos hp] at h
        exact ih h
      · rw [List.dropWhile_cons_of_neg (by simpa using hp)] at h
        injection h with h
        subst h
        simpa using hp

theorem mem_of_getLast?' {l : List Char} {c : Char} (h : l.getLast? = some c) :
    c ∈ l := by
  induction l with
  | nil => simp at h
  | cons a t ih =>
      cases t with
      | nil =>
          simp only [List.getLast?_singleton] at h
          injection h with h
          simp [h]
      | cons x y =>
          rw [List.getLast?_cons_cons] at h
          exact List.mem_cons_of_mem a (ih h)

theorem getLast?_append_right {a b : List Char} (h : b ≠ []) :
    (a ++ b).getLast? = b.getLast? := by
  induction a with
  | nil => rfl
  | cons c t ih =>
      rw [List.cons_append, List.getLast?_cons, ih]
      cases b with
      | nil => exact absurd rfl h
      | cons x y => simp [List.getLast?_cons]

theorem prevAt_nil (prev : Bool) : prevAt prev [] = prev := rfl

theorem prevAt_append (prev : Bool) (a b : List Char) :
    prevAt prev (a ++ b) = prevAt (prevAt prev a) b := by
  cases hb : b with
  | nil => simp [prevAt]
  | cons x y =>
      unfold prevAt
      rw [getLast?_append_right (by simp)]
      cases hgl : (x :: y).getLast? with
      | none =>
          have : (x :: y) ≠ [] := by simp
          rw [List.getLast?_eq_none_iff] at hgl
          exact absurd hgl this
      | some c => rfl

theorem prevAt_cons (prev : Bool) (c : Char) (a : List Char) :
    prevAt prev (c :: a) = prevAt (isWordChar c) a := by
  have := prevAt_append prev [c] a
  simpa [prevAt] using this

theorem isWordChar_of_space {c : Char} (h : pyIsSpace c = true) :
    isWordChar c = false := by
  simp only [pyIsSpace, Bool.or_eq_true, decide_eq_true_eq] at h
  simp only [isWordChar, Bool.or_eq_false_iff, Bool.and_eq_false_iff,
    decide_eq_false_iff_not, not_le]
  omega

theorem prevAt_all_space {prev : Bool} {a : List Char}
    (h : ∀ c ∈ a, pyIsSpace c = true) (hp : prev = false) :
    prevAt prev a = false := by
  cases ha : a.getLast? with
  | none => unfold prevAt; rw [ha, hp]
  | some c =>
      unfold prevAt
      rw [ha]
      exact isWordChar_of_space (h c (mem_of_getLast?' ha))

theorem head?_append_left {a b : List Char} (h : a ≠ []) :
    (a ++ b).head? = a.head? := by
  cases a with
  | nil => exact absurd rfl h
  | cons c t => rfl

theorem dtw_decomp (p : Char → Bool) (l : List Char) :
    ∃ r, l = dropTrailingWhile p l ++ r ∧ ∀ c ∈ r, p c = true := by
  refine ⟨(l.reverse.takeWhile p).reverse, ?_, ?_⟩
  · unfold dropTrailingWhile
    rw [← List.reverse_append, List.takeWhile_append_dropWhile, List.reverse_reverse]
  · intro c hc
    rw [List.mem_reverse] at hc
    exact List.mem_takeWhile_imp hc

theorem dtw_last_neg {p : Char → Bool} {l : List Char} {c : Char}
    (h : (dropTrailingWhile p l).getLast? = some c) : p c = false := by
  unfold dropTrailingWhile at h
  rw [List.getLast?_reverse] at h
  exact head_dropWhile_neg h

theorem dtw_append_all {p : Char → Bool} {b : List Char} (a : List Char)
    (h : ∀ c ∈ b, p c = true) :
    dropTrailingWhile p (a ++ b) = dropTrailingWhile p a := by
  unfold dropTrailingWhile
  rw [List.reverse_append]
  rw [dropWhile_all_append _ (fun c hc => h c (List.mem_reverse.mp hc))]

theorem dtw_of_last_neg {p : Char → Bool} {a : List Char} {c : Char}
    (hl : a.getLast? = some c) (hc : p c = false) :
    dropTrailingWhile p a = a := by
  unfold dropTrailingWhile
  have hh : a.reverse.head? = some c := by rw [List.head?_reverse]; exact hl
  cases hrev : a.reverse with
  | nil => rw [hrev] at hh; simp at hh
  | cons x y =>
      rw [hrev] at hh
      injection hh with hh
      subst hh
      rw [dropWhile_head_neg' _ hc]
      exact (List.reverse_eq_iff.mp hrev).symm

theorem dtw_append_dtw_ne {p : Char → Bool} {b : List Char} (a : List Char)
    (h : dropTrailingWhile p b ≠ []) :
    dropTrailingWhile p (a ++ b) = a ++ dropTrailingWhile p b := by
  obtain ⟨r, hb, hr⟩ := dtw_decomp p b
  have h2 : a ++ b = (a ++ dropTrailingWhile p b) ++ r := by
    rw [List.append_assoc, ← hb]
  rw [h2, dtw_append_all _ hr]
  cases hl : (dropTrailingWhile p b).getLast? with
  | none => exact absurd (List.getLast?_eq_none_iff.mp hl) h
  | some c =>
      exact dtw_of_last_neg (by rw [getLast?_append_right h]; exact hl) (dtw_last_neg hl)

theorem dtw_append_last_neg {p : Char → Bool} {a : List Char} {c : Char}
    (b : List Char) (hl : a.getLast? = some c) (hc : p c = false) :
    dropTrailingWhile p (a ++ b) = a ++ dropTrailingWhile p b := by
  by_cases hb : dropTrailingWhile p b = []
  · obtain ⟨r, hbr, hr⟩ := dtw_decomp p b
    rw [hb, List.nil_append] at hbr
    rw [hb, List.append_nil]
    rw [hbr, dtw_append_all a hr]
    exact dtw_of_last_neg hl hc
  · exact dtw_append_dtw_ne a hb

/-! ## Characterizations of the regex scans -/

theorem space_not_digit {c : Char} (h : pyIsSpace c = true) : pyIsDigit c = false := by
  simp only [pyIsSpace, Bool.or_eq_true, decide_eq_true_eq] at h
  simp only [pyIsDigit, Bool.and_eq_false_iff, decide_eq_false_iff_not, not_le]
  omega

theorem digit_not_space {c : Char} (h : pyIsDigit c = true) : pyIsSpace c = false := by
  simp only [pyIsDigit, Bool.and_eq_true, decide_eq_true_eq] at h
  simp only [pyIsSpace, Bool.or_eq_false_iff, decide_eq_false_iff_not]
  omega

theorem digit_isWordChar {c : Char} (h : pyIsDigit c = true) : isWordChar c = true := by
  simp only [pyIsDigit, Bool.and_eq_true, decide_eq_true_eq] at h
  simp only [isWordChar, Bool.or_eq_true, Bool.and_eq_true, decide_eq_true_eq]
  omega

theorem nonword_not_digit {c : Char} (h : isWordChar c = false) : pyIsDigit c = false := by
  cases hd : pyIsDigit c
  · rfl
  · rw [digit_isWordChar hd] at h
    exact absurd h (by simp)

theorem takeWhile_all_append {p : Char → Bool} {w : List Char} (z : List Char)
    (h : ∀ c ∈ w, p c = true) : (w ++ z).takeWhile p = w ++ z.takeWhile p := by
  induction w with
  | nil => rfl
  | cons c t ih =>
      rw [List.cons_append, List.takeWhile_cons_of_pos (h c (by simp))]
      rw [ih (fun x hx => h x (by simp [hx])), List.cons_append]

theorem takeWhile_head_neg {p : Char → Bool} {c : Char} (z : List Char)
    (h : p c = false) : (c :: z).takeWhile p = [] :=
  List.takeWhile_cons_of_neg (by simp [h])

theorem getLast?_cons_eq_getLastD (c : Char) (cs : List Char) :
    (c :: cs).getLast? = some (cs.getLastD c) := by
  induction cs generalizing c with
  | nil => rfl
  | cons x y ih => rw [List.getLast?_cons_cons, ih, List.getLastD_cons]

theorem wordMatchAt_iff {prev : Bool} {p s : List Char} (hp : p ≠ []) :
    wordMatchAt prev p s = true ↔
      ∃ b, s = p ++ b ∧ (prev != isWordOpt p.head?) = true ∧
        (isWordOpt p.getLast? != isWordOpt b.head?) = true := by
  cases p with
  | nil => exact absurd rfl hp
  | cons c cs =>
      unfold wordMatchAt
      simp only [Bool.and_eq_true]
      constructor
      · rintro ⟨⟨hpre, h1⟩, h2⟩
        obtain ⟨b, hb⟩ := List.isPrefixOf_iff_prefix.mp hpre
        refine ⟨b, hb.symm, ?_, ?_⟩
        · simpa [isWordOpt] using h1
        · rw [getLast?_cons_eq_getLastD]
          have hd : (s.drop (cs.length + 1)) = b := by
            rw [← hb]
            have h5 : (c :: cs).length = cs.length + 1 := by simp
            rw [← h5]
            exact List.drop_left (c :: cs) b
          rw [hd] at h2
          simpa [isWordOpt] using h2
      · rintro ⟨b, rfl, h1, h2⟩
        refine ⟨⟨?_, ?_⟩, ?_⟩
        · exact List.isPrefixOf_iff_prefix.mpr ⟨b, rfl⟩
        · simpa [isWordOpt] using h1
        · rw [getLast?_cons_eq_getLastD] at h2
          have hd : (((c :: cs) ++ b).drop (cs.length + 1)) = b := by
            have : (c :: cs).length = cs.length + 1 := by simp
            rw [← this, List.drop_left]
          rw [hd]
          simpa [isWordOpt] using h2

theorem wordSearchAux_iff {p : List Char} (hp : p ≠ []) (s : List Char) (prev : Bool) :
    wordSearchAux prev p s = true ↔
      ∃ a b, s = a ++ p ++ b ∧ (prevAt prev a != isWordOpt p.head?) = true ∧
        (isWordOpt p.getLast? != isWordOpt b.head?) = true := by
  induction s generalizing prev with
  | nil =>
      unfold wordSearchAux
      rw [wordMatchAt_iff hp]
      constructor
      · rintro ⟨b, hb, h1, h2⟩
        exact ⟨[], b, by simpa using hb, by simpa [prevAt] using h1, h2⟩
      · rintro ⟨a, b, heq, h1, h2⟩
        have ha : a = [] ∧ p ++ b = [] := by
          constructor
          · cases a with
            | nil => rfl
            | cons x y => simp at heq
          · cases a with
            | nil => simpa using heq.symm
            | cons x y => simp at heq
        exact ⟨b, by rw [ha.1] at heq; simpa using heq.symm, by rw [ha.1] at h1; simpa [prevAt] using h1, h2⟩
  | cons c cs ih =>
      unfold wordSearchAux
      rw [Bool.or_eq_true, wordMatchAt_iff hp, ih]
      constructor
      · rintro (⟨b, heq, h1, h2⟩ | ⟨a, b, heq, h1, h2⟩)
        · exact ⟨[], b, by simpa using heq, by simpa [prevAt] using h1, h2⟩
        · exact ⟨c :: a, b, by rw [heq]; simp, by rw [prevAt_cons]; exact h1, h2⟩
      · rintro ⟨a, b, heq, h1, h2⟩
        cases a with
        | nil =>
            left
            exact ⟨b, by simpa using heq, by simpa [prevAt] using h1, h2⟩
        | cons x a' =>
            right
            rw [List.cons_append, List.cons_append] at heq
            injection heq with hc heq'
            subst hc
            exact ⟨a', b, by simpa using heq', by rw [prevAt_cons] at h1; exact h1, h2⟩

theorem hasWordOcc_iff {p : List Char} (hp : p ≠ []) (s : List Char) :
    hasWordOcc p s = true ↔
      ∃ a b, s = a ++ p ++ b ∧ (prevAt false a != isWordOpt p.head?) = true ∧
        (isWordOpt p.getLast? != isWordOpt b.head?) = true :=
  wordSearchAux_iff hp s false

theorem drop_takeWhile_length (p : Char → Bool) (u : List Char) :
    u.drop (u.takeWhile p).length = u.dropWhile p := by
  induction u with
  | nil => rfl
  | cons c t ih =>
      cases hpc : p c with
      | false =>
          rw [List.takeWhile_cons_of_neg (by simp [hpc]),
              List.dropWhile_cons_of_neg (by simp [hpc])]
          rfl
      | true =>
          rw [List.takeWhile_cons_of_pos hpc, List.dropWhile_cons_of_pos hpc]
          simpa using ih

theorem takeWhile_nil_of_head {p : Char → Bool} {b : List Char}
    (h : ∀ c, b.head? = some c → p c = false) : b.takeWhile p = [] := by
  cases b with
  | nil => rfl
  | cons c t => exact takeWhile_head_neg t (h c rfl)

theorem selectStarAt_iff {prev : Bool} {s : List Char} :
    selectStarAt prev s = true ↔
      ∃ w b, s = "SELECT".data ++ w ++ '*' :: b ∧ prev = false ∧
        w ≠ [] ∧ (∀ c ∈ w, pyIsSpace c = true) := by
  unfold selectStarAt
  simp only [Bool.and_eq_true, Bool.not_eq_true']
  constructor
  · rintro ⟨⟨hpre, hprev⟩, hm⟩
    obtain ⟨b₀, hb₀⟩ := List.isPrefixOf_iff_prefix.mp hpre
    have ht : s.drop 6 = b₀ := by
      rw [← hb₀]
      have h6 : ("SELECT".data).length = 6 := rfl
      rw [← h6]
      exact List.drop_left _ _
    rw [ht] at hm
    cases hh : b₀.head? with
    | none => rw [hh] at hm; exact absurd hm (by simp)
    | some c =>
        rw [hh, Bool.and_eq_true, decide_eq_true_eq] at hm
        obtain ⟨hws, hstar⟩ := hm
        cases hdw : b₀.dropWhile pyIsSpace with
        | nil => rw [hdw] at hstar; exact absurd hstar (by simp)
        | cons x r =>
            rw [hdw] at hstar
            simp only [List.head?_cons, Option.some.injEq] at hstar
            subst hstar
            refine ⟨b₀.takeWhile pyIsSpace, r, ?_, hprev, ?_, ?_⟩
            · conv_lhs => rw [← hb₀]
              rw [List.append_assoc]
              congr 1
              have h2 := List.takeWhile_append_dropWhile (p := pyIsSpace) (l := b₀)
              rw [hdw] at h2
              exact h2.symm
            · intro hW
              have hb : b₀ = '*' :: r := by
                have h2 := List.takeWhile_append_dropWhile (p := pyIsSpace) (l := b₀)
                rw [hW, List.nil_append, hdw] at h2
                exact h2.symm
              rw [hb] at hh
              simp only [List.head?_cons, Option.some.injEq] at hh
              rw [← hh] at hws
              exact absurd hws (by decide)
            · intro c' hc'
              exact List.mem_takeWhile_imp hc'
  · rintro ⟨w, b, heq, hprev, hw, hws⟩
    subst heq
    have hpre : List.isPrefixOf ("SELECT".data) ("SELECT".data ++ w ++ '*' :: b) = true :=
      List.isPrefixOf_iff_prefix.mpr ⟨w ++ '*' :: b, rfl⟩
    have ht : ("SELECT".data ++ w ++ '*' :: b).drop 6 = w ++ '*' :: b := by
      have h6 : ("SELECT".data).length = 6 := rfl
      rw [← h6]
      exact List.drop_left _ _
    refine ⟨⟨hpre, hprev⟩, ?_⟩
    rw [ht]
    cases w with
    | nil => exact absurd rfl hw
    | cons x xs =>
        have hx : pyIsSpace x = true := hws x (by simp)
        have hdw2 : ((x :: xs) ++ '*' :: b).dropWhile pyIsSpace = '*' :: b := by
          rw [dropWhile_all_append _ hws, dropWhile_head_neg' _ (by decide)]
        simp only [List.cons_append, List.head?_cons] at hdw2 ⊢
        rw [hx]
        simp [hdw2]

theorem selectStarSearchAux_iff (s : List Char) (prev : Bool) :
    selectStarSearchAux prev s = true ↔ ∃ a w b, StarDecomp prev s a w b := by
  induction s generalizing prev with
  | nil =>
      constructor
      · intro h
        exact absurd h (by simp [selectStarSearchAux])
      · rintro ⟨a, w, b, heq, -, -, -⟩
        have h2 := heq.symm
        rw [List.append_eq_nil] at h2
        exact absurd h2.2 (by simp)
  | cons c cs ih =>
      unfold selectStarSearchAux
      rw [Bool.or_eq_true, selectStarAt_iff, ih]
      unfold StarDecomp
      constructor
      · rintro (⟨w, b, heq, hprev, hw, hws⟩ | ⟨a, w, b, heq, hprev, hw, hws⟩)
        · exact ⟨[], w, b, by simpa using heq, by simpa [prevAt] using hprev, hw, hws⟩
        · exact ⟨c :: a, w, b, by rw [heq]; simp, by rw [prevAt_cons]; exact hprev, hw, hws⟩
      · rintro ⟨a, w, b, heq, hprev, hw, hws⟩
        cases a with
        | nil =>
            left
            exact ⟨w, b, by simpa using heq, by simpa [prevAt] using hprev, hw, hws⟩
        | cons x a' =>
            right
            simp only [List.cons_append] at heq
            injection heq with hc heq'
            subst hc
            exact ⟨a', w, b, by simpa using heq',
              by rw [prevAt_cons] at hprev; exact hprev, hw, hws⟩

theorem hasSelectStar_iff (s : List Char) :
    hasSelectStar s = true ↔ ∃ a w b, StarDecomp false s a w b :=
  selectStarSearchAux_iff s false

theorem takeWhile_ne_nil_of_head {p : Char → Bool} {c : Char} {l : List Char}
    (hh : l.head? = some c) (hp : p c = true) : l.takeWhile p ≠ [] := by
  cases l with
  | nil => simp at hh
  | cons x t =>
      injection hh with hh
      subst hh
      rw [List.takeWhile_cons_of_pos hp]
      simp

theorem limitSearchAt_some_iff {prev : Bool} {s : List Char} {v : Nat} :
    limitSearchAt prev s = some v ↔
      ∃ w d b, LimitDecomp prev s [] w d b ∧ natOfDigits d = v := by
  constructor
  · intro h
    unfold limitSearchAt at h
    by_cases hc : (List.isPrefixOf ("LIMIT".data) s && !prev) = true
    case neg => rw [if_neg hc] at h; exact absurd h (by simp)
    rw [if_pos hc] at h
    rw [Bool.and_eq_true, Bool.not_eq_true'] at hc
    obtain ⟨hpre, hprev⟩ := hc
    obtain ⟨b₀, hb₀⟩ := List.isPrefixOf_iff_prefix.mp hpre
    have ht : s.drop 5 = b₀ := by
      rw [← hb₀]
      have h5 : ("LIMIT".data).length = 5 := rfl
      rw [← h5]
      exact List.drop_left _ _
    rw [ht] at h
    dsimp only at h
    generalize hho : b₀.head? = oh at h
    cases oh with
    | none => exact absurd h (by simp)
    | some c =>
        dsimp only at h
        by_cases hws : pyIsSpace c = true
        case neg => rw [if_neg hws] at h; exact absurd h (by simp)
        rw [if_pos hws] at h
        cases hdd : (b₀.dropWhile pyIsSpace).takeWhile pyIsDigit with
        | nil => rw [hdd] at h; exact absurd h (by simp)
        | cons y ys =>
            rw [hdd] at h
            rw [if_neg (by simp)] at h
            by_cases hwd :
                isWordOpt ((b₀.dropWhile pyIsSpace).drop (y :: ys).length).head? = true
            case pos => rw [if_pos hwd] at h; exact absurd h (by simp)
            rw [if_neg hwd] at h
            injection h with h
            refine ⟨b₀.takeWhile pyIsSpace, y :: ys,
              (b₀.dropWhile pyIsSpace).drop (y :: ys).length, ⟨?_, ?_, ?_, ?_, ?_, ?_, ?_⟩, h⟩
            · have hu_split : b₀.dropWhile pyIsSpace =
                  (y :: ys) ++ (b₀.dropWhile pyIsSpace).drop (y :: ys).length := by
                conv_lhs => rw [← List.takeWhile_append_dropWhile (p := pyIsDigit)
                    (l := b₀.dropWhile pyIsSpace), hdd,
                  ← drop_takeWhile_length pyIsDigit, hdd]
              have hb₀_split : b₀ = b₀.takeWhile pyIsSpace ++
                  ((y :: ys) ++ (b₀.dropWhile pyIsSpace).drop (y :: ys).length) := by
                conv_lhs => rw [← List.takeWhile_append_dropWhile (p := pyIsSpace)
                    (l := b₀), hu_split]
              rw [← hb₀]
              conv_lhs => rw [hb₀_split]
              simp only [List.nil_append, List.append_assoc]
            · rw [prevAt_nil]; exact hprev
            · exact takeWhile_ne_nil_of_head hho hws
            · intro c' hc'; exact List.mem_takeWhile_imp hc'
            · simp
            · intro c' hc'
              apply List.mem_takeWhile_imp (l := b₀.dropWhile pyIsSpace)
              rw [hdd]
              exact hc'
            · simpa using hwd
  · rintro ⟨w, d, b, ⟨heq, hprev, hw, hws, hd, hds, hb⟩, hv⟩
    rw [prevAt_nil] at hprev
    simp only [List.nil_append] at heq
    subst heq
    have hpre : List.isPrefixOf ("LIMIT".data) ("LIMIT".data ++ w ++ d ++ b) = true := by
      apply List.isPrefixOf_iff_prefix.mpr
      exact ⟨w ++ d ++ b, by simp⟩
    unfold limitSearchAt
    rw [if_pos (by rw [hpre, hprev]; rfl)]
    have ht : ("LIMIT".data ++ w ++ d ++ b).drop 5 = w ++ d ++ b := by
      have h5 : ("LIMIT".data).length = 5 := rfl
      rw [← h5, List.append_assoc, List.append_assoc]
      have h2 := List.drop_left ("LIMIT".data) (w ++ (d ++ b))
      simpa using h2
    rw [ht]
    dsimp only
    cases hwc : w with
    | nil => exact absurd hwc hw
    | cons x xs =>
        subst hwc
        have hx : pyIsSpace x = true := hws x (by simp)
        have hu : ((x :: xs) ++ d ++ b).dropWhile pyIsSpace = d ++ b := by
          rw [List.append_assoc, dropWhile_all_append _ hws]
          cases d with
          | nil => exact absurd rfl hd
          | cons y ys =>
              rw [List.cons_append]
              exact dropWhile_head_neg' _ (digit_not_space (hds y (by simp)))
        have hds2 : (d ++ b).takeWhile pyIsDigit = d := by
          rw [takeWhile_all_append _ hds, takeWhile_nil_of_head, List.append_nil]
          intro c' hc'
          apply nonword_not_digit
          rw [hc'] at hb
          simpa [isWordOpt] using hb
        have hu2 : (x :: ((xs ++ d) ++ b)).dropWhile pyIsSpace = d ++ b := by
          have hshape : x :: ((xs ++ d) ++ b) = ((x :: xs) ++ d) ++ b := by simp
          rw [hshape]
          exact hu
        simp only [List.cons_append, List.head?_cons]
        rw [hx, if_pos rfl, hu2, hds2]
        rw [if_neg (by simpa using hd)]
        rw [List.drop_left, if_neg (by simpa using hb)]
        rw [hv]

theorem limitSearchAux_some {prev : Bool} {s : List Char} {v : Nat}
    (h : limitSearchAux prev s = some v) :
    ∃ a w d b, LimitDecomp prev s a w d b ∧ natOfDigits d = v := by
  induction s generalizing prev with
  | nil => exact absurd h (by simp [limitSearchAux])
  | cons c cs ih =>
      unfold limitSearchAux at h
      cases hat : limitSearchAt prev (c :: cs) with
      | some n =>
          rw [hat] at h
          dsimp only at h
          injection h with h
          subst h
          obtain ⟨w, d, b, hdec, hval⟩ := limitSearchAt_some_iff.mp hat
          exact ⟨[], w, d, b, hdec, hval⟩
      | none =>
          rw [hat] at h
          dsimp only at h
          obtain ⟨a, w, d, b, ⟨heq, hprev, hrest⟩, hval⟩ := ih h
          refine ⟨c :: a, w, d, b, ⟨by rw [heq]; simp, ?_, hrest⟩, hval⟩
          rw [prevAt_cons]
          exact hprev

theorem limitSearchAux_complete {prev : Bool} {s a w d b : List Char}
    (h : LimitDecomp prev s a w d b) : ∃ v, limitSearchAux prev s = some v := by
  induction a generalizing prev s with
  | nil =>
      have hsome : limitSearchAt prev s = some (natOfDigits d) :=
        limitSearchAt_some_iff.mpr ⟨w, d, b, h, rfl⟩
      obtain ⟨heq, -, -, -, -, -, -⟩ := h
      cases hs : s with
      | nil =>
          rw [hs] at heq
          exact absurd heq.symm (by simp)
      | cons c cs =>
          rw [hs] at hsome
          refine ⟨natOfDigits d, ?_⟩
          unfold limitSearchAux
          rw [hsome]
  | cons x a' ih =>
      obtain ⟨heq, hprev, hw, hws, hd, hds, hb⟩ := h
      subst heq
      rw [prevAt_cons] at hprev
      have hdec' : LimitDecomp (isWordChar x)
          (a' ++ "LIMIT".data ++ w ++ d ++ b) a' w d b :=
        ⟨rfl, hprev, hw, hws, hd, hds, hb⟩
      obtain ⟨v, hv⟩ := ih hdec'
      cases hat : limitSearchAt prev
          (x :: (a' ++ "LIMIT".data ++ w ++ d ++ b)) with
      | some n =>
          refine ⟨n, ?_⟩
          show limitSearchAux prev
              (x :: (a' ++ "LIMIT".data ++ w ++ d ++ b)) = some n
          unfold limitSearchAux
          rw [hat]
      | none =>
          refine ⟨v, ?_⟩
          show limitSearchAux prev
              (x :: (a' ++ "LIMIT".data ++ w ++ d ++ b)) = some v
          unfold limitSearchAux
          rw [hat]
          dsimp only
          exact hv

theorem findLimit_some {s : List Char} {v : Nat} (h : findLimit s = some v) :
    ∃ a w d b, LimitDecomp false s a w d b ∧ natOfDigits d = v :=
  limitSearchAux_some h

theorem findLimit_isSome {s a w d b : List Char} (h : LimitDecomp false s a w d b) :
    ∃ v, findLimit s = some v :=
  limitSearchAux_complete h

theorem toNat_ofNat_valid {n : Nat} (h : Nat.isValidChar n) : (Char.ofNat n).toNat = n := by
  unfold Char.ofNat
  rw [dif_pos h]
  unfold Char.ofNatAux Char.toNat
  simp [UInt32.toNat, BitVec.toNat_ofNatLt]

theorem char_eq_iff_toNat {c d : Char} : c = d ↔ c.toNat = d.toNat := by
  constructor
  · intro h; rw [h]
  · intro h
    apply Char.eq_of_val_eq
    exact UInt32.ext h

theorem toUpper_toNat (c : Char) :
    c.toUpper.toNat = if 97 ≤ c.toNat ∧ c.toNat ≤ 122 then c.toNat - 32 else c.toNat := by
  unfold Char.toUpper
  dsimp only
  split
  · next h => exact toNat_ofNat_valid (Or.inl (by omega))
  · next h => rfl

theorem tu_tu (c : Char) : c.toUpper.toUpper = c.toUpper := by
  apply char_eq_iff_toNat.mpr
  rw [toUpper_toNat c.toUpper]
  by_cases hr : 97 ≤ c.toNat ∧ c.toNat ≤ 122
  · have h := toUpper_toNat c
    rw [if_pos hr] at h
    rw [h, if_neg (by omega)]
  · have h := toUpper_toNat c
    rw [if_neg hr] at h
    rw [h, if_neg hr]

theorem pyIsSpace_toUpper (c : Char) : pyIsSpace c.toUpper = pyIsSpace c := by
  have h := toUpper_toNat c
  unfold pyIsSpace
  rw [Bool.eq_iff_iff]
  simp only [Bool.or_eq_true, decide_eq_true_eq]
  by_cases hr : 97 ≤ c.toNat ∧ c.toNat ≤ 122
  · rw [if_pos hr] at h
    omega
  · rw [if_neg hr] at h
    omega

theorem pyIsDigit_toUpper (c : Char) : pyIsDigit c.toUpper = pyIsDigit c := by
  have h := toUpper_toNat c
  unfold pyIsDigit
  rw [Bool.eq_iff_iff]
  simp only [Bool.and_eq_true, decide_eq_true_eq]
  by_cases hr : 97 ≤ c.toNat ∧ c.toNat ≤ 122
  · rw [if_pos hr] at h
    omega
  · rw [if_neg hr] at h
    omega

theorem isWordChar_toUpper (c : Char) : isWordChar c.toUpper = isWordChar c := by
  have h := toUpper_toNat c
  unfold isWordChar
  rw [Bool.eq_iff_iff]
  simp only [Bool.or_eq_true, Bool.and_eq_true, decide_eq_true_eq]
  by_cases hr : 97 ≤ c.toNat ∧ c.toNat ≤ 122
  · rw [if_pos hr] at h
    omega
  · rw [if_neg hr] at h
    omega

theorem isSemiStripChar_toNat (c : Char) :
    isSemiStripChar c =
      (c.toNat = 59 || c.toNat = 32 || c.toNat = 9 || c.toNat = 10 || c.toNat = 13) := by
  unfold isSemiStripChar
  rw [Bool.eq_iff_iff]
  simp only [Bool.or_eq_true, decide_eq_true_eq, char_eq_iff_toNat]
  rfl

theorem isSemiStripChar_toUpper (c : Char) :
    isSemiStripChar c.toUpper = isSemiStripChar c := by
  have h := toUpper_toNat c
  rw [isSemiStripChar_toNat, isSemiStripChar_toNat]
  rw [Bool.eq_iff_iff]
  simp only [Bool.or_eq_true, decide_eq_true_eq]
  by_cases hr : 97 ≤ c.toNat ∧ c.toNat ≤ 122
  · rw [if_pos hr] at h
    omega
  · rw [if_neg hr] at h
    omega

theorem toUpper_of_semiStrip {c : Char} (h : isSemiStripChar c = true) : c.toUpper = c := by
  apply char_eq_iff_toNat.mpr
  rw [toUpper_toNat]
  rw [isSemiStripChar_toNat] at h
  simp only [Bool.or_eq_true, decide_eq_true_eq] at h
  rw [if_neg (by omega)]

theorem semiStrip_not_word {c : Char} (h : isSemiStripChar c = true) :
    isWordChar c = false := by
  rw [isSemiStripChar_toNat] at h
  unfold isWordChar
  simp only [Bool.or_eq_true, decide_eq_true_eq] at h
  simp only [Bool.or_eq_false_iff, Bool.and_eq_false_iff, decide_eq_false_iff_not]
  omega

theorem isWordChar_not_space {c : Char} (h : isWordChar c = true) :
    pyIsSpace c = false := by
  unfold isWordChar at h
  unfold pyIsSpace
  simp only [Bool.or_eq_true, Bool.and_eq_true, decide_eq_true_eq] at h
  simp only [Bool.or_eq_false_iff, decide_eq_false_iff_not]
  omega

theorem map_toUpper_idem (l : List Char) :
    (l.map Char.toUpper).map Char.toUpper = l.map Char.toUpper := by
  rw [List.map_map]
  apply List.map_congr_left
  intro c _
  exact tu_tu c

theorem takeWhile_map_toUpper {p : Char → Bool} (hp : ∀ c, p c.toUpper = p c)
    (l : List Char) :
    (l.map Char.toUpper).takeWhile p = (l.takeWhile p).map Char.toUpper := by
  induction l with
  | nil => rfl
  | cons c t ih =>
      rw [List.map_cons]
      cases hc : p c with
      | true =>
          rw [List.takeWhile_cons_of_pos (by rw [hp]; exact hc),
              List.takeWhile_cons_of_pos hc, List.map_cons, ih]
      | false =>
          rw [List.takeWhile_cons_of_neg (by simp [hp, hc]),
              List.takeWhile_cons_of_neg (by simp [hc])]
          rfl

theorem dropWhile_map_toUpper {p : Char → Bool} (hp : ∀ c, p c.toUpper = p c)
    (l : List Char) :
    (l.map Char.toUpper).dropWhile p = (l.dropWhile p).map Char.toUpper := by
  induction l with
  | nil => rfl
  | cons c t ih =>
      rw [List.map_cons]
      cases hc : p c with
      | true =>
          rw [List.dropWhile_cons_of_pos (by rw [hp]; exact hc),
              List.dropWhile_cons_of_pos hc, ih]
      | false =>
          rw [List.dropWhile_cons_of_neg (by simp [hp, hc]),
              List.dropWhile_cons_of_neg (by simp [hc])]
          rfl

theorem dtw_map_toUpper {p : Char → Bool} (hp : ∀ c, p c.toUpper = p c)
    (l : List Char) :
    dropTrailingWhile p (l.map Char.toUpper) =
      (dropTrailingWhile p l).map Char.toUpper := by
  unfold dropTrailingWhile
  rw [← List.map_reverse, dropWhile_map_toUpper hp, ← List.map_reverse]

theorem pyStrip_map_toUpper (l : List Char) :
    pyStrip (l.map Char.toUpper) = (pyStrip l).map Char.toUpper := by
  unfold pyStrip
  rw [dropWhile_map_toUpper pyIsSpace_toUpper, dtw_map_toUpper pyIsSpace_toUpper]

theorem dtw_pref (p : Char → Bool) (l : List Char) :
    dropTrailingWhile p l <+: l := by
  obtain ⟨r, hl, -⟩ := dtw_decomp p l
  exact ⟨r, hl.symm⟩

theorem isWordOpt_head_dtw {p : Char → Bool} {l : List Char}
    (h : isWordOpt l.head? = false) :
    isWordOpt (dropTrailingWhile p l).head? = false := by
  obtain ⟨r, hl, -⟩ := dtw_decomp p l
  cases hd : dropTrailingWhile p l with
  | nil => rfl
  | cons c t =>
      rw [hd] at hl
      rw [hl] at h
      simpa using h

theorem isWordOpt_head_append {b z : List Char} (hb : isWordOpt b.head? = false)
    (hz : isWordOpt z.head? = false) : isWordOpt (b ++ z).head? = false := by
  cases b with
  | nil => simpa using hz
  | cons c t => simpa using hb

theorem isWordOpt_head_semiStrip {z : List Char}
    (hz : ∀ c ∈ z, isSemiStripChar c = true) : isWordOpt z.head? = false := by
  cases z with
  | nil => rfl
  | cons c t => simpa [isWordOpt] using semiStrip_not_word (hz c (by simp))

theorem occ_append_cases {x T a p b : List Char} (h : x ++ T = a ++ p ++ b) :
    (∃ b₁, x = a ++ p ++ b₁ ∧ b = b₁ ++ T) ∨
    (∃ p₁ p₂, p = p₁ ++ p₂ ∧ p₂ ≠ [] ∧ x = a ++ p₁ ∧ T = p₂ ++ b) ∨
    (∃ a₂, a = x ++ a₂ ∧ T = a₂ ++ p ++ b) := by
  rw [List.append_assoc] at h
  rcases List.append_eq_append_iff.mp h with ⟨m, ha, hT⟩ | ⟨m, hx, hm⟩
  · right; right
    exact ⟨m, ha, by rw [hT, List.append_assoc]⟩
  · rcases List.append_eq_append_iff.mp hm with ⟨k, hmk, hb⟩ | ⟨k, hpk, hT⟩
    · left
      refine ⟨k, ?_, hb⟩
      rw [hx, hmk, List.append_assoc]
    · cases k with
      | nil =>
          left
          refine ⟨[], ?_, ?_⟩
          · rw [hx, hpk]; simp
          · rw [hT]; simp
      | cons kc kt =>
          right; left
          exact ⟨m, kc :: kt, hpk, by simp, hx, hT⟩

theorem append_eq_take_drop {T u v : List Char} (h : T = u ++ v) :
    u = T.take u.length ∧ v = T.drop u.length ∧ u.length ≤ T.length := by
  subst h
  refine ⟨?_, ?_, ?_⟩
  · rw [List.take_left]
  · rw [List.drop_left]
  · simp

theorem isWordOpt_head_of_all {p : List Char} (hp : p ≠ [])
    (hpw : ∀ c ∈ p, isWordChar c = true) : isWordOpt p.head? = true := by
  cases p with
  | nil => exact absurd rfl hp
  | cons c t => simpa [isWordOpt] using hpw c (by simp)

theorem isWordOpt_getLast_of_all {p : List Char} (hp : p ≠ [])
    (hpw : ∀ c ∈ p, isWordChar c = true) : isWordOpt p.getLast? = true := by
  cases hgl : p.getLast? with
  | none => rw [List.getLast?_eq_none_iff] at hgl; exact absurd hgl hp
  | some c => simpa [isWordOpt] using hpw c (mem_of_getLast?' hgl)

theorem hasWordOcc_append_cases {p W T : List Char} (hp : p ≠ [])
    (hpw : ∀ c ∈ p, isWordChar c = true)
    (hTh : isWordOpt T.head? = false)
    (hTin : ∀ j, j ≤ T.length → p.isPrefixOf (T.drop j) = false)
    (h : hasWordOcc p (W ++ T) = true) :
    ∃ a b₁, W = a ++ p ++ b₁ ∧ prevAt false a = false ∧
      isWordOpt b₁.head? = false := by
  obtain ⟨a, b, heq, h1, h2⟩ := (hasWordOcc_iff hp _).mp h
  rcases occ_append_cases heq with ⟨b₁, hx, hb⟩ | ⟨p₁, p₂, hp12, hp2ne, hx, hT⟩ |
    ⟨a₂, ha, hT⟩
  · refine ⟨a, b₁, hx, ?_, ?_⟩
    · rw [isWordOpt_head_of_all hp hpw] at h1
      simpa using h1
    · cases hb₁ : b₁ with
      | nil => rfl
      | cons c t =>
          rw [isWordOpt_getLast_of_all hp hpw] at h2
          rw [hb, hb₁] at h2
          simpa using h2
  · exfalso
    cases p₂ with
    | nil => exact hp2ne rfl
    | cons c t =>
        have hcw : isWordChar c = true := hpw c (by rw [hp12]; simp)
        rw [hT] at hTh
        rw [List.cons_append] at hTh
        simp [isWordOpt, hcw] at hTh
  · exfalso
    rw [List.append_assoc] at hT
    obtain ⟨-, hdrop, hlen⟩ := append_eq_take_drop hT
    have hpre : p.isPrefixOf (T.drop a₂.length) = true := by
      rw [← hdrop]
      exact List.isPrefixOf_iff_prefix.mpr ⟨b, rfl⟩
    rw [hTin a₂.length hlen] at hpre
    exact absurd hpre (by simp)

theorem hasWordOcc_transfer {p W su : List Char} (hp : p ≠ [])
    (hpw : ∀ c ∈ p, isWordChar c = true)
    {a b₁ : List Char} (hW : W = a ++ p ++ b₁) (hprev : prevAt false a = false)
    (hb : isWordOpt b₁.head? = false)
    (hcase : (∃ z, su = W ++ z ∧ ∀ c ∈ z, isSemiStripChar c = true) ∨
             su = dropTrailingWhile pyIsSpace W) :
    hasWordOcc p su = true := by
  apply (hasWordOcc_iff hp su).mpr
  rcases hcase with ⟨z, hsu, hz⟩ | hsu
  · refine ⟨a, b₁ ++ z, by rw [hsu, hW]; simp, ?_, ?_⟩
    · rw [isWordOpt_head_of_all hp hpw, hprev]
      rfl
    · rw [isWordOpt_getLast_of_all hp hpw,
        isWordOpt_head_append hb (isWordOpt_head_semiStrip hz)]
      rfl
  · have hlast : ∃ c, p.getLast? = some c := by
      cases hgl : p.getLast? with
      | none => rw [List.getLast?_eq_none_iff] at hgl; exact absurd hgl hp
      | some c => exact ⟨c, rfl⟩
    obtain ⟨c, hgl⟩ := hlast
    have hcw : isWordChar c = true := hpw c (mem_of_getLast?' hgl)
    have hsu2 : su = a ++ p ++ dropTrailingWhile pyIsSpace b₁ := by
      rw [hsu, hW, List.append_assoc, ← List.append_assoc a p b₁]
      rw [dtw_append_last_neg b₁ (by rw [getLast?_append_right hp]; exact hgl)
        (isWordChar_not_space hcw)]
    refine ⟨a, dropTrailingWhile pyIsSpace b₁, hsu2, ?_, ?_⟩
    · rw [isWordOpt_head_of_all hp hpw, hprev]
      rfl
    · rw [isWordOpt_getLast_of_all hp hpw, isWordOpt_head_dtw hb]
      rfl

theorem hasSelectStar_append_cases {W T : List Char}
    (hT : ('*' : Char) ∉ T)
    (h : hasSelectStar (W ++ T) = true) :
    ∃ a w b₁, W = a ++ "SELECT".data ++ w ++ '*' :: b₁ ∧ prevAt false a = false ∧
      w ≠ [] ∧ (∀ c ∈ w, pyIsSpace c = true) := by
  obtain ⟨a, w, b, heq, hprev, hw, hws⟩ := (hasSelectStar_iff _).mp h
  have heq' : W ++ T = a ++ ("SELECT".data ++ w ++ ['*']) ++ b := by
    rw [heq]
    simp
  rcases occ_append_cases heq' with ⟨b₁, hx, hb⟩ |
    ⟨p₁, p₂, hp12, hp2ne, hx, hT2⟩ | ⟨a₂, ha, hT2⟩
  · exact ⟨a, w, b₁, by rw [hx]; simp, hprev, hw, hws⟩
  · exfalso
    have hl : (("SELECT".data ++ w ++ ['*']) : List Char).getLast? = some '*' := by
      rw [getLast?_append_right (by simp)]
      rfl
    rw [hp12, getLast?_append_right hp2ne] at hl
    exact hT (by rw [hT2]; exact List.mem_append_left _ (mem_of_getLast?' hl))
  · exfalso
    apply hT
    rw [hT2]
    have hm : ('*' : Char) ∈ ("SELECT".data ++ w ++ ['*']) := by simp
    exact List.mem_append_left _ (List.mem_append_right _ hm)

theorem hasSelectStar_transfer {W su : List Char}
    {a w b₁ : List Char} (hW : W = a ++ "SELECT".data ++ w ++ '*' :: b₁)
    (hprev : prevAt false a = false) (hw : w ≠ [])
    (hws : ∀ c ∈ w, pyIsSpace c = true)
    (hcase : (∃ z, su = W ++ z ∧ ∀ c ∈ z, isSemiStripChar c = true) ∨
             su = dropTrailingWhile pyIsSpace W) :
    hasSelectStar su = true := by
  apply (hasSelectStar_iff su).mpr
  rcases hcase with ⟨z, hsu, hz⟩ | hsu
  · refine ⟨a, w, b₁ ++ z, ?_, hprev, hw, hws⟩
    rw [hsu, hW]
    simp
  · have hsu2 : su = a ++ "SELECT".data ++ w ++ '*' ::
        dropTrailingWhile pyIsSpace b₁ := by
      rw [hsu, hW]
      have hre : a ++ "SELECT".data ++ w ++ '*' :: b₁ =
          (a ++ "SELECT".data ++ w ++ ['*']) ++ b₁ := by simp
      rw [hre, dtw_append_last_neg b₁
        (by rw [getLast?_append_right (by simp)]; rfl) (by decide)]
      simp
    exact ⟨a, w, dropTrailingWhile pyIsSpace b₁, hsu2, hprev, hw, hws⟩

theorem findLimit_append_T {W : List Char} {v : Nat}
    (h : findLimit (W ++ " LIMIT 10000".data) = some v) :
    (∃ a w d b₁, W = a ++ "LIMIT".data ++ w ++ d ++ b₁ ∧ prevAt false a = false ∧
      w ≠ [] ∧ (∀ c ∈ w, pyIsSpace c = true) ∧ d ≠ [] ∧
      (∀ c ∈ d, pyIsDigit c = true) ∧ isWordOpt b₁.head? = false) ∨ v = 10000 := by
  obtain ⟨a, w, d, b, ⟨heq, hprev, hw, hws, hd, hds, hb⟩, hv⟩ := findLimit_some h
  have heq' : W ++ " LIMIT 10000".data = a ++ "LIMIT".data ++ (w ++ d ++ b) := by
    rw [heq]
    simp
  rcases occ_append_cases heq' with ⟨b₁, hx, hb1⟩ |
    ⟨p₁, p₂, hp12, hp2ne, hx, hT2⟩ | ⟨a₂, ha2, hT2⟩
  · have hb1' : b₁ ++ " LIMIT 10000".data = w ++ (d ++ b) := by
      rw [← hb1]
      simp
    rcases List.append_eq_append_iff.mp hb1' with ⟨m, hwm, hTm⟩ | ⟨m, hbm, hdm⟩
    · exfalso
      cases m with
      | nil =>
          rw [List.nil_append] at hTm
          cases d with
          | nil => exact hd rfl
          | cons cd dt =>
              have hh : (' ' : Char) = cd := by
                have h0 : (" LIMIT 10000".data).head? = ((cd :: dt) ++ b).head? := by
                  rw [← hTm]
                simpa using h0
              have : pyIsDigit ' ' = true := by
                rw [hh]
                exact hds cd (by simp)
              simp [pyIsDigit] at this
      | cons mc mt =>
          have hmc : (' ' : Char) = mc := by
            have h0 : (" LIMIT 10000".data).head? = ((mc :: mt) ++ (d ++ b)).head? := by
              rw [← hTm]
            simpa using h0
          have htail : "LIMIT 10000".data = mt ++ (d ++ b) := by
            have h1 : " LIMIT 10000".data = mc :: (mt ++ (d ++ b)) := hTm
            rw [← hmc] at h1
            have h0 : " LIMIT 10000".data = ' ' :: "LIMIT 10000".data := rfl
            rw [h0] at h1
            injection h1 with hh ht
          cases mt with
          | nil =>
              rw [List.nil_append] at htail
              cases d with
              | nil => exact hd rfl
              | cons cd dt =>
                  have hh : ('L' : Char) = cd := by
                    have h0 : ("LIMIT 10000".data).head? = ((cd :: dt) ++ b).head? := by
                      rw [htail]
                    simpa using h0
                  have : pyIsDigit 'L' = true := by
                    rw [hh]
                    exact hds cd (by simp)
                  simp [pyIsDigit] at this
          | cons c2 m2 =>
              have hh : ('L' : Char) = c2 := by
                have h0 : ("LIMIT 10000".data).head? = ((c2 :: m2) ++ (d ++ b)).head? := by
                  rw [htail]
                simpa using h0
              have hc2w : pyIsSpace c2 = true := by
                apply hws
                rw [hwm, ← hmc]
                simp
              rw [← hh] at hc2w
              simp [pyIsSpace] at hc2w
    · rcases List.append_eq_append_iff.mp hdm with ⟨k, hmk, hbk⟩ | ⟨k, hdk, hTk⟩
      · left
        refine ⟨a, w, d, k, ?_, hprev, hw, hws, hd, hds, ?_⟩
        · rw [hx, hbm, hmk]
          simp
        · cases k with
          | nil => rfl
          | cons c kt =>
              rw [hbk] at hb
              simpa using hb
      · cases k with
        | nil =>
            rw [List.append_nil] at hdk
            left
            refine ⟨a, w, d, [], ?_, hprev, hw, hws, hd, hds, rfl⟩
            rw [hx, hbm, hdk]
            simp
        | cons ck kt =>
            exfalso
            have hh : (' ' : Char) = ck := by
              have h0 : (" LIMIT 10000".data).head? = ((ck :: kt) ++ b).head? := by
                rw [← hTk]
              simpa using h0
            have : pyIsDigit ' ' = true := by
              rw [hh]
              apply hds
              rw [hdk]
              simp
            simp [pyIsDigit] at this
  · exfalso
    cases p₂ with
    | nil => exact hp2ne rfl
    | cons c t =>
        have hh : (' ' : Char) = c := by
          have h0 : (" LIMIT 10000".data).head? = ((c :: t) ++ (w ++ d ++ b)).head? := by
            rw [← hT2]
          simpa using h0
        have hcm : c ∈ "LIMIT".data := by
          rw [hp12]
          simp
        rw [← hh] at hcm
        simp at hcm
  · have hT2' : " LIMIT 10000".data = a₂ ++ ("LIMIT".data ++ (w ++ d ++ b)) := by
      rw [hT2]
      simp
    obtain ⟨hA, hRest, hLen⟩ := append_eq_take_drop hT2'
    have hpre : ("LIMIT".data).isPrefixOf ((" LIMIT 10000".data).drop a₂.length) = true := by
      rw [← hRest]
      exact List.isPrefixOf_iff_prefix.mpr ⟨w ++ d ++ b, by simp⟩
    have hjfact : ∀ j, j ≤ 12 →
        ("LIMIT".data).isPrefixOf ((" LIMIT 10000".data).drop j) = true → j = 1 := by
      decide
    have hlen12 : a₂.length ≤ 12 := hLen
    have hj1 : a₂.length = 1 := hjfact a₂.length hlen12 hpre
    rw [hj1] at hRest
    have hdrop1 : (" LIMIT 10000".data).drop 1 = "LIMIT 10000".data := rfl
    rw [hdrop1] at hRest
    obtain ⟨-, hRest2, -⟩ := append_eq_take_drop hRest.symm
    have hlim5 : ("LIMIT".data : List Char).length = 5 := rfl
    rw [hlim5] at hRest2
    have hdrop5 : ("LIMIT 10000".data).drop 5 = " 10000".data := rfl
    rw [hdrop5] at hRest2
    cases w with
    | nil => exact absurd rfl hw
    | cons cw wt =>
        have htail : "10000".data = wt ++ (d ++ b) := by
          have h0 : " 10000".data = ' ' :: "10000".data := rfl
          rw [h0] at hRest2
          have h1 : (cw :: wt) ++ d ++ b = cw :: (wt ++ (d ++ b)) := by simp
          rw [h1] at hRest2
          injection hRest2.symm
        cases wt with
        | nil =>
            rw [List.nil_append] at htail
            cases b with
            | nil =>
                rw [List.append_nil] at htail
                right
                rw [← hv, ← htail]
                decide
            | cons cb bt =>
                exfalso
                have hcb : cb ∈ "10000".data := by
                  rw [htail]
                  simp
                have hall10 : ∀ c ∈ "10000".data, pyIsDigit c = true := by decide
                have hcbd : pyIsDigit cb = true := hall10 cb hcb
                have : isWordChar cb = true := digit_isWordChar hcbd
                rw [show (cb :: bt).head? = some cb from rfl] at hb
                simp [isWordOpt, this] at hb
        | cons c2 w2 =>
            exfalso
            have hh : ('1' : Char) = c2 := by
              have h0 : ("10000".data).head? = ((c2 :: w2) ++ (d ++ b)).head? := by
                rw [htail]
              simpa using h0
            have hc2 : pyIsSpace c2 = true := hws c2 (by simp)
            rw [← hh] at hc2
            simp [pyIsSpace] at hc2

theorem findLimit_transfer {W su : List Char}
    {a w d b₁ : List Char} (hW : W = a ++ "LIMIT".data ++ w ++ d ++ b₁)
    (hprev : prevAt false a = false) (hw : w ≠ [])
    (hws : ∀ c ∈ w, pyIsSpace c = true)
    (hd : d ≠ []) (hds : ∀ c ∈ d, pyIsDigit c = true)
    (hb : isWordOpt b₁.head? = false)
    (hcase : (∃ z, su = W ++ z ∧ ∀ c ∈ z, isSemiStripChar c = true) ∨
             su = dropTrailingWhile pyIsSpace W) :
    ∃ v, findLimit su = some v := by
  rcases hcase with ⟨z, hsu, hz⟩ | hsu
  · refine findLimit_isSome (a := a) (w := w) (d := d) (b := b₁ ++ z)
      ⟨?_, hprev, hw, hws, hd, hds, ?_⟩
    · rw [hsu, hW]
      simp
    · exact isWordOpt_head_append hb (isWordOpt_head_semiStrip hz)
  · have hlastd : ∃ c, d.getLast? = some c := by
      cases hgl : d.getLast? with
      | none => rw [List.getLast?_eq_none_iff] at hgl; exact absurd hgl hd
      | some c => exact ⟨c, rfl⟩
    obtain ⟨c, hgl⟩ := hlastd
    have hcd := hds c (mem_of_getLast?' hgl)
    have hsu2 : su = a ++ "LIMIT".data ++ w ++ d ++ dropTrailingWhile pyIsSpace b₁ := by
      rw [hsu, hW]
      have hre : a ++ "LIMIT".data ++ w ++ d ++ b₁ =
          (a ++ "LIMIT".data ++ w ++ d) ++ b₁ := by simp
      rw [hre, dtw_append_last_neg b₁
        (by rw [getLast?_append_right hd]; exact hgl) (digit_not_space hcd)]
    exact findLimit_isSome ⟨hsu2, hprev, hw, hws, hd, hds, isWordOpt_head_dtw hb⟩

theorem findLimit_T_site (W : List Char) :
    ∃ v, findLimit (W ++ " LIMIT 10000".data) = some v := by
  refine findLimit_isSome (a := W ++ [' ']) (w := [' ']) (d := "10000".data)
    (b := []) ⟨?_, ?_, by simp, by decide, by decide, by decide, rfl⟩
  · have hT : (" LIMIT 10000".data : List Char) =
        [' '] ++ ("LIMIT".data ++ ([' '] ++ ("10000".data ++ ([] : List Char)))) := by
      decide
    rw [hT]
    simp
  · rw [prevAt_append]
    rfl

theorem findLimit_WT {W su : List Char}
    (hnone : findLimit su = none)
    (hcase : (∃ z, su = W ++ z ∧ ∀ c ∈ z, isSemiStripChar c = true) ∨
             su = dropTrailingWhile pyIsSpace W) :
    findLimit (W ++ " LIMIT 10000".data) = some 10000 := by
  obtain ⟨v, hv⟩ := findLimit_T_site W
  rcases findLimit_append_T hv with ⟨a, w, d, b₁, hW, hprev, hw, hws, hd, hds, hb⟩ | hv10
  · obtain ⟨v', hv'⟩ := findLimit_transfer hW hprev hw hws hd hds hb hcase
    rw [hnone] at hv'
    exact absurd hv' (by simp)
  · rw [hv10] at hv
    exact hv

theorem dropWhile_append_ne {p : Char → Bool} {x : List Char} (y : List Char)
    (h : x.dropWhile p ≠ []) : (x ++ y).dropWhile p = x.dropWhile p ++ y := by
  induction x with
  | nil => exact absurd rfl h
  | cons c t ih =>
      cases hc : p c with
      | true =>
          rw [List.dropWhile_cons_of_pos hc] at h
          rw [List.cons_append, List.dropWhile_cons_of_pos hc,
            List.dropWhile_cons_of_pos hc]
          exact ih h
      | false =>
          rw [List.cons_append, List.dropWhile_cons_of_neg (by simp [hc]),
            List.dropWhile_cons_of_neg (by simp [hc])]
          rfl

theorem pyStrip_X_T {X : List Char} (hW : X.dropWhile pyIsSpace ≠ []) :
    pyStrip (X ++ " LIMIT 10000".data) =
      X.dropWhile pyIsSpace ++ " LIMIT 10000".data := by
  unfold pyStrip
  rw [dropWhile_append_ne _ hW]
  apply dtw_of_last_neg (c := '0')
  · rw [getLast?_append_right (by decide)]
    decide
  · decide

theorem branchA_structure {U₀ p : List Char} (hp : p ≠ [])
    (hpns : ∀ c ∈ p, isSemiStripChar c = false)
    (hpre : p <+: pyStrip U₀) :
    (dropTrailingWhile isSemiStripChar U₀).dropWhile pyIsSpace ≠ [] ∧
    (p <+: (dropTrailingWhile isSemiStripChar U₀).dropWhile pyIsSpace) ∧
    ((∃ z, pyStrip U₀ =
        (dropTrailingWhile isSemiStripChar U₀).dropWhile pyIsSpace ++ z ∧
        ∀ c ∈ z, isSemiStripChar c = true) ∨
      pyStrip U₀ = dropTrailingWhile pyIsSpace
        ((dropTrailingWhile isSemiStripChar U₀).dropWhile pyIsSpace)) := by
  obtain ⟨z₀, hU, hz₀⟩ := dtw_decomp isSemiStripChar U₀
  have hW : (dropTrailingWhile isSemiStripChar U₀).dropWhile pyIsSpace ≠ [] := by
    intro hWn
    have hXws : ∀ c ∈ dropTrailingWhile isSemiStripChar U₀, pyIsSpace c = true :=
      List.dropWhile_eq_nil_iff.mp hWn
    have hsu : pyStrip U₀ =
        dropTrailingWhile pyIsSpace (z₀.dropWhile pyIsSpace) := by
      unfold pyStrip
      conv_lhs => rw [hU]
      rw [dropWhile_all_append _ hXws]
    cases hpc : p with
    | nil => exact hp hpc
    | cons c t =>
        obtain ⟨tail, htail⟩ := hpre
        have hcm : c ∈ pyStrip U₀ := by
          rw [← htail, hpc]
          simp
        have hsub : pyStrip U₀ ⊆ z₀ := by
          rw [hsu]
          intro x hx
          have h1 := (dtw_pref pyIsSpace (z₀.dropWhile pyIsSpace)).sublist.subset hx
          exact (List.dropWhile_sublist _).subset h1
        have hsem := hz₀ c (hsub hcm)
        rw [hpns c (by rw [hpc]; simp)] at hsem
        exact absurd hsem (by simp)
  have hcase : (∃ z, pyStrip U₀ =
      (dropTrailingWhile isSemiStripChar U₀).dropWhile pyIsSpace ++ z ∧
      ∀ c ∈ z, isSemiStripChar c = true) ∨
      pyStrip U₀ = dropTrailingWhile pyIsSpace
        ((dropTrailingWhile isSemiStripChar U₀).dropWhile pyIsSpace) := by
    have hsu : pyStrip U₀ = dropTrailingWhile pyIsSpace
        ((dropTrailingWhile isSemiStripChar U₀).dropWhile pyIsSpace ++ z₀) := by
      unfold pyStrip
      conv_lhs => rw [hU]
      rw [dropWhile_append_ne _ hW]
    by_cases hz : dropTrailingWhile pyIsSpace z₀ = []
    · right
      obtain ⟨r, hzr, hr⟩ := dtw_decomp pyIsSpace z₀
      rw [hz, List.nil_append] at hzr
      rw [hsu]
      conv_lhs => rw [hzr]
      rw [dtw_append_all _ hr]
    · left
      refine ⟨dropTrailingWhile pyIsSpace z₀, ?_, ?_⟩
      · rw [hsu, dtw_append_dtw_ne _ hz]
      · intro c hc
        exact hz₀ c ((dtw_pref pyIsSpace z₀).sublist.subset hc)
  refine ⟨hW, ?_, hcase⟩
  rcases hcase with ⟨z, hsu, hz⟩ | hsu
  · rw [hsu] at hpre
    obtain ⟨t, hpt⟩ := hpre
    rcases List.append_eq_append_iff.mp hpt with ⟨m, hWm, htm⟩ | ⟨m, hpm, hzm⟩
    · exact ⟨m, hWm.symm⟩
    · cases m with
      | nil =>
          rw [List.append_nil] at hpm
          exact ⟨[], by rw [← hpm, List.append_nil]⟩
      | cons c mt =>
          exfalso
          have hcz : c ∈ z := by
            rw [hzm]
            simp
          have hcp : c ∈ p := by
            rw [hpm]
            simp
          have h1 := hz c hcz
          rw [hpns c hcp] at h1
          exact absurd h1 (by simp)
  · rw [hsu] at hpre
    exact hpre.trans (dtw_pref pyIsSpace _)

theorem limitSubAt_some_decomp {prev : Bool} {s kept : List Char} {consumed : Nat}
    (h : limitSubAt prev s = some (kept, consumed)) :
    ∃ W₁ D₁, kept = s.take 5 ++ W₁ ∧
      s = s.take 5 ++ W₁ ++ D₁ ++ s.drop consumed ∧
      consumed = 5 + W₁.length + D₁.length ∧
      (s.take 5).map Char.toUpper = "LIMIT".data ∧ prev = false ∧
      5 ≤ s.length ∧
      W₁ ≠ [] ∧ (∀ c ∈ W₁, pyIsSpace c = true) ∧
      D₁ ≠ [] ∧ (∀ c ∈ D₁, pyIsDigit c = true) ∧
      (∀ c, (s.drop consumed).head? = some c → pyIsDigit c = false) := by
  unfold limitSubAt at h
  by_cases h1 : (ciPrefix ("LIMIT".data) s && s.length ≥ 5 && !prev) = true
  case neg => rw [if_neg h1] at h; exact absurd h (by simp)
  rw [if_pos h1] at h
  dsimp only at h
  by_cases h2 : ((s.drop 5).takeWhile pyIsSpace).isEmpty = true
  case pos => rw [if_pos h2] at h; exact absurd h (by simp)
  rw [if_neg h2] at h
  by_cases h3 : ((((s.drop 5).drop ((s.drop 5).takeWhile pyIsSpace).length).takeWhile
      pyIsDigit).isEmpty) = true
  case pos => rw [if_pos h3] at h; exact absurd h (by simp)
  rw [if_neg h3] at h
  injection h with h
  have hkept : s.take 5 ++ (s.drop 5).takeWhile pyIsSpace = kept := congrArg Prod.fst h
  have hcons : 5 + ((s.drop 5).takeWhile pyIsSpace).length +
      (((s.drop 5).drop ((s.drop 5).takeWhile pyIsSpace).length).takeWhile
        pyIsDigit).length = consumed := congrArg Prod.snd h
  simp only [Bool.and_eq_true] at h1
  obtain ⟨⟨hci, hlen⟩, hprev⟩ := h1
  have hci' : (s.take 5).map Char.toUpper = "LIMIT".data := by
    unfold ciPrefix at hci
    have hl5 : ("LIMIT".data : List Char).length = 5 := rfl
    rw [hl5] at hci
    simpa using hci
  have hws : ¬ ((s.drop 5).takeWhile pyIsSpace = []) := by
    simpa using h2
  have hds : ¬ (((s.drop 5).drop ((s.drop 5).takeWhile pyIsSpace).length).takeWhile
      pyIsDigit = []) := by
    simpa using h3
  have hdropc : s.drop consumed =
      ((s.drop 5).drop ((s.drop 5).takeWhile pyIsSpace).length).drop
        ((((s.drop 5).drop ((s.drop 5).takeWhile pyIsSpace).length).takeWhile
          pyIsDigit).length) := by
    rw [← hcons, List.drop_drop, List.drop_drop]
  have hsplitws : s.drop 5 = (s.drop 5).takeWhile pyIsSpace ++
      (s.drop 5).drop ((s.drop 5).takeWhile pyIsSpace).length := by
    rw [drop_takeWhile_length]
    exact (List.takeWhile_append_dropWhile _ _).symm
  have hsplitds : (s.drop 5).drop ((s.drop 5).takeWhile pyIsSpace).length =
      (((s.drop 5).drop ((s.drop 5).takeWhile pyIsSpace).length).takeWhile
        pyIsDigit) ++ s.drop consumed := by
    rw [hdropc, drop_takeWhile_length, drop_takeWhile_length]
    exact (List.takeWhile_append_dropWhile _ _).symm
  refine ⟨(s.drop 5).takeWhile pyIsSpace,
    ((s.drop 5).drop ((s.drop 5).takeWhile pyIsSpace).length).takeWhile pyIsDigit,
    hkept.symm, ?_, hcons.symm, hci', by simpa using hprev, by simpa using hlen,
    hws, fun c hc => List.mem_takeWhile_imp hc, hds,
    fun c hc => List.mem_takeWhile_imp hc, ?_⟩
  · conv_lhs => rw [← List.take_append_drop 5 s, hsplitws, hsplitds]
    simp
  · intro c hc
    apply head_dropWhile_neg (p := pyIsDigit)
      (l := (s.drop 5).drop ((s.drop 5).takeWhile pyIsSpace).length)
    rw [← drop_takeWhile_length, ← hdropc]
    exact hc

theorem rewriteLimitsAux_RW (M : Nat) :
    ∀ fuel prev s, List.length s ≤ fuel →
      RW M prev s (rewriteLimitsAux M fuel prev s) := by
  intro fuel
  induction fuel with
  | zero =>
      intro prev s hs
      have : s = [] := List.length_eq_zero.mp (Nat.le_zero.mp hs)
      subst this
      exact RW.nil prev
  | succ f ih =>
      intro prev s hs
      cases s with
      | nil => exact RW.nil prev
      | cons c cs =>
          show RW M prev (c :: cs) (rewriteLimitsAux M (f + 1) prev (c :: cs))
          unfold rewriteLimitsAux
          cases hsub : limitSubAt prev (c :: cs) with
          | none =>
              dsimp only
              rw [hsub]
              exact RW.copy c hsub (ih (isWordChar c) cs (by simpa using hs))
          | some kc =>
              dsimp only
              rw [hsub]
              obtain ⟨kept, consumed⟩ := kc
              have hc1 : 1 ≤ consumed := by
                obtain ⟨W₁, D₁, -, -, hcons, -⟩ := limitSubAt_some_decomp hsub
                omega
              refine RW.site kept consumed hsub (ih true ((c :: cs).drop consumed) ?_)
              rw [List.length_drop]
              simp only [List.length_cons] at hs ⊢
              omega

theorem rewriteLimits_RW (M : Nat) (s : List Char) :
    RW M false s (rewriteLimits M s) :=
  rewriteLimitsAux_RW M s.length false s (Nat.le_refl _)

theorem DigitSwap_symm {s t : List Char} (h : DigitSwap s t) : DigitSwap t s := by
  induction h with
  | nil => exact .nil
  | copy c _ ih => exact .copy c ih
  | swap hd hd' he he' _ ih => exact .swap he he' hd hd' ih

theorem DigitSwap_append_left (x : List Char) {s t : List Char}
    (h : DigitSwap s t) : DigitSwap (x ++ s) (x ++ t) := by
  induction x with
  | nil => exact h
  | cons c cx ih => exact .copy c ih

theorem DigitSwap_block (x : List Char) {d e s t : List Char} (hd : d ≠ [])
    (hd' : ∀ c ∈ d, pyIsDigit c = true) (he : e ≠ [])
    (he' : ∀ c ∈ e, pyIsDigit c = true) (h : DigitSwap s t) :
    DigitSwap (x ++ d ++ s) (x ++ e ++ t) := by
  rw [List.append_assoc, List.append_assoc]
  exact DigitSwap_append_left x (DigitSwap.swap hd hd' he he' h)

theorem RW_DigitSwap {M : Nat} {prev : Bool} {s t : List Char}
    (hMne : natDigits M ≠ []) (hMd : ∀ c ∈ natDigits M, pyIsDigit c = true)
    (h : RW M prev s t) : DigitSwap s t := by
  induction h with
  | nil _ => exact .nil
  | copy c _ _ ih => exact .copy c ih
  | site kept consumed hsub _ ih =>
      obtain ⟨W₁, D₁, hkept, hsplit, hcons, -, -, -, -, -, hD1ne, hD1, -⟩ :=
        limitSubAt_some_decomp hsub
      rw [hkept]
      conv_lhs => rw [hsplit]
      exact DigitSwap_block _ hD1ne hD1 hMne hMd ih

theorem DigitSwap_head_rel {s t : List Char} (h : DigitSwap s t) :
    (t.head? = none → s.head? = none) ∧
    (∀ c, t.head? = some c → ∃ cs, s.head? = some cs ∧
      pyIsDigit cs = pyIsDigit c ∧ pyIsSpace cs = pyIsSpace c ∧
      isWordChar cs = isWordChar c ∧ (pyIsDigit c = false → cs = c)) := by
  cases h with
  | nil => exact ⟨fun _ => rfl, fun c hc => absurd hc (by simp)⟩
  | @copy c s₂ t₂ h₂ =>
      refine ⟨fun hn => absurd hn (by simp), fun c₀ hc₀ => ?_⟩
      have hcc : c = c₀ := by simpa using hc₀
      subst hcc
      exact ⟨c, rfl, rfl, rfl, rfl, fun _ => rfl⟩
  | @swap d e s₂ t₂ hd hd' he he' h₂ =>
      cases d with
      | nil => exact absurd rfl hd
      | cons cd dt =>
          cases e with
          | nil => exact absurd rfl he
          | cons ce et =>
              refine ⟨fun hn => absurd hn (by simp), fun c₀ hc₀ => ?_⟩
              have hce : ce = c₀ := by simpa using hc₀
              subst hce
              have h1 : pyIsDigit cd = true := hd' cd (by simp)
              have h2 : pyIsDigit ce = true := he' ce (by simp)
              refine ⟨cd, by simp, by rw [h1, h2], ?_, ?_, ?_⟩
              · rw [digit_not_space h1, digit_not_space h2]
              · rw [digit_isWordChar h1, digit_isWordChar h2]
              · intro hcon
                rw [h2] at hcon
                exact absurd hcon (by simp)

theorem DigitSwap_head_word {s t : List Char} (h : DigitSwap s t) :
    isWordOpt t.head? = isWordOpt s.head? := by
  obtain ⟨hn, hs⟩ := DigitSwap_head_rel h
  cases ht : t.head? with
  | none => rw [hn ht]
  | some c =>
      obtain ⟨cs, hcs, -, -, hw, -⟩ := hs c ht
      rw [hcs]
      simp [isWordOpt, hw]

theorem prevAt_all_digit {l : List Char} (x : Bool) (hne : l ≠ [])
    (hall : ∀ c ∈ l, pyIsDigit c = true) : prevAt x l = true := by
  cases hgl : l.getLast? with
  | none => rw [List.getLast?_eq_none_iff] at hgl; exact absurd hgl hne
  | some c =>
      unfold prevAt
      rw [hgl]
      exact digit_isWordChar (hall c (mem_of_getLast?' hgl))

theorem DigitSwap_prefix_transfer {p : List Char} :
    ∀ {s t : List Char}, (∀ c ∈ p, pyIsDigit c = false) → DigitSwap s t →
      p <+: t → p <+: s ∧ DigitSwap (s.drop p.length) (t.drop p.length) := by
  induction p with
  | nil =>
      intro s t _ h _
      exact ⟨List.nil_prefix, by simpa using h⟩
  | cons c p' ih =>
      intro s t hpnd h hpre
      obtain ⟨r, hr⟩ := hpre
      cases h with
      | nil => simp at hr
      | @copy c₀ s₂ t₂ h₂ =>
          rw [List.cons_append] at hr
          injection hr with hc ht
          subst hc
          obtain ⟨hps, hds⟩ :=
            ih (fun x hx => hpnd x (by simp [hx])) h₂ ⟨r, ht⟩
          constructor
          · obtain ⟨r₂, hr₂⟩ := hps
            exact ⟨r₂, by rw [List.cons_append, hr₂]⟩
          · simpa using hds
      | @swap d e s₂ t₂ hd hd' he he' h₂ =>
          exfalso
          cases e with
          | nil => exact he rfl
          | cons ce et =>
              have hce : c = ce := by
                have h0 : ((c :: p') ++ r).head? = ((ce :: et) ++ t₂).head? := by
                  rw [hr]
                simpa using h0
              have h1 := hpnd c (by simp)
              rw [hce, he' ce (by simp)] at h1
              exact absurd h1 (by simp)

theorem DigitSwap_dropWhile_ws {s t : List Char} (h : DigitSwap s t) :
    DigitSwap (s.dropWhile pyIsSpace) (t.dropWhile pyIsSpace) := by
  induction h with
  | nil => exact .nil
  | @copy c s₂ t₂ h₂ ih =>
      cases hc : pyIsSpace c with
      | true =>
          rw [List.dropWhile_cons_of_pos hc, List.dropWhile_cons_of_pos hc]
          exact ih
      | false =>
          rw [List.dropWhile_cons_of_neg (by simp [hc]),
            List.dropWhile_cons_of_neg (by simp [hc])]
          exact .copy c h₂
  | @swap d e s₂ t₂ hd hd' he he' h₂ ih =>
      cases d with
      | nil => exact absurd rfl hd
      | cons cd dt =>
          cases e with
          | nil => exact absurd rfl he
          | cons ce et =>
              rw [List.cons_append, List.cons_append,
                List.dropWhile_cons_of_neg
                  (by simp [digit_not_space (hd' cd (by simp))]),
                List.dropWhile_cons_of_neg
                  (by simp [digit_not_space (he' ce (by simp))])]
              exact .swap hd hd' he he' h₂

theorem DigitSwap_wordMatchAt {p s t : List Char} (hp : p ≠ [])
    (hpnd : ∀ c ∈ p, pyIsDigit c = false)
    (h : DigitSwap s t) {prev : Bool} (hm : wordMatchAt prev p t = true) :
    wordMatchAt prev p s = true := by
  cases p with
  | nil => exact absurd rfl hp
  | cons c cs =>
      simp only [wordMatchAt, Bool.and_eq_true] at hm
      obtain ⟨⟨hpre, hprevb⟩, hlast⟩ := hm
      obtain ⟨hps, hds⟩ := DigitSwap_prefix_transfer
        hpnd h (List.isPrefixOf_iff_prefix.mp hpre)
      simp only [wordMatchAt, Bool.and_eq_true]
      refine ⟨⟨List.isPrefixOf_iff_prefix.mpr hps, hprevb⟩, ?_⟩
      have hw := DigitSwap_head_word hds
      simp only [List.length_cons] at hw
      rw [← hw]
      exact hlast

theorem DigitSwap_wordSearch {p : List Char} (hp : p ≠ [])
    (hpw : ∀ c ∈ p, isWordChar c = true) (hpnd : ∀ c ∈ p, pyIsDigit c = false) :
    ∀ {s t : List Char}, DigitSwap s t → ∀ prev : Bool,
      wordSearchAux prev p t = true → wordSearchAux prev p s = true := by
  intro s t h
  induction h with
  | nil =>
      intro prev hocc
      exact hocc
  | @copy c s₂ t₂ h₂ ih =>
      intro prev hocc
      unfold wordSearchAux at hocc ⊢
      rw [Bool.or_eq_true] at hocc ⊢
      rcases hocc with hm | hsc
      · exact Or.inl (DigitSwap_wordMatchAt hp hpnd (DigitSwap.copy c h₂) hm)
      · exact Or.inr (ih (isWordChar c) hsc)
  | @swap d e s₂ t₂ hd hd' he he' h₂ ih =>
      intro prev hocc
      obtain ⟨a, b, heq, h1, h2⟩ := (wordSearchAux_iff hp _ _).mp hocc
      rcases List.append_eq_append_iff.mp
          (show e ++ t₂ = a ++ (p ++ b) by rw [heq]; simp) with
        ⟨m, ham, htm⟩ | ⟨m, hem, hmt⟩
      · have hocc₂ : wordSearchAux (prevAt prev e) p t₂ = true := by
          apply (wordSearchAux_iff hp _ _).mpr
          refine ⟨m, b, by rw [htm]; simp, ?_, h2⟩
          rw [← prevAt_append, ← ham]
          exact h1
        have hocc₃ := ih (prevAt prev e) hocc₂
        have he2 : prevAt prev e = true := prevAt_all_digit prev he he'
        have hd2 : prevAt prev d = true := prevAt_all_digit prev hd hd'
        obtain ⟨a₂, b₂, heq₂, h1₂, h2₂⟩ := (wordSearchAux_iff hp _ _).mp hocc₃
        apply (wordSearchAux_iff hp _ _).mpr
        refine ⟨d ++ a₂, b₂, by rw [heq₂]; simp, ?_, h2₂⟩
        rw [prevAt_append, hd2]
        rw [he2] at h1₂
        exact h1₂
      · exfalso
        cases m with
        | nil =>
            rw [List.append_nil] at hem
            have hpa : prevAt prev a = true := by
              rw [← hem]
              exact prevAt_all_digit prev he he'
            rw [hpa, isWordOpt_head_of_all hp hpw] at h1
            simp at h1
        | cons cm mt =>
            cases p with
            | nil => exact hp rfl
            | cons cp pt =>
                have hcc : cm = cp := by
                  have h0 : ((cm :: mt) ++ t₂).head? = ((cp :: pt) ++ b).head? := by
                    rw [hmt]
                  simpa using h0
                have h3 := hpnd cp (by simp)
                have h4 : pyIsDigit cm = true := he' cm (by rw [hem]; simp)
                rw [hcc] at h4
                rw [h3] at h4
                exact absurd h4 (by simp)

theorem DigitSwap_selectStarAt {s t : List Char} (h : DigitSwap s t) {prev : Bool}
    (hm : selectStarAt prev t = true) : selectStarAt prev s = true := by
  unfold selectStarAt at hm ⊢
  simp only [Bool.and_eq_true] at hm
  obtain ⟨⟨hpre, hprev⟩, hx⟩ := hm
  obtain ⟨hps, hds⟩ := DigitSwap_prefix_transfer (p := "SELECT".data)
    (by decide) h (List.isPrefixOf_iff_prefix.mp hpre)
  have hlen6 : ("SELECT".data : List Char).length = 6 := rfl
  rw [hlen6] at hds
  simp only [Bool.and_eq_true]
  refine ⟨⟨List.isPrefixOf_iff_prefix.mpr hps, hprev⟩, ?_⟩
  dsimp only at hx ⊢
  cases ht6 : (t.drop 6).head? with
  | none =>
      rw [ht6] at hx
      simp at hx
  | some c =>
      rw [ht6] at hx
      dsimp only at hx
      rw [Bool.and_eq_true] at hx
      obtain ⟨hcw, hstar⟩ := hx
      obtain ⟨-, hrel⟩ := DigitSwap_head_rel hds
      obtain ⟨cs, hcs, -, hsp, -, -⟩ := hrel c ht6
      rw [hcs]
      dsimp only
      rw [Bool.and_eq_true]
      refine ⟨by rw [hsp]; exact hcw, ?_⟩
      have hdw := DigitSwap_dropWhile_ws hds
      obtain ⟨-, hrel2⟩ := DigitSwap_head_rel hdw
      have hstar' : ((t.drop 6).dropWhile pyIsSpace).head? = some '*' := by
        simpa using hstar
      obtain ⟨cs2, hcs2, -, -, -, hex⟩ := hrel2 '*' hstar'
      rw [hex (by decide)] at hcs2
      simp [hcs2]

theorem DigitSwap_selectStarSearch : ∀ {s t : List Char}, DigitSwap s t →
    ∀ prev : Bool, selectStarSearchAux prev t = true →
      selectStarSearchAux prev s = true := by
  intro s t h
  induction h with
  | nil =>
      intro prev hocc
      exact hocc
  | @copy c s₂ t₂ h₂ ih =>
      intro prev hocc
      unfold selectStarSearchAux at hocc ⊢
      rw [Bool.or_eq_true] at hocc ⊢
      rcases hocc with hm | hsc
      · exact Or.inl (DigitSwap_selectStarAt (DigitSwap.copy c h₂) hm)
      · exact Or.inr (ih (isWordChar c) hsc)
  | @swap d e s₂ t₂ hd hd' he he' h₂ ih =>
      intro prev hocc
      obtain ⟨a, w, b, heq, hprev, hw, hws⟩ := (selectStarSearchAux_iff _ _).mp hocc
      rcases List.append_eq_append_iff.mp
          (show e ++ t₂ = a ++ ("SELECT".data ++ w ++ '*' :: b) by
            rw [heq]; simp) with
        ⟨m, ham, htm⟩ | ⟨m, hem, hmt⟩
      · have hocc₂ : selectStarSearchAux (prevAt prev e) t₂ = true := by
          apply (selectStarSearchAux_iff _ _).mpr
          refine ⟨m, w, b, by rw [htm]; simp, ?_, hw, hws⟩
          rw [← prevAt_append, ← ham]
          exact hprev
        have hocc₃ := ih (prevAt prev e) hocc₂
        have he2 : prevAt prev e = true := prevAt_all_digit prev he he'
        have hd2 : prevAt prev d = true := prevAt_all_digit prev hd hd'
        obtain ⟨a₂, w₂, b₂, heq₂, hprev₂, hw₂, hws₂⟩ :=
          (selectStarSearchAux_iff _ _).mp hocc₃
        apply (selectStarSearchAux_iff _ _).mpr
        refine ⟨d ++ a₂, w₂, b₂, by rw [heq₂]; simp, ?_, hw₂, hws₂⟩
        rw [prevAt_append, hd2]
        rw [he2] at hprev₂
        exact hprev₂
      · exfalso
        cases m with
        | nil =>
            rw [List.append_nil] at hem
            have hpa : prevAt prev a = true := by
              rw [← hem]
              exact prevAt_all_digit prev he he'
            rw [hpa] at hprev
            exact absurd hprev (by simp)
        | cons cm mt =>
            have hcc : cm = 'S' := by
              have h0 : ("SELECT".data ++ w ++ '*' :: b).head? =
                  ((cm :: mt) ++ t₂).head? := by
                rw [hmt]
              simpa using h0.symm
            have h4 : pyIsDigit cm = true := he' cm (by rw [hem]; simp)
            rw [hcc] at h4
            exact absurd h4 (by decide)

theorem limitSubAt_isSome {prev : Bool} {w rest : List Char} (hw : w ≠ [])
    (hws : ∀ c ∈ w, pyIsSpace c = true) {cr : Char} (hr : rest.head? = some cr)
    (hcr : pyIsDigit cr = true) (hprev : prev = false) :
    limitSubAt prev ("LIMIT".data ++ w ++ rest) ≠ none := by
  unfold limitSubAt
  have htake : (("LIMIT".data ++ w ++ rest).take 5 : List Char) = "LIMIT".data := by
    rw [List.append_assoc]
    have h5 : (5 : Nat) = ("LIMIT".data : List Char).length := rfl
    rw [h5, List.take_left]
  have hdrop : (("LIMIT".data ++ w ++ rest).drop 5 : List Char) = w ++ rest := by
    rw [List.append_assoc]
    have h5 : (5 : Nat) = ("LIMIT".data : List Char).length := rfl
    rw [h5, List.drop_left]
  have hci : ciPrefix ("LIMIT".data) ("LIMIT".data ++ w ++ rest) = true := by
    unfold ciPrefix
    have h5 : ("LIMIT".data : List Char).length = 5 := rfl
    rw [h5, htake]
    decide
  have hlen : ("LIMIT".data ++ w ++ rest).length ≥ 5 := by
    simp [List.length_append]
  rw [if_pos (by rw [hci, hprev]; simpa using hlen)]
  dsimp only
  rw [hdrop]
  have htw : (w ++ rest).takeWhile pyIsSpace = w := by
    rw [takeWhile_all_append _ hws]
    rw [takeWhile_nil_of_head, List.append_nil]
    intro c hc
    rw [hr] at hc
    injection hc with hc
    rw [← hc]
    exact digit_not_space hcr
  rw [htw]
  rw [if_neg (by simpa using hw)]
  have hu : (w ++ rest).drop w.length = rest := List.drop_left w rest
  rw [hu]
  have hds : rest.takeWhile pyIsDigit ≠ [] := takeWhile_ne_nil_of_head hr hcr
  rw [if_neg (by simpa using hds)]
  simp

theorem site_decomp_value {W₁ t₂ sdrop : List Char}
    (hW1s : ∀ c ∈ W₁, pyIsSpace c = true) (hW1 : W₁ ≠ [])
    (hswap : DigitSwap sdrop t₂)
    (hnd : ∀ c, sdrop.head? = some c → pyIsDigit c = false)
    (hih : ∀ a w d b : List Char, LimitDecomp true t₂ a w d b →
      natOfDigits d = 10000)
    {prev : Bool} {a w d b : List Char}
    (hdec : LimitDecomp prev
      ("LIMIT".data ++ W₁ ++ natDigits 10000 ++ t₂) a w d b) :
    natOfDigits d = 10000 := by
  obtain ⟨heq, hprev, hw, hws, hd, hds, hb⟩ := hdec
  have hDDne : natDigits 10000 ≠ [] := by decide
  have hDDdig : ∀ c ∈ natDigits 10000, pyIsDigit c = true := by decide
  have hDDhead : (natDigits 10000 ++ t₂).head? = some '1' := by
    rw [head?_append_left hDDne]
    decide
  have hfinal : d ++ b = natDigits 10000 ++ t₂ → natOfDigits d = 10000 := by
    intro hdb
    rcases List.append_eq_append_iff.mp hdb with ⟨v, hDv, hbv⟩ | ⟨v, hdv, htv⟩
    · cases v with
      | nil =>
          rw [List.append_nil] at hDv
          rw [← hDv]
          decide
      | cons cv vt =>
          exfalso
          have hcv : pyIsDigit cv = true := hDDdig cv (by rw [hDv]; simp)
          rw [hbv] at hb
          simp [isWordOpt, digit_isWordChar hcv] at hb
    · cases v with
      | nil =>
          rw [List.append_nil] at hdv
          rw [hdv]
          decide
      | cons cv vt =>
          exfalso
          have hcv : pyIsDigit cv = true := hds cv (by rw [hdv]; simp)
          have ht2h : t₂.head? = some cv := by
            rw [htv]
            rfl
          obtain ⟨-, hrel⟩ := DigitSwap_head_rel hswap
          obtain ⟨cs, hcs, hdg, -, -, -⟩ := hrel cv ht2h
          have := hnd cs hcs
          rw [hdg, hcv] at this
          exact absurd this (by simp)
  have heq' : "LIMIT".data ++ (W₁ ++ (natDigits 10000 ++ t₂)) =
      a ++ ("LIMIT".data ++ (w ++ (d ++ b))) := by
    simpa [List.append_assoc] using heq
  rcases List.append_eq_append_iff.mp heq' with ⟨m, ham, hR⟩ | ⟨m, hLam, hmR⟩
  · rcases List.append_eq_append_iff.mp hR with ⟨k, hmk, hk⟩ | ⟨k, hW1k, hkQ⟩
    · rcases List.append_eq_append_iff.mp hk with ⟨j, hkj, hj⟩ | ⟨j, hDDj, hjQ⟩
      · apply hih j w d b
        refine ⟨by rw [hj]; simp, ?_, hw, hws, hd, hds, hb⟩
        have ha2 : a = (("LIMIT".data ++ W₁) ++ natDigits 10000) ++ j := by
          rw [ham, hmk, hkj]
          simp
        rw [ha2, prevAt_append, prevAt_append] at hprev
        rwa [prevAt_all_digit _ hDDne hDDdig] at hprev
      · cases j with
        | nil =>
            exfalso
            rw [List.append_nil] at hDDj
            have ha2 : a = ("LIMIT".data ++ W₁) ++ natDigits 10000 := by
              rw [ham, hmk, hDDj]
              simp
            rw [ha2, prevAt_append] at hprev
            rw [prevAt_all_digit _ hDDne hDDdig] at hprev
            exact absurd hprev (by simp)
        | cons cj jt =>
            exfalso
            have hcj : pyIsDigit cj = true := hDDdig cj (by rw [hDDj]; simp)
            have hhd : cj = 'L' := by
              have h0 : ("LIMIT".data ++ (w ++ (d ++ b))).head? =
                  ((cj :: jt) ++ t₂).head? := by
                rw [hjQ]
              simpa using h0.symm
            rw [hhd] at hcj
            exact absurd hcj (by decide)
    · cases k with
      | nil =>
          exfalso
          rw [List.nil_append] at hkQ
          have hhd : ('L' : Char) = '1' := by
            have h0 : ("LIMIT".data ++ (w ++ (d ++ b))).head? =
                (natDigits 10000 ++ t₂).head? := by
              rw [hkQ]
            rw [hDDhead] at h0
            simpa using h0
          exact absurd hhd (by decide)
      | cons ck kt =>
          exfalso
          have hck : pyIsSpace ck = true := hW1s ck (by rw [hW1k]; simp)
          have hhd : ck = 'L' := by
            have h0 : ("LIMIT".data ++ (w ++ (d ++ b))).head? =
                ((ck :: kt) ++ (natDigits 10000 ++ t₂)).head? := by
              rw [hkQ]
            simpa using h0.symm
          rw [hhd] at hck
          exact absurd hck (by decide)
  · obtain ⟨hA, hM, hLen⟩ := append_eq_take_drop hLam
    have hL5 : ("LIMIT".data : List Char).length = 5 := rfl
    rw [hL5] at hLen
    by_cases ha0 : a.length = 0
    · have ha : a = [] := List.length_eq_zero.mp ha0
      subst ha
      simp only [List.nil_append] at hLam
      rw [← hLam] at hmR
      have hcancel : w ++ (d ++ b) = W₁ ++ (natDigits 10000 ++ t₂) :=
        List.append_cancel_left hmR
      rcases List.append_eq_append_iff.mp hcancel with ⟨u, hWu, hdu⟩ | ⟨u, hwu, hDu⟩
      · cases u with
        | nil =>
            rw [List.nil_append] at hdu
            exact hfinal hdu
        | cons cu ut =>
            exfalso
            have hcu : pyIsSpace cu = true := hW1s cu (by rw [hWu]; simp)
            cases d with
            | nil => exact hd rfl
            | cons cd dt =>
                have hhd : cd = cu := by
                  have h0 : ((cd :: dt) ++ b).head? =
                      ((cu :: ut) ++ (natDigits 10000 ++ t₂)).head? := by
                    rw [hdu]
                  simpa using h0
                have hcd : pyIsDigit cd = true := hds cd (by simp)
                rw [hhd] at hcd
                rw [space_not_digit hcu] at hcd
                exact absurd hcd (by simp)
      · cases u with
        | nil =>
            rw [List.append_nil] at hwu
            rw [List.nil_append] at hDu
            exact hfinal hDu.symm
        | cons cu ut =>
            exfalso
            have hcu : pyIsSpace cu = true := hws cu (by rw [hwu]; simp)
            have hhd : ('1' : Char) = cu := by
              have h0 : (natDigits 10000 ++ t₂).head? =
                  ((cu :: ut) ++ (d ++ b)).head? := by
                rw [hDu]
              rw [hDDhead] at h0
              simpa using h0
            rw [← hhd] at hcu
            exact absurd hcu (by decide)
    · by_cases ha5 : a.length = 5
      · exfalso
        have hm : m = [] := by
          rw [hM, ha5]
          rfl
        rw [hm, List.nil_append] at hmR
        cases hW1c : W₁ with
        | nil => exact hW1 hW1c
        | cons cW Wt =>
            have hcW : pyIsSpace cW = true := hW1s cW (by rw [hW1c]; simp)
            have hhd : ('L' : Char) = cW := by
              have h0 : ("LIMIT".data ++ (w ++ (d ++ b))).head? =
                  ((cW :: Wt) ++ (natDigits 10000 ++ t₂)).head? := by
                rw [hmR, hW1c]
              simpa using h0
            rw [← hhd] at hcW
            exact absurd hcW (by decide)
      · exfalso
        have hj1 : 1 ≤ a.length := Nat.one_le_iff_ne_zero.mpr ha0
        have hj4 : a.length ≤ 4 := by omega
        have hlenm : m.length = 5 - a.length := by
          rw [hM]
          simp [hL5]
        have hmne : m ≠ [] := by
          intro hnil
          rw [hnil] at hlenm
          simp at hlenm
          omega
        have hfact : ∀ j, 1 ≤ j → j ≤ 4 →
            ¬ ((("LIMIT".data : List Char).drop j).head? = some 'L') := by
          decide
        have hmh : m.head? = some 'L' := by
          have h0 : ("LIMIT".data ++ (w ++ (d ++ b))).head? =
              (m ++ (W₁ ++ (natDigits 10000 ++ t₂))).head? := by
            rw [hmR]
          rw [head?_append_left hmne] at h0
          simpa using h0.symm
        rw [hM] at hmh
        exact hfact a.length hj1 hj4 hmh

theorem RW_decomp_value : ∀ {prev : Bool} {s t : List Char},
    RW 10000 prev s t → s.map Char.toUpper = s →
    ∀ a w d b : List Char, LimitDecomp prev t a w d b → natOfDigits d = 10000 := by
  intro prev s t h
  induction h with
  | nil prev₂ =>
      intro hfix a w d b hdec
      obtain ⟨heq, -, -, -, -, -, -⟩ := hdec
      exfalso
      have hlen := congrArg List.length heq
      simp only [List.length_nil, List.length_append] at hlen
      have h5 : ("LIMIT".data : List Char).length = 5 := rfl
      rw [h5] at hlen
      omega
  | @copy c prev₂ s₂ t₂ hsub hrw ih =>
      intro hfix a w d b hdec
      have hfix2 : s₂.map Char.toUpper = s₂ := by
        rw [List.map_cons] at hfix
        injection hfix with h1 h2
      obtain ⟨heq, hprev, hw, hws, hd, hds, hb⟩ := hdec
      cases a with
      | cons a₀ at₂ =>
          simp only [List.cons_append] at heq
          injection heq with hca ht
          subst hca
          rw [prevAt_cons] at hprev
          exact ih hfix2 at₂ w d b ⟨ht, hprev, hw, hws, hd, hds, hb⟩
      | nil =>
          exfalso
          rw [prevAt_nil] at hprev
          simp only [List.nil_append] at heq
          have hL : (['L', 'I', 'M', 'I', 'T'] : List Char) = 'L' :: "IMIT".data := rfl
          have hL2 : ("LIMIT".data : List Char) = 'L' :: "IMIT".data := rfl
          rw [hL] at heq
          simp only [List.cons_append] at heq
          injection heq with hc ht
          have hswap := RW_DigitSwap (by decide) (by decide) hrw
          have hpnd : ∀ x ∈ ("IMIT".data ++ w), pyIsDigit x = false := by
            intro x hx
            rcases List.mem_append.mp hx with hxm | hxm
            · have hIMIT : ∀ y ∈ ("IMIT".data : List Char), pyIsDigit y = false := by
                decide
              exact hIMIT x hxm
            · exact space_not_digit (hws x hxm)
          have hpre : ("IMIT".data ++ w) <+: t₂ := ⟨d ++ b, by rw [ht]; simp⟩
          obtain ⟨hps, hds2⟩ := DigitSwap_prefix_transfer hpnd hswap hpre
          obtain ⟨rest_s, hrest⟩ := hps
          have ht' : t₂ = ("IMIT".data ++ w) ++ (d ++ b) := by
            rw [ht]
            simp
          have hdropt : t₂.drop ("IMIT".data ++ w).length = d ++ b := by
            rw [ht']
            exact List.drop_left _ _
          cases d with
          | nil => exact hd rfl
          | cons cd dt =>
              have hcd : pyIsDigit cd = true := hds cd (by simp)
              have htdh : (t₂.drop ("IMIT".data ++ w).length).head? = some cd := by
                rw [hdropt]
                rfl
              obtain ⟨-, hrel⟩ := DigitSwap_head_rel hds2
              obtain ⟨cs, hcs, hdg, -, -, -⟩ := hrel cd htdh
              have hrest2 : s₂.drop ("IMIT".data ++ w).length = rest_s := by
                rw [← hrest]
                exact List.drop_left _ _
              have hs : (c :: s₂) = "LIMIT".data ++ w ++
                  s₂.drop ("IMIT".data ++ w).length := by
                rw [hL2, hrest2]
                simp only [List.cons_append]
                rw [hc]
                congr 1
                rw [← hrest]
                simp
              apply limitSubAt_isSome hw hws hcs
                (by rw [hdg]; exact hcd) hprev
              rw [← hs]
              exact hsub
  | @site prev₂ s₂ t₂ kept consumed hsub hrw ih =>
      intro hfix a w d b hdec
      obtain ⟨W₁, D₁, hkept, hsplit, hcons, hciU, hprevF, hlen5, hW1ne, hW1s,
        hD1ne, hD1d, hnd⟩ := limitSubAt_some_decomp hsub
      have htake : s₂.take 5 = "LIMIT".data := by
        calc s₂.take 5 = (s₂.map Char.toUpper).take 5 := by rw [hfix]
        _ = (s₂.take 5).map Char.toUpper := by rw [List.map_take]
        _ = "LIMIT".data := hciU
      have hfix2 : (s₂.drop consumed).map Char.toUpper = s₂.drop consumed := by
        calc (s₂.drop consumed).map Char.toUpper
            = (s₂.map Char.toUpper).drop consumed := by rw [List.map_drop]
        _ = s₂.drop consumed := by rw [hfix]
      have hswap := RW_DigitSwap (by decide) (by decide) hrw
      apply site_decomp_value hW1s hW1ne hswap hnd
        (fun a' w' d' b' hdec' => ih hfix2 a' w' d' b' hdec')
      rw [hkept, htake] at hdec
      exact hdec

theorem DigitSwap_run_transfer : ∀ {x y : List Char}, DigitSwap x y →
    ∀ {d b : List Char}, x = d ++ b → d ≠ [] → (∀ c ∈ d, pyIsDigit c = true) →
    isWordOpt b.head? = false →
    ∃ d₂ b₂, y = d₂ ++ b₂ ∧ d₂ ≠ [] ∧ (∀ c ∈ d₂, pyIsDigit c = true) ∧
      isWordOpt b₂.head? = false := by
  intro x y h
  induction h with
  | nil =>
      intro d b hx hd _ _
      exfalso
      cases d with
      | nil => exact hd rfl
      | cons cd dt => simp at hx
  | @copy c x₂ y₂ h₂ ih =>
      intro d b hx hd hdd hb
      cases d with
      | nil => exact absurd rfl hd
      | cons cd dt =>
          rw [List.cons_append] at hx
          injection hx with hc hx₂
          cases dt with
          | nil =>
              rw [List.nil_append] at hx₂
              refine ⟨[c], y₂, by simp, by simp, ?_, ?_⟩
              · intro c' hc'
                have : c' = c := by simpa using hc'
                rw [this, hc]
                exact hdd cd (by simp)
              · rw [DigitSwap_head_word h₂, hx₂]
                exact hb
          | cons cd₂ dt₂ =>
              obtain ⟨d₂, b₂, hy, hd₂, hdd₂, hb₂⟩ := ih hx₂ (by simp)
                (fun c' hc' => hdd c' (by simp [hc'])) hb
              refine ⟨c :: d₂, b₂, by rw [hy]; simp, by simp, ?_, hb₂⟩
              intro c' hc'
              rcases List.mem_cons.mp hc' with hcc | hcc
              · rw [hcc, hc]
                exact hdd cd (by simp)
              · exact hdd₂ c' hcc
  | @swap dd ee x₂ y₂ hdne hddig heene heedig h₂ ih =>
      intro d b hx hd hdd hb
      rcases List.append_eq_append_iff.mp hx with ⟨m, hdm, hxm⟩ | ⟨m, hddm, hbm⟩
      · cases m with
        | nil =>
            rw [List.append_nil] at hdm
            rw [List.nil_append] at hxm
            refine ⟨ee, y₂, rfl, heene, heedig, ?_⟩
            rw [DigitSwap_head_word h₂, hxm]
            exact hb
        | cons cm mt =>
            obtain ⟨d₂, b₂, hy, hd₂, hdd₂, hb₂⟩ := ih hxm (by simp)
              (fun c' hc' => hdd c' (by rw [hdm]; simp [hc'])) hb
            refine ⟨ee ++ d₂, b₂, by rw [hy]; simp, ?_, ?_, hb₂⟩
            · intro hnil
              exact heene (List.append_eq_nil.mp hnil).1
            · intro c' hc'
              rcases List.mem_append.mp hc' with hcc | hcc
              · exact heedig c' hcc
              · exact hdd₂ c' hcc
      · cases m with
        | nil =>
            rw [List.append_nil] at hddm
            rw [List.nil_append] at hbm
            refine ⟨ee, y₂, rfl, heene, heedig, ?_⟩
            rw [DigitSwap_head_word h₂, ← hbm]
            exact hb
        | cons cm mt =>
            exfalso
            have hcm : pyIsDigit cm = true := hddig cm (by rw [hddm]; simp)
            rw [hbm] at hb
            simp [isWordOpt, digit_isWordChar hcm] at hb

theorem DigitSwap_limit_exists : ∀ {s t : List Char}, DigitSwap s t →
    ∀ {prev : Bool} {a w d b : List Char}, LimitDecomp prev s a w d b →
    ∃ a₂ w₂ d₂ b₂, LimitDecomp prev t a₂ w₂ d₂ b₂ := by
  intro s t h
  induction h with
  | nil =>
      intro prev a w d b hdec
      obtain ⟨heq, -, -, -, -, -, -⟩ := hdec
      exfalso
      have hlen := congrArg List.length heq
      simp only [List.length_nil, List.length_append] at hlen
      have h5 : ("LIMIT".data : List Char).length = 5 := rfl
      rw [h5] at hlen
      omega
  | @copy c s₂ t₂ h₂ ih =>
      intro prev a w d b hdec
      obtain ⟨heq, hprev, hw, hws, hd, hds, hb⟩ := hdec
      cases a with
      | cons a₀ at₂ =>
          simp only [List.cons_append] at heq
          injection heq with hca ht
          rw [prevAt_cons] at hprev
          obtain ⟨a₂, w₂, d₂, b₂, heq₂, hprev₂, hw₂, hws₂, hd₂, hds₂, hb₂⟩ :=
            @ih (isWordChar c) at₂ w d b
              ⟨ht, by rw [hca]; exact hprev, hw, hws, hd, hds, hb⟩
          refine ⟨c :: a₂, w₂, d₂, b₂, ?_, ?_, hw₂, hws₂, hd₂, hds₂, hb₂⟩
          · rw [heq₂]
            simp
          · rw [prevAt_cons]
            exact hprev₂
      | nil =>
          simp only [List.nil_append] at heq
          rw [prevAt_nil] at hprev
          have hL : (['L', 'I', 'M', 'I', 'T'] : List Char) = 'L' :: "IMIT".data := rfl
          have hL2 : ("LIMIT".data : List Char) = 'L' :: "IMIT".data := rfl
          rw [hL] at heq
          simp only [List.cons_append] at heq
          injection heq with hc hs₂
          have hpnd : ∀ x ∈ ("IMIT".data ++ w), pyIsDigit x = false := by
            intro x hx
            rcases List.mem_append.mp hx with hxm | hxm
            · have hIMIT : ∀ y ∈ ("IMIT".data : List Char), pyIsDigit y = false := by
                decide
              exact hIMIT x hxm
            · exact space_not_digit (hws x hxm)
          have hs₂' : s₂ = ("IMIT".data ++ w) ++ (d ++ b) := by
            rw [hs₂]
            simp
          have hpre : ("IMIT".data ++ w) <+: s₂ := ⟨d ++ b, hs₂'.symm⟩
          obtain ⟨hps, hds2⟩ :=
            DigitSwap_prefix_transfer hpnd (DigitSwap_symm h₂) hpre
          have hsdrop : s₂.drop ("IMIT".data ++ w).length = d ++ b := by
            rw [hs₂']
            exact List.drop_left _ _
          obtain ⟨d₂, b₂, hy, hd₂, hdd₂, hb₂⟩ :=
            DigitSwap_run_transfer (DigitSwap_symm hds2) hsdrop hd hds hb
          obtain ⟨r, hr⟩ := hps
          have hrdrop : t₂.drop ("IMIT".data ++ w).length = r := by
            rw [← hr]
            exact List.drop_left _ _
          have hrd : r = d₂ ++ b₂ := by
            rw [← hrdrop]
            exact hy
          refine ⟨[], w, d₂, b₂, ?_, ?_, hw, hws, hd₂, hdd₂, hb₂⟩
          · have ht2 : t₂ = ("IMIT".data ++ w) ++ (d₂ ++ b₂) := by
              rw [← hr, hrd]
            rw [ht2, List.nil_append, hL2, ← hc]
            simp
          · rw [prevAt_nil]
            exact hprev
  | @swap dd ee s₂ t₂ hdne hddig heene heedig h₂ ih =>
      intro prev a w d b hdec
      obtain ⟨heq, hprev, hw, hws, hd, hds, hb⟩ := hdec
      rcases List.append_eq_append_iff.mp
          (show dd ++ s₂ = a ++ ("LIMIT".data ++ (w ++ (d ++ b))) by
            simpa [List.append_assoc] using heq) with
        ⟨m, ham, hsm⟩ | ⟨m, hddm, hQm⟩
      · have hprev₂ : prevAt true m = false := by
          rw [ham, prevAt_append, prevAt_all_digit prev hdne hddig] at hprev
          exact hprev
        obtain ⟨a₂, w₂, d₂, b₂, heq₂, hprev₃, hw₂, hws₂, hd₂, hds₂, hb₂⟩ :=
          ih ⟨by rw [hsm]; simp, hprev₂, hw, hws, hd, hds, hb⟩
        refine ⟨ee ++ a₂, w₂, d₂, b₂, ?_, ?_, hw₂, hws₂, hd₂, hds₂, hb₂⟩
        · rw [heq₂]
          simp
        · rw [prevAt_append, prevAt_all_digit prev heene heedig]
          exact hprev₃
      · cases m with
        | nil =>
            exfalso
            rw [List.append_nil] at hddm
            rw [← hddm] at hprev
            rw [prevAt_all_digit prev hdne hddig] at hprev
            exact absurd hprev (by simp)
        | cons cm mt =>
            exfalso
            have hcm : pyIsDigit cm = true := hddig cm (by rw [hddm]; simp)
            have hhd : cm = 'L' := by
              have h0 : ("LIMIT".data ++ (w ++ (d ++ b))).head? =
                  ((cm :: mt) ++ s₂).head? := by
                rw [hQm]
              simpa using h0.symm
            rw [hhd] at hcm
            exact absurd hcm (by decide)

theorem pyStrip_decomp (l : List Char) :
    ∃ P S, l = P ++ pyStrip l ++ S ∧ (∀ c ∈ P, pyIsSpace c = true) ∧
      (∀ c ∈ S, pyIsSpace c = true) := by
  obtain ⟨S, hV, hS⟩ := dtw_decomp pyIsSpace (l.dropWhile pyIsSpace)
  refine ⟨l.takeWhile pyIsSpace, S, ?_, ?_, hS⟩
  · conv_lhs => rw [← List.takeWhile_append_dropWhile (p := pyIsSpace) (l := l), hV]
    simp [pyStrip]
  · intro c hc
    exact List.mem_takeWhile_imp hc

theorem isWordOpt_head_space {S : List Char}
    (hS : ∀ c ∈ S, pyIsSpace c = true) : isWordOpt S.head? = false := by
  cases S with
  | nil => rfl
  | cons c t => simpa [isWordOpt] using isWordChar_of_space (hS c (by simp))

theorem ws_prefix_split {P V a x b : List Char} (hPV : P ++ V = a ++ (x ++ b))
    (hP : ∀ c ∈ P, pyIsSpace c = true) {cx : Char} (hx : x.head? = some cx)
    (hcx : pyIsSpace cx = false) : ∃ a₂, a = P ++ a₂ ∧ V = a₂ ++ (x ++ b) := by
  rcases List.append_eq_append_iff.mp hPV with ⟨m, ham, hVm⟩ | ⟨m, hPm, hxm⟩
  · exact ⟨m, ham, hVm⟩
  · cases m with
    | nil =>
        rw [List.append_nil] at hPm
        refine ⟨[], by rw [hPm, List.append_nil], ?_⟩
        rw [List.nil_append]
        exact hxm.symm
    | cons cm mt =>
        exfalso
        have hcm : pyIsSpace cm = true := hP cm (by rw [hPm]; simp)
        have hceq : cx = cm := by
          cases x with
          | nil => simp at hx
          | cons x₀ xt =>
              have h0 : ((x₀ :: xt) ++ b).head? = ((cm :: mt) ++ V).head? := by
                rw [← hxm]
              have hx0 : x₀ = cx := by simpa using hx
              rw [← hx0]
              simpa using h0
        rw [hceq, hcm] at hcx
        exact absurd hcx (by simp)

theorem pyStrip_occ_in_word {p l : List Char} (hp : p ≠ [])
    (hpw : ∀ c ∈ p, isWordChar c = true)
    (hocc : hasWordOcc p l = true) : hasWordOcc p (pyStrip l) = true := by
  obtain ⟨a, b, heq, h1, h2⟩ := (hasWordOcc_iff hp _).mp hocc
  have hhead : ∃ cp, p.head? = some cp ∧ pyIsSpace cp = false := by
    cases p with
    | nil => exact absurd rfl hp
    | cons cp pt =>
        exact ⟨cp, rfl, isWordChar_not_space (hpw cp (by simp))⟩
  obtain ⟨cp, hcp, hcps⟩ := hhead
  have hPV : l.takeWhile pyIsSpace ++ l.dropWhile pyIsSpace = a ++ (p ++ b) := by
    rw [List.takeWhile_append_dropWhile, heq, List.append_assoc]
  obtain ⟨a₂, ha₂, hV⟩ := ws_prefix_split hPV
    (fun c hc => List.mem_takeWhile_imp hc) hcp hcps
  have hlast : ∃ cl, p.getLast? = some cl := by
    cases hgl : p.getLast? with
    | none => rw [List.getLast?_eq_none_iff] at hgl; exact absurd hgl hp
    | some c => exact ⟨c, rfl⟩
  obtain ⟨cl, hcl⟩ := hlast
  have hcls : pyIsSpace cl = false :=
    isWordChar_not_space (hpw cl (mem_of_getLast?' hcl))
  have hstrip : pyStrip l = a₂ ++ p ++ dropTrailingWhile pyIsSpace b := by
    unfold pyStrip
    rw [hV, ← List.append_assoc]
    rw [dtw_append_last_neg b (by rw [getLast?_append_right hp]; exact hcl) hcls]
  apply (hasWordOcc_iff hp _).mpr
  refine ⟨a₂, dropTrailingWhile pyIsSpace b, hstrip, ?_, ?_⟩
  · rw [ha₂, prevAt_append] at h1
    rw [prevAt_all_space (fun c hc => List.mem_takeWhile_imp hc) rfl] at h1
    exact h1
  · rw [isWordOpt_getLast_of_all hp hpw] at h2 ⊢
    have hb : isWordOpt b.head? = false := by
      cases hbh : isWordOpt b.head? with
      | false => rfl
      | true => rw [hbh] at h2; simp at h2
    rw [isWordOpt_head_dtw hb]
    rfl

theorem pyStrip_occ_out_word {p l : List Char} (hp : p ≠ [])
    (hpw : ∀ c ∈ p, isWordChar c = true)
    (hocc : hasWordOcc p (pyStrip l) = true) : hasWordOcc p l = true := by
  obtain ⟨P, S, hl, hP, hS⟩ := pyStrip_decomp l
  obtain ⟨a, b, heq, h1, h2⟩ := (hasWordOcc_iff hp _).mp hocc
  apply (hasWordOcc_iff hp _).mpr
  refine ⟨P ++ a, b ++ S, ?_, ?_, ?_⟩
  · rw [hl, heq]
    simp
  · rw [prevAt_append, prevAt_all_space hP rfl]
    exact h1
  · rw [isWordOpt_getLast_of_all hp hpw] at h2 ⊢
    have hb : isWordOpt b.head? = false := by
      cases hbh : isWordOpt b.head? with
      | false => rfl
      | true => rw [hbh] at h2; simp at h2
    rw [isWordOpt_head_append hb (isWordOpt_head_space hS)]
    rfl

theorem pyStrip_occ_in_star {l : List Char}
    (hocc : hasSelectStar l = true) : hasSelectStar (pyStrip l) = true := by
  obtain ⟨a, w, b, heq, hprev, hw, hws⟩ := (hasSelectStar_iff _).mp hocc
  have hPV : l.takeWhile pyIsSpace ++ l.dropWhile pyIsSpace =
      a ++ (("SELECT".data ++ w ++ ['*']) ++ b) := by
    rw [List.takeWhile_append_dropWhile, heq]
    simp
  obtain ⟨a₂, ha₂, hV⟩ := ws_prefix_split hPV
    (fun c hc => List.mem_takeWhile_imp hc)
    (by rw [head?_append_left (by simp), head?_append_left (by decide)]; rfl)
    (by decide)
  have hstrip : pyStrip l =
      a₂ ++ ("SELECT".data ++ w ++ ['*']) ++ dropTrailingWhile pyIsSpace b := by
    unfold pyStrip
    rw [hV, ← List.append_assoc]
    rw [dtw_append_last_neg b
      (by rw [getLast?_append_right (by simp), getLast?_append_right (by decide)]
          rfl)
      (by decide)]
  apply (hasSelectStar_iff _).mpr
  refine ⟨a₂, w, dropTrailingWhile pyIsSpace b, ?_, ?_, hw, hws⟩
  · rw [hstrip]
    simp
  · rw [ha₂, prevAt_append] at hprev
    rw [prevAt_all_space (fun c hc => List.mem_takeWhile_imp hc) rfl] at hprev
    exact hprev

theorem pyStrip_occ_out_star {l : List Char}
    (hocc : hasSelectStar (pyStrip l) = true) : hasSelectStar l = true := by
  obtain ⟨P, S, hl, hP, hS⟩ := pyStrip_decomp l
  obtain ⟨a, w, b, heq, hprev, hw, hws⟩ := (hasSelectStar_iff _).mp hocc
  apply (hasSelectStar_iff _).mpr
  refine ⟨P ++ a, w, b ++ S, ?_, ?_, hw, hws⟩
  · rw [hl, heq]
    simp
  · rw [prevAt_append, prevAt_all_space hP rfl]
    exact hprev

theorem pyStrip_occ_in_limit {l a w d b : List Char}
    (hdec : LimitDecomp false l a w d b) :
    ∃ a₂ b₂, LimitDecomp false (pyStrip l) a₂ w d b₂ := by
  obtain ⟨heq, hprev, hw, hws, hd, hds, hb⟩ := hdec
  have hPV : l.takeWhile pyIsSpace ++ l.dropWhile pyIsSpace =
      a ++ (("LIMIT".data ++ w ++ d) ++ b) := by
    rw [List.takeWhile_append_dropWhile, heq]
    simp
  obtain ⟨a₂, ha₂, hV⟩ := ws_prefix_split hPV
    (fun c hc => List.mem_takeWhile_imp hc)
    (by rw [head?_append_left (by simp), head?_append_left (by decide)]; rfl)
    (by decide)
  have hlast : ∃ cl, d.getLast? = some cl := by
    cases hgl : d.getLast? with
    | none => rw [List.getLast?_eq_none_iff] at hgl; exact absurd hgl hd
    | some c => exact ⟨c, rfl⟩
  obtain ⟨cl, hcl⟩ := hlast
  have hglast : (a₂ ++ ("LIMIT".data ++ w ++ d)).getLast? = some cl := by
    rw [getLast?_append_right (show ("LIMIT".data ++ w ++ d : List Char) ≠ [] from
      fun hq => hd (List.append_eq_nil.mp hq).2)]
    rw [getLast?_append_right hd]
    exact hcl
  have hstrip : pyStrip l =
      a₂ ++ ("LIMIT".data ++ w ++ d) ++ dropTrailingWhile pyIsSpace b := by
    unfold pyStrip
    rw [hV, ← List.append_assoc]
    rw [dtw_append_last_neg b hglast
      (digit_not_space (hds cl (mem_of_getLast?' hcl)))]
  refine ⟨a₂, dropTrailingWhile pyIsSpace b, ?_, ?_, hw, hws, hd, hds, ?_⟩
  · rw [hstrip]
    simp
  · rw [ha₂, prevAt_append] at hprev
    rw [prevAt_all_space (fun c hc => List.mem_takeWhile_imp hc) rfl] at hprev
    exact hprev
  · exact isWordOpt_head_dtw hb

theorem pyStrip_occ_out_limit {l a w d b : List Char}
    (hdec : LimitDecomp false (pyStrip l) a w d b) :
    ∃ a₂ b₂, LimitDecomp false l a₂ w d b₂ := by
  obtain ⟨P, S, hl, hP, hS⟩ := pyStrip_decomp l
  obtain ⟨heq, hprev, hw, hws, hd, hds, hb⟩ := hdec
  refine ⟨P ++ a, b ++ S, ?_, ?_, hw, hws, hd, hds, ?_⟩
  · rw [hl, heq]
    simp
  · rw [prevAt_append, prevAt_all_space hP rfl]
    exact hprev
  · exact isWordOpt_head_append hb (isWordOpt_head_space hS)

theorem limitSubAt_map_toUpper (prev : Bool) (s : List Char) :
    limitSubAt prev (s.map Char.toUpper) =
      Option.map (fun kc : List Char × Nat => (kc.1.map Char.toUpper, kc.2))
        (limitSubAt prev s) := by
  have hie : ∀ x : List Char, (x.map Char.toUpper).isEmpty = x.isEmpty := by
    intro x
    cases x <;> rfl
  have hci : ciPrefix ("LIMIT".data) (s.map Char.toUpper) =
      ciPrefix ("LIMIT".data) s := by
    unfold ciPrefix
    rw [← List.map_take, map_toUpper_idem]
  have hlen : (s.map Char.toUpper).length = s.length := List.length_map _ _
  have hdrop5 : (s.map Char.toUpper).drop 5 = (s.drop 5).map Char.toUpper :=
    (List.map_drop _ _ _).symm
  have htw : ((s.drop 5).map Char.toUpper).takeWhile pyIsSpace =
      ((s.drop 5).takeWhile pyIsSpace).map Char.toUpper :=
    takeWhile_map_toUpper pyIsSpace_toUpper _
  unfold limitSubAt
  rw [hci, hlen]
  by_cases h1 : (ciPrefix ("LIMIT".data) s && decide (s.length ≥ 5) && !prev) = true
  case neg =>
      rw [if_neg h1, if_neg h1]
      rfl
  rw [if_pos h1, if_pos h1]
  dsimp only
  rw [hdrop5, htw, hie]
  by_cases h2 : ((s.drop 5).takeWhile pyIsSpace).isEmpty = true
  case pos =>
      rw [if_pos h2, if_pos h2]
      rfl
  rw [if_neg h2, if_neg h2]
  have hlenw : (((s.drop 5).takeWhile pyIsSpace).map Char.toUpper).length =
      ((s.drop 5).takeWhile pyIsSpace).length := List.length_map _ _
  rw [hlenw]
  have hdropw : (((s.drop 5).map Char.toUpper)).drop
      ((s.drop 5).takeWhile pyIsSpace).length =
      ((s.drop 5).drop ((s.drop 5).takeWhile pyIsSpace).length).map Char.toUpper :=
    (List.map_drop _ _ _).symm
  rw [hdropw]
  have htd : (((s.drop 5).drop ((s.drop 5).takeWhile pyIsSpace).length).map
      Char.toUpper).takeWhile pyIsDigit =
      (((s.drop 5).drop ((s.drop 5).takeWhile pyIsSpace).length).takeWhile
        pyIsDigit).map Char.toUpper :=
    takeWhile_map_toUpper pyIsDigit_toUpper _
  rw [htd, hie]
  by_cases h3 : (((s.drop 5).drop ((s.drop 5).takeWhile pyIsSpace).length).takeWhile
      pyIsDigit).isEmpty = true
  case pos =>
      rw [if_pos h3, if_pos h3]
      rfl
  rw [if_neg h3, if_neg h3]
  have hlend : ((((s.drop 5).drop ((s.drop 5).takeWhile pyIsSpace).length).takeWhile
      pyIsDigit).map Char.toUpper).length =
      (((s.drop 5).drop ((s.drop 5).takeWhile pyIsSpace).length).takeWhile
        pyIsDigit).length := List.length_map _ _
  rw [hlend]
  have htake5 : (s.map Char.toUpper).take 5 = (s.take 5).map Char.toUpper :=
    (List.map_take _ _ _).symm
  rw [htake5]
  dsimp only [Option.map]
  rw [List.map_append]

theorem rewriteLimitsAux_map_toUpper :
    ∀ (fuel : Nat) (prev : Bool) (s : List Char),
      (rewriteLimitsAux 10000 fuel prev s).map Char.toUpper =
        rewriteLimitsAux 10000 fuel prev (s.map Char.toUpper) := by
  intro fuel
  induction fuel with
  | zero =>
      intro prev s
      rfl
  | succ f ih =>
      intro prev s
      cases s with
      | nil => rfl
      | cons c cs =>
          unfold rewriteLimitsAux
          have hmap := limitSubAt_map_toUpper prev (c :: cs)
          cases hsub : limitSubAt prev (c :: cs) with
          | none =>
              rw [hsub] at hmap
              simp only [Option.map_none', List.map_cons] at hmap
              dsimp only
              rw [hsub]
              dsimp only
              simp only [List.map_cons]
              rw [hmap]
              dsimp only
              rw [isWordChar_toUpper, ih (isWordChar c) cs]
          | some kc =>
              obtain ⟨kept, consumed⟩ := kc
              rw [hsub] at hmap
              simp only [Option.map_some', List.map_cons] at hmap
              dsimp only
              rw [hsub]
              dsimp only
              simp only [List.map_cons]
              rw [hmap]
              dsimp only
              rw [List.map_append, List.map_append]
              rw [show (natDigits 10000).map Char.toUpper = natDigits 10000 from
                by decide]
              rw [ih true ((c :: cs).drop consumed), List.map_drop, List.map_cons]

theorem rewriteLimits_map_toUpper (s : List Char) :
    (rewriteLimits 10000 s).map Char.toUpper =
      rewriteLimits 10000 (s.map Char.toUpper) := by
  unfold rewriteLimits
  rw [List.length_map]
  exact rewriteLimitsAux_map_toUpper s.length false s

theorem prefix_through_rewrite {p U R : List Char} (hp : p ≠ [])
    (hpw : ∀ c ∈ p, isWordChar c = true)
    (hpnd : ∀ c ∈ p, pyIsDigit c = false)
    (hswap : DigitSwap U R)
    (hpre : p <+: pyStrip U) : p <+: pyStrip R := by
  have hV := DigitSwap_dropWhile_ws hswap
  have hp1 : p <+: U.dropWhile pyIsSpace := hpre.trans (dtw_pref _ _)
  obtain ⟨hp2, -⟩ := DigitSwap_prefix_transfer hpnd (DigitSwap_symm hV) hp1
  obtain ⟨r, hr⟩ := hp2
  have hlast : ∃ cl, p.getLast? = some cl := by
    cases hgl : p.getLast? with
    | none => rw [List.getLast?_eq_none_iff] at hgl; exact absurd hgl hp
    | some c => exact ⟨c, rfl⟩
  obtain ⟨cl, hcl⟩ := hlast
  have hstrip : pyStrip R = p ++ dropTrailingWhile pyIsSpace r := by
    unfold pyStrip
    rw [← hr, dtw_append_last_neg r hcl
      (isWordChar_not_space (hpw cl (mem_of_getLast?' hcl)))]
  exact ⟨dropTrailingWhile pyIsSpace r, hstrip.symm⟩

theorem firstBanned_none_iff {banned : List String} {su : List Char} :
    firstBanned banned su = none ↔ ∀ p ∈ banned, bannedProbe p su = false := by
  unfold firstBanned
  rw [List.find?_eq_none]
  constructor
  · intro h p hp
    have := h p hp
    simpa using this
  · intro h p hp
    simp [h p hp]

theorem rewriteLimits_ne_nil {s : List Char} (hs : s ≠ []) :
    rewriteLimits 10000 s ≠ [] := by
  cases s with
  | nil => exact absurd rfl hs
  | cons c cs =>
      unfold rewriteLimits rewriteLimitsAux
      simp only [List.length_cons]
      cases hsub : limitSubAt false (c :: cs) with
      | none => simp
      | some kc =>
          obtain ⟨kept, consumed⟩ := kc
          obtain ⟨W₁, D₁, hkept, -, -, -, -, -, hW1ne, -, -, -, -⟩ :=
            limitSubAt_some_decomp hsub
          intro hnil
          dsimp only at hnil
          rw [List.append_assoc] at hnil
          have := (List.append_eq_nil.mp hnil).1
          rw [hkept] at this
          exact hW1ne (List.append_eq_nil.mp this).2

theorem validate_query_ok_inv {banned : List String} {maxRows : Nat} {sql r : String}
    (h : validate_query banned maxRows sql = .ok r) :
    sql.data ≠ [] ∧
    (List.isPrefixOf ("SELECT".data) (normalizedUpper sql) ||
      List.isPrefixOf ("WITH".data) (normalizedUpper sql)) = true ∧
    firstBanned banned (normalizedUpper sql) = none ∧
    ((∃ n, findLimit (normalizedUpper sql) = some n ∧ n > maxRows ∧
        r.data = rewriteLimits maxRows (stripFences sql.data)) ∨
     (∃ n, findLimit (normalizedUpper sql) = some n ∧ ¬ n > maxRows ∧
        r.data = stripFences sql.data) ∨
     (findLimit (normalizedUpper sql) = none ∧
        r.data = dropTrailingWhile isSemiStripChar (stripFences sql.data) ++
          (" LIMIT ".data ++ natDigits maxRows))) := by
  unfold validate_query at h
  by_cases h1 : sql.data = []
  · rw [if_pos h1] at h
    exact absurd h (by simp)
  rw [if_neg h1] at h
  dsimp only at h
  by_cases h2 : (!(List.isPrefixOf ("SELECT".data) (normalizedUpper sql) ||
      List.isPrefixOf ("WITH".data) (normalizedUpper sql))) = true
  · rw [if_pos h2] at h
    exact absurd h (by simp)
  rw [if_neg h2] at h
  cases hfb : firstBanned banned (normalizedUpper sql) with
  | some p =>
      rw [hfb] at h
      exact absurd h (by simp)
  | none =>
      rw [hfb] at h
      refine ⟨h1, ?_, rfl, ?_⟩
      case _ =>
        cases hbx : (List.isPrefixOf ("SELECT".data) (normalizedUpper sql) ||
            List.isPrefixOf ("WITH".data) (normalizedUpper sql)) with
        | true => rfl
        | false =>
            rw [hbx] at h2
            exact absurd rfl h2
      cases hfl : findLimit (normalizedUpper sql) with
      | some n =>
          rw [hfl] at h
          dsimp only at h
          by_cases h3 : n > maxRows
          · rw [if_pos h3] at h
            injection h with h
            exact Or.inl ⟨n, rfl, h3, by rw [← h]⟩
          · rw [if_neg h3] at h
            injection h with h
            exact Or.inr (Or.inl ⟨n, rfl, h3, by rw [← h]⟩)
      | none =>
          rw [hfl] at h
          dsimp only at h
          injection h with h
          exact Or.inr (Or.inr ⟨rfl, by rw [← h]⟩)

theorem validate_query_eval_ok {banned : List String} {maxRows : Nat} {r : String}
    (h1 : r.data ≠ [])
    (h2 : (List.isPrefixOf ("SELECT".data) (normalizedUpper r) ||
      List.isPrefixOf ("WITH".data) (normalizedUpper r)) = true)
    (h3 : firstBanned banned (normalizedUpper r) = none)
    {n : Nat} (h4 : findLimit (normalizedUpper r) = some n) (h5 : ¬ n > maxRows)
    (h6 : stripFences r.data = r.data) :
    validate_query banned maxRows r = .ok r := by
  unfold validate_query
  rw [if_neg h1]
  dsimp only
  rw [if_neg (by rw [h2]; simp)]
  rw [h3, h4]
  dsimp only
  rw [if_neg h5, h6]

theorem validate_branchA {sql r : String}
    (hpre : (List.isPrefixOf ("SELECT".data) (normalizedUpper sql) ||
      List.isPrefixOf ("WITH".data) (normalizedUpper sql)) = true)
    (hfb : firstBanned banned_sql_patterns (normalizedUpper sql) = none)
    (hfl : findLimit (normalizedUpper sql) = none)
    (hrd : r.data = dropTrailingWhile isSemiStripChar (stripFences sql.data) ++
      (" LIMIT ".data ++ natDigits 10000))
    (hfence : stripFences r.data = r.data) :
    validate_query banned_sql_patterns max_rows_returned r = .ok r := by
  have hXmap : dropTrailingWhile isSemiStripChar
      ((stripFences sql.data).map Char.toUpper) =
      (dropTrailingWhile isSemiStripChar (stripFences sql.data)).map Char.toUpper :=
    dtw_map_toUpper isSemiStripChar_toUpper _
  have hrup : r.data.map Char.toUpper =
      dropTrailingWhile isSemiStripChar ((stripFences sql.data).map Char.toUpper) ++
        " LIMIT 10000".data := by
    rw [hrd, List.map_append, hXmap]
    congr 1
  have hsuq : normalizedUpper sql =
      pyStrip ((stripFences sql.data).map Char.toUpper) := rfl
  have hstruct : ∀ p : List Char, p ≠ [] →
      (∀ c ∈ p, isSemiStripChar c = false) →
      (p <+: normalizedUpper sql) →
      ((dropTrailingWhile isSemiStripChar
          ((stripFences sql.data).map Char.toUpper)).dropWhile pyIsSpace ≠ [] ∧
        (p <+: (dropTrailingWhile isSemiStripChar
          ((stripFences sql.data).map Char.toUpper)).dropWhile pyIsSpace) ∧
        ((∃ z, normalizedUpper sql = (dropTrailingWhile isSemiStripChar
            ((stripFences sql.data).map Char.toUpper)).dropWhile pyIsSpace ++ z ∧
            ∀ c ∈ z, isSemiStripChar c = true) ∨
          normalizedUpper sql = dropTrailingWhile pyIsSpace
            ((dropTrailingWhile isSemiStripChar
              ((stripFences sql.data).map Char.toUpper)).dropWhile pyIsSpace))) := by
    intro p hp hpns hppre
    rw [hsuq] at hppre ⊢
    exact branchA_structure hp hpns hppre
  have hmain : ∃ W, W ≠ [] ∧
      (List.isPrefixOf ("SELECT".data) (W ++ " LIMIT 10000".data) ||
        List.isPrefixOf ("WITH".data) (W ++ " LIMIT 10000".data)) = true ∧
      ((∃ z, normalizedUpper sql = W ++ z ∧ ∀ c ∈ z, isSemiStripChar c = true) ∨
        normalizedUpper sql = dropTrailingWhile pyIsSpace W) ∧
      normalizedUpper r = W ++ " LIMIT 10000".data := by
    rcases Bool.or_eq_true_iff.mp hpre with hS | hW
    · obtain ⟨hWne, hpW, hcase⟩ := hstruct ("SELECT".data) (by decide) (by decide)
        (List.isPrefixOf_iff_prefix.mp hS)
      refine ⟨_, hWne, ?_, hcase, ?_⟩
      · apply Bool.or_eq_true_iff.mpr
        left
        apply List.isPrefixOf_iff_prefix.mpr
        obtain ⟨t, ht⟩ := hpW
        exact ⟨t ++ " LIMIT 10000".data, by rw [← ht]; simp⟩
      · unfold normalizedUpper
        rw [hfence, hrup]
        exact pyStrip_X_T hWne
    · obtain ⟨hWne, hpW, hcase⟩ := hstruct ("WITH".data) (by decide) (by decide)
        (List.isPrefixOf_iff_prefix.mp hW)
      refine ⟨_, hWne, ?_, hcase, ?_⟩
      · apply Bool.or_eq_true_iff.mpr
        right
        apply List.isPrefixOf_iff_prefix.mpr
        obtain ⟨t, ht⟩ := hpW
        exact ⟨t ++ " LIMIT 10000".data, by rw [← ht]; simp⟩
      · unfold normalizedUpper
        rw [hfence, hrup]
        exact pyStrip_X_T hWne
  obtain ⟨W, hWne, hpre', hcase, hsu'⟩ := hmain
  have hrne : r.data ≠ [] := by
    rw [hrd]
    intro h0
    have := (List.append_eq_nil.mp h0).2
    exact absurd this (by decide)
  have hfb' : firstBanned banned_sql_patterns (normalizedUpper r) = none := by
    apply firstBanned_none_iff.mpr
    intro q hq
    by_cases hqs : q = "SELECT *"
    · unfold bannedProbe
      rw [if_pos hqs, hsu']
      cases hss : hasSelectStar (W ++ " LIMIT 10000".data) with
      | false => rfl
      | true =>
          exfalso
          obtain ⟨a, w, b₁, hWeq, hprev, hw, hws⟩ :=
            hasSelectStar_append_cases (by decide) hss
          have hocc := hasSelectStar_transfer hWeq hprev hw hws
            (by rcases hcase with ⟨z, hz1, hz2⟩ | hz1
                · exact Or.inl ⟨z, hz1, hz2⟩
                · exact Or.inr hz1)
          have hprobe := firstBanned_none_iff.mp hfb q hq
          rw [hqs] at hprobe
          unfold bannedProbe at hprobe
          rw [if_pos rfl] at hprobe
          rw [hocc] at hprobe
          exact absurd hprobe (by simp)
    · have hQfacts : ∀ q₂ ∈ banned_sql_patterns, q₂ ≠ "SELECT *" →
          (q₂.data ≠ [] ∧ (∀ c ∈ q₂.data, isWordChar c = true) ∧
            ∀ j, j ≤ (" LIMIT 10000".data : List Char).length →
              q₂.data.isPrefixOf ((" LIMIT 10000".data).drop j) = false) := by
        decide
      obtain ⟨hqne, hqw, hqin⟩ := hQfacts q hq hqs
      unfold bannedProbe
      rw [if_neg hqs, hsu']
      cases hwo : hasWordOcc q.data (W ++ " LIMIT 10000".data) with
      | false => rfl
      | true =>
          exfalso
          obtain ⟨a, b₁, hWeq, hprev, hb⟩ :=
            hasWordOcc_append_cases hqne hqw (by decide) hqin hwo
          have hocc := hasWordOcc_transfer hqne hqw hWeq hprev hb
            (by rcases hcase with ⟨z, hz1, hz2⟩ | hz1
                · exact Or.inl ⟨z, hz1, hz2⟩
                · exact Or.inr hz1)
          have hprobe := firstBanned_none_iff.mp hfb q hq
          unfold bannedProbe at hprobe
          rw [if_neg hqs] at hprobe
          rw [hocc] at hprobe
          exact absurd hprobe (by simp)
  have hfl' : findLimit (normalizedUpper r) = some 10000 := by
    rw [hsu']
    exact findLimit_WT hfl
      (by rcases hcase with ⟨z, hz1, hz2⟩ | hz1
          · exact Or.inl ⟨z, hz1, hz2⟩
          · exact Or.inr hz1)
  exact validate_query_eval_ok hrne (by rw [hsu']; exact hpre') hfb' hfl'
    (by decide) hfence

theorem validate_branchR {sql r : String} {n : Nat}
    (hpre : (List.isPrefixOf ("SELECT".data) (normalizedUpper sql) ||
      List.isPrefixOf ("WITH".data) (normalizedUpper sql)) = true)
    (hfb : firstBanned banned_sql_patterns (normalizedUpper sql) = none)
    (hfl : findLimit (normalizedUpper sql) = some n)
    (hrd : r.data = rewriteLimits 10000 (stripFences sql.data))
    (hfence : stripFences r.data = r.data) :
    validate_query banned_sql_patterns max_rows_returned r = .ok r := by
  have hfixU : ((stripFences sql.data).map Char.toUpper).map Char.toUpper =
      (stripFences sql.data).map Char.toUpper := map_toUpper_idem _
  have hRW : RW 10000 false ((stripFences sql.data).map Char.toUpper)
      (rewriteLimits 10000 ((stripFences sql.data).map Char.toUpper)) :=
    rewriteLimits_RW 10000 _
  have hswap : DigitSwap ((stripFences sql.data).map Char.toUpper)
      (rewriteLimits 10000 ((stripFences sql.data).map Char.toUpper)) :=
    RW_DigitSwap (by decide) (by decide) hRW
  have hsuq : normalizedUpper sql =
      pyStrip ((stripFences sql.data).map Char.toUpper) := rfl
  have hs1ne : stripFences sql.data ≠ [] := by
    intro h0
    have hz : normalizedUpper sql = [] := by
      rw [hsuq, h0]
      rfl
    rw [hz] at hpre
    exact absurd hpre (by decide)
  have hsu' : normalizedUpper r =
      pyStrip (rewriteLimits 10000 ((stripFences sql.data).map Char.toUpper)) := by
    unfold normalizedUpper
    rw [hfence, hrd, rewriteLimits_map_toUpper]
  have hrne : r.data ≠ [] := by
    rw [hrd]
    exact rewriteLimits_ne_nil hs1ne
  have hpre' : (List.isPrefixOf ("SELECT".data) (normalizedUpper r) ||
      List.isPrefixOf ("WITH".data) (normalizedUpper r)) = true := by
    rcases Bool.or_eq_true_iff.mp hpre with hS | hW
    · apply Bool.or_eq_true_iff.mpr
      left
      apply List.isPrefixOf_iff_prefix.mpr
      rw [hsu']
      exact prefix_through_rewrite (by decide) (by decide) (by decide) hswap
        (by rw [hsuq] at hS; exact List.isPrefixOf_iff_prefix.mp hS)
    · apply Bool.or_eq_true_iff.mpr
      right
      apply List.isPrefixOf_iff_prefix.mpr
      rw [hsu']
      exact prefix_through_rewrite (by decide) (by decide) (by decide) hswap
        (by rw [hsuq] at hW; exact List.isPrefixOf_iff_prefix.mp hW)
  have hfb' : firstBanned banned_sql_patterns (normalizedUpper r) = none := by
    apply firstBanned_none_iff.mpr
    intro q hq
    by_cases hqs : q = "SELECT *"
    · unfold bannedProbe
      rw [if_pos hqs, hsu']
      cases hss : hasSelectStar
          (pyStrip (rewriteLimits 10000 ((stripFences sql.data).map Char.toUpper))) with
      | false => rfl
      | true =>
          exfalso
          have h1 := pyStrip_occ_out_star hss
          have h2 := DigitSwap_selectStarSearch hswap false h1
          have h3 := pyStrip_occ_in_star h2
          have hprobe := firstBanned_none_iff.mp hfb q hq
          rw [hqs] at hprobe
          unfold bannedProbe at hprobe
          rw [if_pos rfl] at hprobe
          rw [hsuq] at hprobe
          rw [h3] at hprobe
          exact absurd hprobe (by simp)
    · have hQfacts : ∀ q₂ ∈ banned_sql_patterns, q₂ ≠ "SELECT *" →
          (q₂.data ≠ [] ∧ (∀ c ∈ q₂.data, isWordChar c = true) ∧
            ∀ c ∈ q₂.data, pyIsDigit c = false) := by
        decide
      obtain ⟨hqne, hqw, hqnd⟩ := hQfacts q hq hqs
      unfold bannedProbe
      rw [if_neg hqs, hsu']
      cases hwo : hasWordOcc q.data
          (pyStrip (rewriteLimits 10000 ((stripFences sql.data).map Char.toUpper))) with
      | false => rfl
      | true =>
          exfalso
          have h1 := pyStrip_occ_out_word hqne hqw hwo
          have h2 := DigitSwap_wordSearch hqne hqw hqnd hswap false h1
          have h3 := pyStrip_occ_in_word hqne hqw h2
          have hprobe := firstBanned_none_iff.mp hfb q hq
          unfold bannedProbe at hprobe
          rw [if_neg hqs] at hprobe
          rw [hsuq] at hprobe
          rw [h3] at hprobe
          exact absurd hprobe (by simp)
  have hfl' : findLimit (normalizedUpper r) = some 10000 := by
    obtain ⟨a, w, d, b, hdec, hval⟩ := findLimit_some hfl
    rw [hsuq] at hdec
    obtain ⟨a₂, b₂, hdec₂⟩ := pyStrip_occ_out_limit hdec
    obtain ⟨a₃, w₃, d₃, b₃, hdec₃⟩ := DigitSwap_limit_exists hswap hdec₂
    obtain ⟨a₄, b₄, hdec₄⟩ := pyStrip_occ_in_limit hdec₃
    obtain ⟨v, hv⟩ := findLimit_isSome hdec₄
    have hv' : findLimit (normalizedUpper r) = some v := by
      rw [hsu']
      exact hv
    obtain ⟨a₅, w₅, d₅, b₅, hdec₅, hval₅⟩ := findLimit_some hv'
    rw [hsu'] at hdec₅
    obtain ⟨a₆, b₆, hdec₆⟩ := pyStrip_occ_out_limit hdec₅
    have hvval : natOfDigits d₅ = 10000 :=
      RW_decomp_value hRW hfixU a₆ w₅ d₅ b₆ hdec₆
    rw [hv', ← hval₅, hvval]
  exact validate_query_eval_ok hrne hpre' hfb' hfl' (by decide) hfence

/-- C8 (amended): `validate_query` is idempotent on every accepted output that
the markdown-fence clean-up leaves unchanged: if `validate_query sql = ok r`
and `stripFences r = r`, then `validate_query r = ok r`.  (The unamended claim
is refuted by `validator_not_idempotent_counterexample`: an accepted output
may still end in backticks, which a second validation strips again.) -/
theorem validate_query_idempotent_modulo_fences (sql r : String)
    (h : validate_query banned_sql_patterns max_rows_returned sql = .ok r)
    (hfence : stripFences r.data = r.data) :
    validate_query banned_sql_patterns max_rows_returned r = .ok r := by
  obtain ⟨hne, hpre, hfb, hbr⟩ := validate_query_ok_inv h
  rcases hbr with ⟨n, hfl, hgt, hrd⟩ | ⟨n, hfl, hle, hrd⟩ | ⟨hfl, hrd⟩
  · exact validate_branchR hpre hfb hfl hrd hfence
  · have hs1ne : stripFences sql.data ≠ [] := by
      intro h0
      have hz : normalizedUpper sql = [] := by
        show pyStrip ((stripFences sql.data).map Char.toUpper) = []
        rw [h0]
        rfl
      rw [hz] at hpre
      exact absurd hpre (by decide)
    have hnur : normalizedUpper r = normalizedUpper sql := by
      unfold normalizedUpper
      rw [hfence, hrd]
    exact validate_query_eval_ok (by rw [hrd]; exact hs1ne)
      (by rw [hnur]; exact hpre) (by rw [hnur]; exact hfb)
      (by rw [hnur]; exact hfl) hle hfence
  · exact validate_branchA hpre hfb hfl hrd hfence

/-- Witness for C8: validating `"SELECT a"` yields `"SELECT a LIMIT 10000"`,
which is fence-clean, and re-validating it returns it unchanged. -/
theorem validate_query_idempotent_modulo_fences_witness :
    validate_query banned_sql_patterns max_rows_returned "SELECT a" =
      .ok "SELECT a LIMIT 10000" ∧
    stripFences (("SELECT a LIMIT 10000" : String).data) =
      ("SELECT a LIMIT 10000" : String).data ∧
    validate_query banned_sql_patterns max_rows_returned "SELECT a LIMIT 10000" =
      .ok "SELECT a LIMIT 10000" :=
  ⟨rfl, rfl, validate_query_idempotent_modulo_fences "SELECT a"
    "SELECT a LIMIT 10000" rfl rfl⟩

/-- C8 counterexample to idempotence as stated: the accepted output of
`"SELECT a LIMIT 10``````"` still ends in three backticks, and validating
that output strips them again, returning a different string. -/
theorem validator_not_idempotent_counterexample :
    validate_query banned_sql_patterns max_rows_returned
        "SELECT a LIMIT 10``````" = .ok "SELECT a LIMIT 10```" ∧
    validate_query banned_sql_patterns max_rows_returned
        "SELECT a LIMIT 10```" = .ok "SELECT a LIMIT 10" :=
  ⟨rfl, rfl⟩

/-! ## Lemmas: splitlines -/

theorem firstLine_append : ∀ s : List Char, (firstLine s).1 ++ (firstLine s).2 = s := by
  intro s
  induction s with
  | nil => rfl
  | cons c cs ih =>
    simp only [firstLine]
    split
    · next hc =>
        subst hc
        split
        · rfl
        · rfl
    · split
      · rfl
      · simp only [List.cons_append, List.cons.injEq, true_and]
        exact ih

theorem firstLine_fst_ne_nil : ∀ s : List Char, s ≠ [] → (firstLine s).1 ≠ [] := by
  intro s hs
  match s with
  | c :: cs =>
    simp only [firstLine]
    split
    · split
      · simp
      · simp
    · split
      · simp
      · simp

theorem firstLine_snd_lt : ∀ s : List Char, s ≠ [] → (firstLine s).2.length < s.length := by
  intro s
  induction s with
  | nil => intro h; simp at h
  | cons c cs ih =>
      intro _
      simp only [firstLine]
      split
      · split
        · simp only [List.length_cons]; omega
        · simp only [List.length_cons]; omega
      · split
        · simp only [List.length_cons]; omega
        · rcases cs with _ | ⟨c', cs'⟩
          · simp [firstLine]
          · have := ih (by simp)
            simp only [List.length_cons] at this ⊢
            omega

theorem splitlinesAux_flatten : ∀ (f : Nat) (s : List Char), s.length < f →
    (splitlinesAux f s).flatten = s := by
  intro f
  induction f with
  | zero => intro s h; omega
  | succ f ih =>
      intro s h
      match s with
      | [] => rfl
      | c :: cs =>
          simp only [splitlinesAux, List.flatten_cons]
          rw [ih _ (by
            have := firstLine_snd_lt (c :: cs) (by simp)
            simp only [List.length_cons] at this h
            omega)]
          exact firstLine_append (c :: cs)

theorem splitlinesKE_flatten (s : List Char) : (splitlinesKE s).flatten = s :=
  splitlinesAux_flatten _ s (Nat.lt_succ_self _)

theorem splitlinesAux_ne_nil : ∀ (f : Nat) (s : List Char) (l : List Char),
    l ∈ splitlinesAux f s → l ≠ [] := by
  intro f
  induction f with
  | zero => intro s l h; simp [splitlinesAux] at h
  | succ f ih =>
      intro s l h
      match s with
      | [] => simp [splitlinesAux] at h
      | c :: cs =>
          simp only [splitlinesAux, List.mem_cons] at h
          rcases h with h | h
          · rw [h]; exact firstLine_fst_ne_nil _ (by simp)
          · exact ih _ _ h

theorem splitlinesKE_ne_nil (s : List Char) (l : List Char)
    (h : l ∈ splitlinesKE s) : l ≠ [] :=
  splitlinesAux_ne_nil _ _ _ h

/-! ## Lemmas: the `b2j` index -/

theorem occsOf_b2jAdd (m : List (List Char × List Nat)) (y : List Char) (i : Nat)
    (x : List Char) :
    occsOf (b2jAdd m y i) x = occsOf m x ++ (if y = x then [i] else []) := by
  induction m with
  | nil =>
      by_cases h : y = x <;> simp [b2jAdd, occsOf, alistGet, h]
  | cons p rest ih =>
      obtain ⟨k, v⟩ := p
      by_cases hk : k = y
      · subst hk
        by_cases hx : k = x <;> simp [b2jAdd, occsOf, alistGet, hx]
      · by_cases hx : k = x
        · subst hx
          have hyx : ¬ y = k := fun h => hk h.symm
          simp [b2jAdd, occsOf, alistGet, hk, hyx]
        · simpa [b2jAdd, occsOf, alistGet, hk, hx] using ih

theorem occsOf_b2jBuildAux : ∀ (xs : List (List Char)) (i : Nat)
    (m : List (List Char × List Nat)) (x : List Char),
    occsOf (b2jBuildAux xs i m) x = occsOf m x ++ posOfAux xs i x := by
  intro xs
  induction xs with
  | nil => intro i m x; simp [b2jBuildAux, posOfAux]
  | cons y ys ih =>
      intro i m x
      simp only [b2jBuildAux, posOfAux]
      rw [ih, occsOf_b2jAdd, List.append_assoc]

theorem occsOf_b2jBuild (b : List (List Char)) (x : List Char) :
    occsOf (b2jBuild b) x = posOfAux b 0 x := by
  have : occsOf ([] : List (List Char × List Nat)) x = [] := rfl
  simpa [this] using occsOf_b2jBuildAux b 0 [] x

theorem b2jAdd_keys (m : List (List Char × List Nat)) (y : List Char) (i : Nat) :
    (b2jAdd m y i).map Prod.fst =
      if y ∈ m.map Prod.fst then m.map Prod.fst else m.map Prod.fst ++ [y] := by
  induction m with
  | nil => simp [b2jAdd]
  | cons p rest ih =>
      obtain ⟨k, v⟩ := p
      by_cases hk : k = y
      · subst hk; simp [b2jAdd]
      · have : ¬ y = k := fun h => hk h.symm
        simp only [b2jAdd, if_neg hk, List.map_cons, List.mem_cons, this, false_or]
        rw [ih]
        by_cases hy : y ∈ rest.map Prod.fst <;> simp [hy]

theorem b2jAdd_keys_nodup (m : List (List Char × List Nat)) (y : List Char) (i : Nat)
    (h : (m.map Prod.fst).Nodup) : ((b2jAdd m y i).map Prod.fst).Nodup := by
  rw [b2jAdd_keys]
  by_cases hy : y ∈ m.map Prod.fst
  · simpa [hy] using h
  · simp only [hy, if_false]
    exact List.Nodup.append h (List.nodup_singleton y) (by simpa using hy)

theorem b2jBuildAux_keys_nodup : ∀ (xs : List (List Char)) (i : Nat)
    (m : List (List Char × List Nat)), (m.map Prod.fst).Nodup →
    ((b2jBuildAux xs i m).map Prod.fst).Nodup := by
  intro xs
  induction xs with
  | nil => intro i m h; exact h
  | cons y ys ih => intro i m h; exact ih _ _ (b2jAdd_keys_nodup m y i h)

theorem b2jBuild_keys_nodup (b : List (List Char)) :
    ((b2jBuild b).map Prod.fst).Nodup :=
  b2jBuildAux_keys_nodup b 0 [] (by simp)

theorem alistGet_eq_none (m : List (List Char × List Nat)) (x : List Char)
    (h : x ∉ m.map Prod.fst) : alistGet m x = none := by
  induction m with
  | nil => rfl
  | cons p rest ih =>
      obtain ⟨k, v⟩ := p
      simp only [List.map_cons, List.mem_cons] at h
      push_neg at h
      rw [show alistGet ((k, v) :: rest) x = if k = x then some v else alistGet rest x
        from rfl, if_neg (fun hh => h.1 hh.symm)]
      exact ih h.2

theorem alistGet_filter (m : List (List Char × List Nat))
    (P : List Char × List Nat → Bool) (x : List Char)
    (h : (m.map Prod.fst).Nodup) :
    alistGet (m.filter P) x =
      match alistGet m x with
      | some v => if P (x, v) then some v else none
      | none => none := by
  induction m with
  | nil => rfl
  | cons p rest ih =>
      obtain ⟨k, v⟩ := p
      simp only [List.map_cons, List.nodup_cons] at h
      by_cases hk : k = x
      · subst hk
        have hsome : alistGet ((k, v) :: rest) k = some v := by simp [alistGet]
        by_cases hp : P (k, v)
        · have hfil : List.filter P ((k, v) :: rest) = (k, v) :: rest.filter P := by
            simp [List.filter_cons, hp]
          rw [hfil, hsome]
          simp [alistGet, hp]
        · have hfil : List.filter P ((k, v) :: rest) = rest.filter P := by
            simp [List.filter_cons, hp]
          have hnotin : k ∉ (rest.filter P).map Prod.fst := by
            intro hmem
            rcases List.mem_map.mp hmem with ⟨p, hp1, hp2⟩
            exact h.1 (List.mem_map.mpr ⟨p, (List.mem_filter.mp hp1).1, hp2⟩)
          rw [hfil, alistGet_eq_none _ _ hnotin, hsome]
          simp [hp]
      · by_cases hp : P (k, v)
        · simpa [List.filter_cons, hp, alistGet, hk] using ih h.2
        · simpa [List.filter_cons, hp, alistGet, hk] using ih h.2

theorem occsOf_chainB (b : List (List Char)) (x : List Char) :
    occsOf (chainB b) x = [] ∨ occsOf (chainB b) x = posOfAux b 0 x := by
  unfold chainB
  by_cases h : 200 ≤ b.length
  · simp only [h, if_true]
    rw [show occsOf ((b2jBuild b).filter fun p => !(b.length / 100 + 1 < p.2.length)) x =
        (alistGet ((b2jBuild b).filter fun p => !(b.length / 100 + 1 < p.2.length)) x).getD []
      from rfl]
    rw [alistGet_filter _ _ _ (b2jBuild_keys_nodup b)]
    have hb := occsOf_b2jBuild b x
    unfold occsOf at hb
    cases hget : alistGet (b2jBuild b) x with
    | none =>
        left; rfl
    | some v =>
        rw [hget] at hb
        simp only [Option.getD_some] at hb
        by_cases hp : (!(b.length / 100 + 1 < v.length)) = true
        · right
          simp only [hp, if_true]
          have hple : (posOfAux b 0 x).length ≤ b.length / 100 + 1 := by
            have h2 : ¬ (b.length / 100 + 1 < v.length) := by simpa using hp
            rw [← hb]; omega
          simp [hp, hb, if_pos hple]
        · left
          simp [Bool.not_eq_true] at hp
          simp [hp]
    -- (handled above)
  · simp only [h, if_false]
    right
    exact occsOf_b2jBuild b x

theorem posOfAux_mem : ∀ (xs : List (List Char)) (i j : Nat) (x : List Char),
    j ∈ posOfAux xs i x ↔ ∃ t, t < xs.length ∧ j = i + t ∧ xs.getD t [] = x := by
  intro xs
  induction xs with
  | nil => intro i j x; simp [posOfAux]
  | cons y ys ih =>
      intro i j x
      simp only [posOfAux, List.mem_append]
      constructor
      · intro h
        rcases h with h | h
        · by_cases hy : y = x
          · simp only [hy, if_true, List.mem_singleton] at h
            exact ⟨0, by simp, by omega, by simpa using hy⟩
          · simp [hy] at h
        · rcases (ih (i + 1) j x).mp h with ⟨t, ht, hj, hx⟩
          exact ⟨t + 1, by simpa using ht, by omega, by simpa using hx⟩
      · rintro ⟨t, ht, hj, hx⟩
        match t with
        | 0 =>
            left
            simp only [List.getD_cons_zero] at hx
            simp [hx, hj]
        | t + 1 =>
            right
            exact (ih (i + 1) j x).mpr ⟨t, by simpa using ht, by omega, by simpa using hx⟩

theorem posOfAux_ge : ∀ (xs : List (List Char)) (i : Nat) (x : List Char) (j : Nat),
    j ∈ posOfAux xs i x → i ≤ j := by
  intro xs i x j h
  rcases (posOfAux_mem xs i j x).mp h with ⟨t, _, hj, _⟩
  omega

theorem posOfAux_pairwise : ∀ (xs : List (List Char)) (i : Nat) (x : List Char),
    (posOfAux xs i x).Pairwise (· < ·) := by
  intro xs
  induction xs with
  | nil => intro i x; simp [posOfAux]
  | cons y ys ih =>
      intro i x
      simp only [posOfAux]
      by_cases hy : y = x
      · simp only [hy, if_true, List.singleton_append, List.pairwise_cons]
        exact ⟨fun j hj => Nat.lt_of_lt_of_le (Nat.lt_succ_self i) (posOfAux_ge ys (i + 1) x j hj),
          ih (i + 1) x⟩
      · simpa [hy] using ih (i + 1) x

theorem occs_chainB_sound (b : List (List Char)) (x : List Char) (j : Nat)
    (h : j ∈ occsOf (chainB b) x) : j < b.length ∧ b.getD j [] = x := by
  rcases occsOf_chainB b x with hc | hc
  · rw [hc] at h; simp at h
  · rw [hc] at h
    rcases (posOfAux_mem b 0 j x).mp h with ⟨t, ht, hj, hx⟩
    subst hj
    rw [Nat.zero_add]
    exact ⟨ht, hx⟩

theorem occs_chainB_complete (b : List (List Char)) (x : List Char) (j : Nat)
    (h : j ∈ occsOf (chainB b) x) (t : Nat) (ht : t < b.length)
    (hx : b.getD t [] = x) : t ∈ occsOf (chainB b) x := by
  rcases occsOf_chainB b x with hc | hc
  · rw [hc] at h; simp at h
  · rw [hc]
    exact (posOfAux_mem b 0 t x).mpr ⟨t, ht, by omega, hx⟩

theorem occs_chainB_pairwise (b : List (List Char)) (x : List Char) :
    (occsOf (chainB b) x).Pairwise (· < ·) := by
  rcases occsOf_chainB b x with hc | hc <;> rw [hc]
  · simp
  · exact posOfAux_pairwise b 0 x

/-! ## Lemmas: the DP run lengths on an identical pair -/

theorem natGetD_cons (k0 v0 : Nat) (rest : List (Nat × Nat)) (t : Nat) :
    natGetD ((k0, v0) :: rest) t = if k0 = t then v0 else natGetD rest t := by
  by_cases h : k0 = t <;> simp [natGetD, natGet, h]

theorem natGetD_assocPut (m : List (Nat × Nat)) (j k t : Nat) :
    natGetD (assocPut m j k) t = if t = j then k else natGetD m t := by
  induction m with
  | nil =>
      rw [show assocPut [] j k = [(j, k)] from rfl, natGetD_cons]
      by_cases h : t = j
      · subst h; simp [natGetD, natGet]
      · rw [if_neg (fun hh : j = t => h hh.symm), if_neg h]
  | cons p rest ih =>
      obtain ⟨k0, v0⟩ := p
      simp only [assocPut]
      by_cases hk : k0 = j
      · subst hk
        rw [if_pos rfl, natGetD_cons, natGetD_cons]
        by_cases ht : t = k0
        · rw [if_pos ht.symm, if_pos ht]
        · rw [if_neg (fun hh : k0 = t => ht hh.symm),
            if_neg (fun hh : k0 = t => ht hh.symm), if_neg ht]
      · rw [if_neg hk, natGetD_cons, natGetD_cons]
        by_cases ht : k0 = t
        · have htj : ¬ t = j := fun hh => hk (ht.trans hh)
          rw [if_pos ht, if_pos ht, if_neg htj]
        · rw [if_neg ht, if_neg ht, ih]

theorem runLen_succ_succ (a : List (List Char)) (i j : Nat) :
    runLen a (i + 1) (j + 1) =
      if j + 1 ∈ occsOf (chainB a) (a.getD (i + 1) []) then runLen a i j + 1 else 0 := by
  rfl

theorem runLen_succ_zero (a : List (List Char)) (i : Nat) :
    runLen a (i + 1) 0 =
      if 0 ∈ occsOf (chainB a) (a.getD (i + 1) []) then 1 else 0 := by
  rfl

theorem runLen_zero (a : List (List Char)) (j : Nat) :
    runLen a 0 j = if j ∈ occsOf (chainB a) (a.getD 0 []) then 1 else 0 := rfl

theorem runLen_zero_of_not_mem (a : List (List Char)) (i j : Nat)
    (h : j ∉ occsOf (chainB a) (a.getD i [])) : runLen a i j = 0 := by
  match i, j with
  | 0, j => rw [runLen_zero, if_neg h]
  | i + 1, 0 => rw [runLen_succ_zero, if_neg h]
  | i + 1, j + 1 => rw [runLen_succ_succ, if_neg h]

theorem runLen_pos_mem (a : List (List Char)) (i j : Nat)
    (h : 0 < runLen a i j) : j ∈ occsOf (chainB a) (a.getD i []) := by
  by_contra hn
  rw [runLen_zero_of_not_mem a i j hn] at h
  omega

theorem runLen_le_left (a : List (List Char)) : ∀ i j, runLen a i j ≤ i + 1 := by
  intro i
  induction i with
  | zero => intro j; rw [runLen_zero]; split <;> omega
  | succ i ih =>
      intro j
      match j with
      | 0 => rw [runLen_succ_zero]; split <;> omega
      | j + 1 =>
          rw [runLen_succ_succ]
          split
          · have := ih j; omega
          · omega

theorem runLen_le_right (a : List (List Char)) : ∀ i j, runLen a i j ≤ j + 1 := by
  intro i
  induction i with
  | zero => intro j; rw [runLen_zero]; split <;> omega
  | succ i ih =>
      intro j
      match j with
      | 0 => rw [runLen_succ_zero]; split <;> omega
      | j + 1 =>
          rw [runLen_succ_succ]
          split
          · have := ih j; omega
          · omega

theorem runLen_D2 (a : List (List Char)) :
    ∀ i j, i ≤ j → i < a.length → runLen a i j ≤ runLen a i i := by
  intro i
  induction i with
  | zero =>
      intro j _ h0
      by_cases hj : j ∈ occsOf (chainB a) (a.getD 0 [])
      · have h00 : (0 : Nat) ∈ occsOf (chainB a) (a.getD 0 []) :=
          occs_chainB_complete a _ j hj 0 h0 rfl
        rw [runLen_zero, runLen_zero, if_pos hj, if_pos h00]
      · rw [runLen_zero_of_not_mem a 0 j hj]
        omega
  | succ i ih =>
      intro j hij hn
      match j, hij with
      | j + 1, hij =>
          by_cases hj : j + 1 ∈ occsOf (chainB a) (a.getD (i + 1) [])
          · have hself : i + 1 ∈ occsOf (chainB a) (a.getD (i + 1) []) :=
              occs_chainB_complete a _ (j + 1) hj (i + 1) hn rfl
            rw [runLen_succ_succ, runLen_succ_succ, if_pos hj, if_pos hself]
            have := ih j (by omega) (by omega)
            omega
          · rw [runLen_zero_of_not_mem a (i + 1) (j + 1) hj]
            omega

theorem runLen_D1 (a : List (List Char)) :
    ∀ i j, j ≤ i → i < a.length → runLen a i j ≤ runLen a j j := by
  intro i
  induction i with
  | zero =>
      intro j hj _
      match j, hj with
      | 0, _ => exact Nat.le_refl _
  | succ i ih =>
      intro j hij hn
      rcases Nat.eq_or_lt_of_le hij with heq | hlt
      · rw [heq]
      · have hji : j ≤ i := by omega
        by_cases hmem : j ∈ occsOf (chainB a) (a.getD (i + 1) [])
        · have hval := (occs_chainB_sound a _ j hmem).2
          have hmem' : j ∈ occsOf (chainB a) (a.getD j []) := by rw [hval]; exact hmem
          match j with
          | 0 =>
              rw [runLen_succ_zero, if_pos hmem, runLen_zero, if_pos hmem']
          | j + 1 =>
              rw [runLen_succ_succ, if_pos hmem, runLen_succ_succ, if_pos hmem']
              have := ih j (by omega) (by omega)
              omega
        · rw [runLen_zero_of_not_mem a (i + 1) j hmem]
          omega

theorem kform (a : List (List Char)) (i j : Nat) (prev : List (Nat × Nat))
    (hprev : ∀ t, natGetD prev t = prevR a i t)
    (hj : j ∈ occsOf (chainB a) (a.getD i [])) :
    (if j = 0 then 0 else natGetD prev (j - 1)) + 1 = runLen a i j := by
  match j with
  | 0 =>
      match i with
      | 0 => rw [runLen_zero, if_pos hj]; simp
      | i + 1 => rw [runLen_succ_zero, if_pos hj]; simp
  | j + 1 =>
      simp only [Nat.succ_ne_zero, if_false, Nat.add_sub_cancel]
      rw [hprev j]
      match i with
      | 0 =>
          rw [runLen_zero, if_pos hj, prevR]
      | i + 1 =>
          rw [runLen_succ_succ, if_pos hj, prevR]

/-! ## Lemmas: `find_longest_match` on an identical pair stays diagonal -/

theorem flmInner_spec (a : List (List Char)) (i : Nat) (hi : i < a.length)
    (prev : List (Nat × Nat)) (hprev : ∀ t, natGetD prev t = prevR a i t) :
    ∀ (js : List Nat) (st : FlmState),
      js.Pairwise (· < ·) →
      (∀ j ∈ js, j ∈ occsOf (chainB a) (a.getD i [])) →
      st.besti = st.bestj →
      st.besti + st.bestsize ≤ a.length →
      (∀ t, t < i → runLen a t t ≤ st.bestsize) →
      (i ∈ js ∨ runLen a i i ≤ st.bestsize) →
      (flmInner 0 a.length i prev js st).besti = (flmInner 0 a.length i prev js st).bestj ∧
      (flmInner 0 a.length i prev js st).besti +
        (flmInner 0 a.length i prev js st).bestsize ≤ a.length ∧
      (∀ t, t < i → runLen a t t ≤ (flmInner 0 a.length i prev js st).bestsize) ∧
      runLen a i i ≤ (flmInner 0 a.length i prev js st).bestsize ∧
      (∀ t, natGetD (flmInner 0 a.length i prev js st).j2len t =
        if t ∈ js then runLen a i t else natGetD st.j2len t) := by
  intro js
  induction js with
  | nil =>
      intro st _ _ h1 h2 h3 h4
      refine ⟨h1, h2, h3, ?_, ?_⟩
      · rcases h4 with h | h
        · exact absurd h (List.not_mem_nil i)
        · exact h
      · intro t
        simp [flmInner]
  | cons j js ih =>
      intro st hpw hmem hdiag hbound hprevbest hdisj
      have hmemj : j ∈ occsOf (chainB a) (a.getD i []) := hmem j (List.mem_cons_self j js)
      have hjlt : j < a.length := (occs_chainB_sound a _ j hmemj).1
      have hk := kform a i j prev hprev hmemj
      have hstep : flmInner 0 a.length i prev (j :: js) st =
          if st.bestsize < runLen a i j then
            flmInner 0 a.length i prev js
              ⟨assocPut st.j2len j (runLen a i j), i + 1 - runLen a i j,
                j + 1 - runLen a i j, runLen a i j⟩
          else
            flmInner 0 a.length i prev js
              ⟨assocPut st.j2len j (runLen a i j), st.besti, st.bestj, st.bestsize⟩ := by
        simp only [flmInner]
        rw [if_neg (Nat.not_lt_zero j), if_neg (show ¬ a.length ≤ j by omega), hk]
      rw [hstep]
      have hpw' : js.Pairwise (· < ·) := (List.pairwise_cons.mp hpw).2
      have hmem' : ∀ t ∈ js, t ∈ occsOf (chainB a) (a.getD i []) :=
        fun t ht => hmem t (List.mem_cons_of_mem j ht)
      by_cases hcase : st.bestsize < runLen a i j
      · rw [if_pos hcase]
        rcases Nat.lt_trichotomy j i with hji | hji | hji
        · exfalso
          have hd1 : runLen a i j ≤ runLen a j j := runLen_D1 a i j (Nat.le_of_lt hji) hi
          have hd2 : runLen a j j ≤ st.bestsize := hprevbest j hji
          omega
        · subst hji
          have hKright : runLen a j j ≤ j + 1 := runLen_le_right a j j
          have h5 := ih ⟨assocPut st.j2len j (runLen a j j), j + 1 - runLen a j j,
              j + 1 - runLen a j j, runLen a j j⟩ hpw' hmem' rfl
            (by show j + 1 - runLen a j j + runLen a j j ≤ a.length; omega)
            (fun t ht => by
              have := hprevbest t ht
              show runLen a t t ≤ runLen a j j
              omega)
            (Or.inr (Nat.le_refl _))
          refine ⟨h5.1, h5.2.1, h5.2.2.1, h5.2.2.2.1, ?_⟩
          intro t
          rw [h5.2.2.2.2 t]
          by_cases htj : t ∈ js
          · rw [if_pos htj, if_pos (List.mem_cons_of_mem j htj)]
          · rw [if_neg htj]
            show natGetD (assocPut st.j2len j (runLen a j j)) t = _
            rw [natGetD_assocPut]
            by_cases ht2 : t = j
            · subst ht2
              rw [if_pos rfl, if_pos (List.mem_cons_self t js)]
            · rw [if_neg ht2, if_neg (by
                intro hmem2
                rcases List.mem_cons.mp hmem2 with h | h
                · exact ht2 h
                · exact htj h)]
        · exfalso
          have hnotin : i ∉ j :: js := by
            intro hmem2
            rcases List.mem_cons.mp hmem2 with h | h
            · omega
            · have := (List.pairwise_cons.mp hpw).1 i h
              omega
          rcases hdisj with h | h
          · exact hnotin h
          · have hd2 : runLen a i j ≤ runLen a i i := runLen_D2 a i j (Nat.le_of_lt hji) hi
            omega
      · rw [if_neg hcase]
        have hdisj' : i ∈ js ∨ runLen a i i ≤ st.bestsize := by
          rcases hdisj with h | h
          · rcases List.mem_cons.mp h with h2 | h2
            · right
              subst h2
              omega
            · left; exact h2
          · right; exact h
        have h5 := ih ⟨assocPut st.j2len j (runLen a i j), st.besti, st.bestj, st.bestsize⟩
          hpw' hmem' hdiag hbound hprevbest hdisj'
        refine ⟨h5.1, h5.2.1, h5.2.2.1, h5.2.2.2.1, ?_⟩
        intro t
        rw [h5.2.2.2.2 t]
        by_cases htj : t ∈ js
        · rw [if_pos htj, if_pos (List.mem_cons_of_mem j htj)]
        · rw [if_neg htj]
          show natGetD (assocPut st.j2len j (runLen a i j)) t = _
          rw [natGetD_assocPut]
          by_cases ht2 : t = j
          · subst ht2
            rw [if_pos rfl, if_pos (List.mem_cons_self t js)]
          · rw [if_neg ht2, if_neg (by
              intro hmem2
              rcases List.mem_cons.mp hmem2 with h | h
              · exact ht2 h
              · exact htj h)]

theorem flmOuter_spec (a : List (List Char)) :
    ∀ (cnt i0 : Nat) (st : FlmState),
      i0 + cnt ≤ a.length →
      (∀ t, natGetD st.j2len t = prevR a i0 t) →
      st.besti = st.bestj →
      st.besti + st.bestsize ≤ a.length →
      (∀ t, t < i0 → runLen a t t ≤ st.bestsize) →
      (flmOuter (chainB a) a 0 a.length (List.range' i0 cnt) st).besti =
        (flmOuter (chainB a) a 0 a.length (List.range' i0 cnt) st).bestj ∧
      (flmOuter (chainB a) a 0 a.length (List.range' i0 cnt) st).besti +
        (flmOuter (chainB a) a 0 a.length (List.range' i0 cnt) st).bestsize ≤ a.length ∧
      (∀ t, t < i0 + cnt →
        runLen a t t ≤ (flmOuter (chainB a) a 0 a.length (List.range' i0 cnt) st).bestsize) := by
  intro cnt
  induction cnt with
  | zero =>
      intro i0 st _ _ hdiag hbound hprevbest
      refine ⟨hdiag, hbound, fun t ht => hprevbest t (by omega)⟩
  | succ cnt ih =>
      intro i0 st hle hprev hdiag hbound hprevbest
      have hrange : List.range' i0 (cnt + 1) = i0 :: List.range' (i0 + 1) cnt := by
        rw [List.range'_succ]
      rw [hrange]
      simp only [flmOuter]
      have hi0 : i0 < a.length := by omega
      have hdisj : i0 ∈ occsOf (chainB a) (a.getD i0 []) ∨
          runLen a i0 i0 ≤ (⟨[], st.besti, st.bestj, st.bestsize⟩ : FlmState).bestsize := by
        by_cases hocc : occsOf (chainB a) (a.getD i0 []) = []
        · right
          rw [runLen_zero_of_not_mem a i0 i0 (by rw [hocc]; exact List.not_mem_nil i0)]
          exact Nat.zero_le _
        · left
          rcases List.exists_mem_of_ne_nil _ hocc with ⟨j, hj⟩
          exact occs_chainB_complete a _ j hj i0 hi0 rfl
      have h5 := flmInner_spec a i0 hi0 st.j2len hprev
        (occsOf (chainB a) (a.getD i0 []))
        ⟨[], st.besti, st.bestj, st.bestsize⟩
        (occs_chainB_pairwise a _)
        (fun t ht => ht) hdiag hbound hprevbest hdisj
      have h6 := ih (i0 + 1)
        (flmInner 0 a.length i0 st.j2len (occsOf (chainB a) (a.getD i0 []))
          ⟨[], st.besti, st.bestj, st.bestsize⟩)
        (by omega)
        (by
          intro t
          rw [h5.2.2.2.2 t, prevR]
          by_cases ht : t ∈ occsOf (chainB a) (a.getD i0 [])
          · rw [if_pos ht]
          · rw [if_neg ht]
            rw [runLen_zero_of_not_mem a i0 t ht]
            rfl)
        h5.1 h5.2.1
        (by
          intro t ht
          rcases Nat.lt_or_ge t i0 with h | h
          · exact h5.2.2.1 t h
          · have : t = i0 := by omega
            subst this
            exact h5.2.2.2.1)
      refine ⟨h6.1, h6.2.1, fun t ht => h6.2.2 t (by omega)⟩

theorem extendBack_diag (a : List (List Char)) :
    ∀ (f B S : Nat), B ≤ f → extendBack a a 0 0 f (B, B, S) = (0, 0, B + S) := by
  intro f
  induction f with
  | zero =>
      intro B S h
      have hB : B = 0 := by omega
      subst hB
      rw [Nat.zero_add]
      rfl
  | succ f ihf =>
      intro B S h
      match B with
      | 0 =>
          simp only [extendBack]
          rw [if_neg (by simp), Nat.zero_add]
      | B + 1 =>
          simp only [extendBack]
          rw [if_pos ⟨Nat.succ_pos B, Nat.succ_pos B, trivial⟩]
          simp only [Nat.add_sub_cancel]
          rw [ihf B (S + 1) (by omega)]
          have : B + (S + 1) = B + 1 + S := by omega
          rw [this]

theorem extendFwd_diag (a : List (List Char)) (n : Nat) :
    ∀ (f S : Nat), S ≤ n → n - S ≤ f → extendFwd a a n n f (0, 0, S) = (0, 0, n) := by
  intro f
  induction f with
  | zero =>
      intro S h1 h2
      have : S = n := by omega
      subst this
      rfl
  | succ f ihf =>
      intro S h1 h2
      by_cases hS : S = n
      · subst hS
        simp only [extendFwd]
        rw [if_neg (by omega)]
      · simp only [extendFwd]
        rw [if_pos ⟨by omega, by omega, trivial⟩]
        exact ihf (S + 1) (by omega) (by omega)

theorem flm_self (a : List (List Char)) :
    findLongestMatch a a (chainB a) 0 a.length 0 a.length = (0, 0, a.length) := by
  obtain ⟨hdiag, hbound, -⟩ := flmOuter_spec a a.length 0 ⟨[], 0, 0, 0⟩ (by omega)
    (fun t => rfl) rfl (by simp) (fun t ht => absurd ht (Nat.not_lt_zero t))
  simp only [findLongestMatch, Nat.sub_zero]
  rw [← hdiag]
  rw [extendBack_diag a _ _ _ (Nat.le_refl _)]
  exact extendFwd_diag a a.length _ _ hbound (by omega)

theorem gmbLoop_nil (a b : List (List Char)) (m : List (List Char × List Nat)) :
    ∀ (f : Nat) (acc : List (Nat × Nat × Nat)), gmbLoop a b m f [] acc = acc := by
  intro f acc
  cases f <;> rfl

theorem getMatchingBlocks_self (a : List (List Char)) :
    getMatchingBlocks a a =
      if a.length = 0 then [(0, 0, 0)]
      else [(0, 0, a.length), (a.length, a.length, 0)] := by
  by_cases hn : a.length = 0
  · rw [if_pos hn]
    unfold getMatchingBlocks
    simp only [hn]
    rfl
  · rw [if_neg hn]
    unfold getMatchingBlocks
    simp only [gmbLoop, flm_self]
    rw [if_pos (by simpa using hn)]
    rw [if_neg (by omega), if_neg (by omega)]
    simp only [List.nil_append]
    rw [gmbLoop_nil]
    show collapseBlocks 0 0 0 (sortBlocks [(0, 0, a.length)]) ++ _ = _
    rw [show sortBlocks [(0, 0, a.length)] = [(0, 0, a.length)] from rfl]
    simp only [collapseBlocks]
    rw [if_pos ⟨trivial, trivial⟩, if_pos (by omega)]
    simp

theorem getOpcodes_self (a : List (List Char)) :
    getOpcodes a a =
      if a.length = 0 then [] else [⟨"equal", 0, a.length, 0, a.length⟩] := by
  unfold getOpcodes
  rw [getMatchingBlocks_self]
  by_cases hn : a.length = 0
  · rw [if_pos hn, if_pos hn]
    rfl
  · rw [if_neg hn, if_neg hn]
    simp [getOpcodesAux, hn]

theorem getGroupedOpcodes_self (a : List (List Char)) :
    getGroupedOpcodes (getOpcodes a a) 3 = [] := by
  rw [getOpcodes_self]
  by_cases hn : a.length = 0
  · rw [if_pos hn]
    rfl
  · rw [if_neg hn]
    unfold getGroupedOpcodes
    rw [if_neg (by simp)]
    show groupLoop 3 []
      (fixupLast 3 (fixupHead 3 [⟨"equal", 0, a.length, 0, a.length⟩])) = []
    have h1 : fixupHead 3 [⟨"equal", 0, a.length, 0, a.length⟩] =
        [⟨"equal", a.length - 3, a.length, a.length - 3, a.length⟩] := by
      simp only [fixupHead, if_pos rfl, Nat.zero_max]
      simp
    rw [h1]
    have h2 : fixupLast 3 [⟨"equal", a.length - 3, a.length, a.length - 3, a.length⟩] =
        [⟨"equal", a.length - 3, a.length, a.length - 3, a.length⟩] := by
      simp only [fixupLast, List.reverse_singleton, fixLastOp, if_pos rfl]
      rw [show min a.length (a.length - 3 + 3) = a.length from by omega]
      simp
    rw [h2]
    simp only [groupLoop]
    rw [if_neg (by
      rintro ⟨-, h⟩
      omega)]
    rw [if_neg (by
      rintro ⟨-, h⟩
      exact h ⟨rfl, rfl⟩)]

theorem unifiedDiffLines_self (a : List (List Char)) (ff tf : List Char) :
    unifiedDiffLines a a ff tf 3 = [] := by
  unfold unifiedDiffLines
  rw [getGroupedOpcodes_self]
  rfl

/-! ## Lemmas: every reported matching block is a real match -/

theorem flmInner_sound (a b : List (List Char)) (blo bhi i : Nat)
    (prev : List (Nat × Nat))
    (hprev : ∀ j, 0 < natGetD prev j →
      natGetD prev j ≤ i ∧ natGetD prev j ≤ j + 1 ∧
      ∀ t, t < natGetD prev j → a.getD (i - 1 - t) [] = b.getD (j - t) []) :
    ∀ (js : List Nat) (st : FlmState),
      (∀ j ∈ js, b.getD j [] = a.getD i []) →
      MatchAt a b st.besti st.bestj st.bestsize →
      (∀ j, 0 < natGetD st.j2len j →
        natGetD st.j2len j ≤ i + 1 ∧ natGetD st.j2len j ≤ j + 1 ∧
        ∀ t, t < natGetD st.j2len j → a.getD (i - t) [] = b.getD (j - t) []) →
      MatchAt a b (flmInner blo bhi i prev js st).besti
        (flmInner blo bhi i prev js st).bestj
        (flmInner blo bhi i prev js st).bestsize ∧
      (∀ j, 0 < natGetD (flmInner blo bhi i prev js st).j2len j →
        natGetD (flmInner blo bhi i prev js st).j2len j ≤ i + 1 ∧
        natGetD (flmInner blo bhi i prev js st).j2len j ≤ j + 1 ∧
        ∀ t, t < natGetD (flmInner blo bhi i prev js st).j2len j →
          a.getD (i - t) [] = b.getD (j - t) []) := by
  intro js
  induction js with
  | nil =>
      intro st _ hm hd
      exact ⟨hm, hd⟩
  | cons j js ih =>
      intro st hval hm hd
      have hval' : ∀ t ∈ js, b.getD t [] = a.getD i [] :=
        fun t ht => hval t (List.mem_cons_of_mem j ht)
      simp only [flmInner]
      by_cases h1 : j < blo
      · rw [if_pos h1]
        exact ih st hval' hm hd
      · rw [if_neg h1]
        by_cases h2 : bhi ≤ j
        · rw [if_pos h2]
          exact ⟨hm, hd⟩
        · rw [if_neg h2]
          set K := (if j = 0 then 0 else natGetD prev (j - 1)) + 1 with hK
          have hKle : K ≤ i + 1 ∧ K ≤ j + 1 := by
            by_cases hj0 : j = 0
            · rw [hK, if_pos hj0]
              omega
            · rw [hK, if_neg hj0]
              by_cases hp : 0 < natGetD prev (j - 1)
              · have := hprev (j - 1) hp
                omega
              · omega
          have hKrun : ∀ t, t < K → a.getD (i - t) [] = b.getD (j - t) [] := by
            intro t ht
            match t with
            | 0 =>
                simp only [Nat.sub_zero]
                exact (hval j (List.mem_cons_self j js)).symm
            | t + 1 =>
                have hj0 : ¬ j = 0 := by
                  intro h0
                  rw [hK, if_pos h0] at ht
                  omega
                rw [hK, if_neg hj0] at ht
                have hp : 0 < natGetD prev (j - 1) := by omega
                have h3 := (hprev (j - 1) hp).2.2 t (by omega)
                rw [show i - 1 - t = i - (t + 1) from by omega,
                  show j - 1 - t = j - (t + 1) from by omega] at h3
                exact h3
          have hd' : ∀ j0, 0 < natGetD (assocPut st.j2len j K) j0 →
              natGetD (assocPut st.j2len j K) j0 ≤ i + 1 ∧
              natGetD (assocPut st.j2len j K) j0 ≤ j0 + 1 ∧
              ∀ t, t < natGetD (assocPut st.j2len j K) j0 →
                a.getD (i - t) [] = b.getD (j0 - t) [] := by
            intro j0 hpos
            rw [natGetD_assocPut] at hpos ⊢
            by_cases hj0 : j0 = j
            · rw [if_pos hj0] at hpos ⊢
              subst hj0
              exact ⟨hKle.1, hKle.2, hKrun⟩
            · rw [if_neg hj0] at hpos ⊢
              exact hd j0 hpos
          by_cases hbest : st.bestsize < K
          · rw [if_pos hbest]
            refine ih ⟨assocPut st.j2len j K, i + 1 - K, j + 1 - K, K⟩ hval' ?_ hd'
            show MatchAt a b (i + 1 - K) (j + 1 - K) K
            intro t ht
            have h3 := hKrun (K - 1 - t) (by omega)
            rw [show i - (K - 1 - t) = i + 1 - K + t from by omega,
              show j - (K - 1 - t) = j + 1 - K + t from by omega] at h3
            exact h3
          · rw [if_neg hbest]
            exact ih ⟨assocPut st.j2len j K, st.besti, st.bestj, st.bestsize⟩ hval' hm hd'

theorem flmOuter_sound (a b : List (List Char)) (blo bhi : Nat) :
    ∀ (cnt i0 : Nat) (st : FlmState),
      (∀ j, 0 < natGetD st.j2len j →
        natGetD st.j2len j ≤ i0 ∧ natGetD st.j2len j ≤ j + 1 ∧
        ∀ t, t < natGetD st.j2len j → a.getD (i0 - 1 - t) [] = b.getD (j - t) []) →
      MatchAt a b st.besti st.bestj st.bestsize →
      MatchAt a b (flmOuter (chainB b) a blo bhi (List.range' i0 cnt) st).besti
        (flmOuter (chainB b) a blo bhi (List.range' i0 cnt) st).bestj
        (flmOuter (chainB b) a blo bhi (List.range' i0 cnt) st).bestsize := by
  intro cnt
  induction cnt with
  | zero =>
      intro i0 st _ hm
      exact hm
  | succ cnt ih =>
      intro i0 st hd hm
      rw [List.range'_succ]
      simp only [flmOuter]
      have h5 := flmInner_sound a b blo bhi i0 st.j2len hd
        (occsOf (chainB b) (a.getD i0 []))
        ⟨[], st.besti, st.bestj, st.bestsize⟩
        (fun j hj => (occs_chainB_sound b _ j hj).2)
        hm
        (fun j hpos => absurd hpos (by
          rw [show natGetD [] j = 0 from rfl]
          omega))
      refine ih (i0 + 1) _ ?_ h5.1
      intro j hpos
      have h6 := h5.2 j hpos
      refine ⟨by omega, h6.2.1, ?_⟩
      intro t ht
      rw [show i0 + 1 - 1 - t = i0 - t from by omega]
      exact h6.2.2 t ht

theorem extendBack_sound (a b : List (List Char)) (alo blo : Nat) :
    ∀ (f bi bj bs : Nat), MatchAt a b bi bj bs →
      MatchAt a b (extendBack a b alo blo f (bi, bj, bs)).1
        (extendBack a b alo blo f (bi, bj, bs)).2.1
        (extendBack a b alo blo f (bi, bj, bs)).2.2 := by
  intro f
  induction f with
  | zero => intro bi bj bs hm; exact hm
  | succ f ih =>
      intro bi bj bs hm
      simp only [extendBack]
      by_cases hc : alo < bi ∧ blo < bj ∧ a.getD (bi - 1) [] = b.getD (bj - 1) []
      · rw [if_pos hc]
        refine ih (bi - 1) (bj - 1) (bs + 1) ?_
        intro t ht
        match t with
        | 0 =>
            simpa using hc.2.2
        | t + 1 =>
            rw [show bi - 1 + (t + 1) = bi + t from by omega,
              show bj - 1 + (t + 1) = bj + t from by omega]
            exact hm t (by omega)
      · rw [if_neg hc]
        exact hm

theorem extendFwd_sound (a b : List (List Char)) (ahi bhi : Nat) :
    ∀ (f bi bj bs : Nat), MatchAt a b bi bj bs →
      MatchAt a b (extendFwd a b ahi bhi f (bi, bj, bs)).1
        (extendFwd a b ahi bhi f (bi, bj, bs)).2.1
        (extendFwd a b ahi bhi f (bi, bj, bs)).2.2 := by
  intro f
  induction f with
  | zero => intro bi bj bs hm; exact hm
  | succ f ih =>
      intro bi bj bs hm
      simp only [extendFwd]
      by_cases hc : bi + bs < ahi ∧ bj + bs < bhi ∧ a.getD (bi + bs) [] = b.getD (bj + bs) []
      · rw [if_pos hc]
        refine ih bi bj (bs + 1) ?_
        intro t ht
        by_cases htb : t < bs
        · exact hm t htb
        · have : t = bs := by omega
          subst this
          exact hc.2.2
      · rw [if_neg hc]
        exact hm

theorem findLongestMatch_sound (a b : List (List Char)) (alo ahi blo bhi : Nat) :
    MatchAt a b (findLongestMatch a b (chainB b) alo ahi blo bhi).1
      (findLongestMatch a b (chainB b) alo ahi blo bhi).2.1
      (findLongestMatch a b (chainB b) alo ahi blo bhi).2.2 := by
  have h1 := flmOuter_sound a b blo bhi (ahi - alo) alo ⟨[], alo, blo, 0⟩
    (fun j hpos => absurd hpos (by
      rw [show natGetD [] j = 0 from rfl]
      omega))
    (fun t ht => absurd ht (Nat.not_lt_zero t))
  simp only [findLongestMatch]
  exact extendFwd_sound a b ahi bhi ahi _ _ _
    (extendBack_sound a b alo blo _ _ _ _ h1)

theorem insertBlock_mem (p : Nat × Nat × Nat) :
    ∀ (l : List (Nat × Nat × Nat)) (x : Nat × Nat × Nat),
      x ∈ insertBlock p l → x = p ∨ x ∈ l := by
  intro l
  induction l with
  | nil =>
      intro x hx
      simp [insertBlock] at hx
      exact Or.inl hx
  | cons q qs ih =>
      intro x hx
      simp only [insertBlock] at hx
      by_cases hle : blockLE p q
      · rw [if_pos hle] at hx
        rcases List.mem_cons.mp hx with h | h
        · exact Or.inl h
        · exact Or.inr h
      · rw [if_neg hle] at hx
        rcases List.mem_cons.mp hx with h | h
        · exact Or.inr (by rw [h]; exact List.mem_cons_self q qs)
        · rcases ih x h with h2 | h2
          · exact Or.inl h2
          · exact Or.inr (List.mem_cons_of_mem q h2)

theorem sortBlocks_mem : ∀ (l : List (Nat × Nat × Nat)) (x : Nat × Nat × Nat),
    x ∈ sortBlocks l → x ∈ l := by
  intro l
  induction l with
  | nil => intro x hx; exact absurd hx (List.not_mem_nil x)
  | cons q qs ih =>
      intro x hx
      simp only [sortBlocks] at hx
      rcases insertBlock_mem q (sortBlocks qs) x hx with h | h
      · rw [h]; exact List.mem_cons_self q qs
      · exact List.mem_cons_of_mem q (ih x h)

theorem gmbLoop_sound (a b : List (List Char)) :
    ∀ (f : Nat) (queue : List (Nat × Nat × Nat × Nat)) (acc : List (Nat × Nat × Nat)),
      (∀ p ∈ acc, MatchAt a b p.1 p.2.1 p.2.2) →
      ∀ p ∈ gmbLoop a b (chainB b) f queue acc, MatchAt a b p.1 p.2.1 p.2.2 := by
  intro f
  induction f with
  | zero => intro queue acc hacc p hp; exact hacc p hp
  | succ f ih =>
      intro queue acc hacc p hp
      match queue with
      | [] => exact hacc p hp
      | ⟨alo, ahi, blo, bhi⟩ :: rest =>
          simp only [gmbLoop] at hp
          by_cases hk : (findLongestMatch a b (chainB b) alo ahi blo bhi).2.2 ≠ 0
          · rw [if_pos hk] at hp
            refine ih _ _ ?_ p hp
            intro q hq
            rcases List.mem_append.mp hq with h | h
            · exact hacc q h
            · rw [List.mem_singleton.mp h]
              exact findLongestMatch_sound a b alo ahi blo bhi
          · rw [if_neg hk] at hp
            exact ih _ _ hacc p hp

theorem collapseBlocks_sound (a b : List (List Char)) :
    ∀ (l : List (Nat × Nat × Nat)) (i1 j1 k1 : Nat),
      MatchAt a b i1 j1 k1 →
      (∀ p ∈ l, MatchAt a b p.1 p.2.1 p.2.2) →
      ∀ p ∈ collapseBlocks i1 j1 k1 l, MatchAt a b p.1 p.2.1 p.2.2 := by
  intro l
  induction l with
  | nil =>
      intro i1 j1 k1 hm _ p hp
      simp only [collapseBlocks] at hp
      by_cases hk : k1 ≠ 0
      · rw [if_pos hk] at hp
        rw [List.mem_singleton.mp hp]
        exact hm
      · rw [if_neg hk] at hp
        exact absurd hp (List.not_mem_nil p)
  | cons q rest ih =>
      intro i1 j1 k1 hm hl p hp
      obtain ⟨i2, j2, k2⟩ := q
      have hq2 : MatchAt a b i2 j2 k2 := hl _ (List.mem_cons_self _ rest)
      have hl' : ∀ p ∈ rest, MatchAt a b p.1 p.2.1 p.2.2 :=
        fun p hp => hl p (List.mem_cons_of_mem _ hp)
      simp only [collapseBlocks] at hp
      by_cases hadj : i1 + k1 = i2 ∧ j1 + k1 = j2
      · rw [if_pos hadj] at hp
        refine ih i1 j1 (k1 + k2) ?_ hl' p hp
        intro t ht
        by_cases htk : t < k1
        · exact hm t htk
        · have h3 := hq2 (t - k1) (by omega)
          rw [show i2 + (t - k1) = i1 + t from by omega,
            show j2 + (t - k1) = j1 + t from by omega] at h3
          exact h3
      · rw [if_neg hadj] at hp
        rcases List.mem_append.mp hp with h | h
        · by_cases hk : k1 ≠ 0
          · rw [if_pos hk] at h
            rw [List.mem_singleton.mp h]
            exact hm
          · rw [if_neg hk] at h
            exact absurd h (List.not_mem_nil p)
        · exact ih i2 j2 k2 hq2 hl' p h

theorem getMatchingBlocks_sound (a b : List (List Char)) :
    ∀ p ∈ getMatchingBlocks a b, MatchAt a b p.1 p.2.1 p.2.2 := by
  intro p hp
  unfold getMatchingBlocks at hp
  rcases List.mem_append.mp hp with h | h
  · refine collapseBlocks_sound a b _ 0 0 0 (fun t ht => absurd ht (Nat.not_lt_zero t)) ?_ p h
    intro q hq
    exact gmbLoop_sound a b _ _ [] (fun r hr => absurd hr (List.not_mem_nil r)) q
      (sortBlocks_mem _ q hq)
  · rw [List.mem_singleton.mp h]
    exact fun t ht => absurd ht (Nat.not_lt_zero t)

/-! ## Lemmas: reading the opcode list backwards -/

theorem getOpcodesAux_nil_all :
    ∀ (bl : List (Nat × Nat × Nat)) (i j : Nat),
      getOpcodesAux i j bl = [] → ∀ p ∈ bl, p.1 ≤ i ∧ p.2.1 ≤ j ∧ p.2.2 = 0 := by
  intro bl
  induction bl with
  | nil => intro i j _ p hp; exact absurd hp (List.not_mem_nil p)
  | cons blk rest ih =>
      intro i j h p hp
      obtain ⟨ai, bj, sz⟩ := blk
      simp only [getOpcodesAux] at h
      by_cases h1 : i < ai ∧ j < bj
      · rw [if_pos h1] at h; simp at h
      · rw [if_neg h1] at h
        by_cases h2 : i < ai
        · rw [if_pos h2] at h; simp at h
        · rw [if_neg h2] at h
          by_cases h3 : j < bj
          · rw [if_pos h3] at h; simp at h
          · rw [if_neg h3] at h
            by_cases h4 : sz ≠ 0
            · rw [if_pos h4] at h; simp at h
            · rw [if_neg h4] at h
              simp only [List.nil_append] at h
              push_neg at h4
              rcases List.mem_cons.mp hp with hp1 | hp1
              · subst hp1
                refine ⟨?_, ?_, ?_⟩ <;> simp <;> omega
              · have h5 := ih (ai + sz) (bj + sz) h p hp1
                exact ⟨by omega, by omega, h5.2.2⟩

theorem getOpcodesAux_single_equal :
    ∀ (bl : List (Nat × Nat × Nat)) (i j e1 e2 f1 f2 : Nat),
      getOpcodesAux i j bl = [⟨"equal", e1, e2, f1, f2⟩] →
      ∃ s pre post, bl = pre ++ (e1, f1, s) :: post ∧ s ≠ 0 ∧ e2 = e1 + s ∧ f2 = f1 + s ∧
        e1 ≤ i ∧ f1 ≤ j ∧ (∀ p ∈ pre, p.1 ≤ i ∧ p.2.1 ≤ j) ∧
        getOpcodesAux e2 f2 post = [] := by
  intro bl
  induction bl with
  | nil =>
      intro i j e1 e2 f1 f2 h
      simp [getOpcodesAux] at h
  | cons blk rest ih =>
      intro i j e1 e2 f1 f2 h
      obtain ⟨ai, bj, sz⟩ := blk
      simp only [getOpcodesAux] at h
      by_cases h1 : i < ai ∧ j < bj
      · rw [if_pos h1] at h
        simp only [List.cons_append, List.cons.injEq] at h
        have htag := congrArg Opcode.tag h.1
        dsimp only at htag
        exact absurd htag (by decide)
      · rw [if_neg h1] at h
        by_cases h2 : i < ai
        · rw [if_pos h2] at h
          simp only [List.cons_append, List.cons.injEq] at h
          have htag := congrArg Opcode.tag h.1
          dsimp only at htag
          exact absurd htag (by decide)
        · rw [if_neg h2] at h
          by_cases h3 : j < bj
          · rw [if_pos h3] at h
            simp only [List.cons_append, List.cons.injEq] at h
            have htag := congrArg Opcode.tag h.1
            dsimp only at htag
            exact absurd htag (by decide)
          · rw [if_neg h3] at h
            by_cases h4 : sz ≠ 0
            · rw [if_pos h4] at h
              simp only [List.nil_append, List.cons_append, List.cons.injEq,
                List.append_eq_nil] at h
              obtain ⟨hop, hrest⟩ := h
              have htag := congrArg Opcode.tag hop
              have hi1 := congrArg Opcode.i1 hop
              have hi2 := congrArg Opcode.i2 hop
              have hj1 := congrArg Opcode.j1 hop
              have hj2 := congrArg Opcode.j2 hop
              simp only at hi1 hi2 hj1 hj2
              refine ⟨sz, [], rest, ?_, h4, ?_, ?_, ?_, ?_, ?_, ?_⟩
              · rw [List.nil_append, hi1, hj1]
              · omega
              · omega
              · omega
              · omega
              · intro p hp; exact absurd hp (List.not_mem_nil p)
              · rw [hi2, hj2] at hrest
                exact hrest
            · rw [if_neg h4] at h
              simp only [List.nil_append] at h
              push_neg at h4
              subst h4
              simp only [Nat.add_zero] at h
              rcases ih ai bj e1 e2 f1 f2 h with
                ⟨s, pre, post, hsplit, hs, he2, hf2, he1, hf1, hpre, hpost⟩
              refine ⟨s, (ai, bj, 0) :: pre, post, ?_, hs, he2, hf2, by omega, by omega,
                ?_, hpost⟩
              · rw [List.cons_append, hsplit]
              · intro p hp
                rcases List.mem_cons.mp hp with hp1 | hp1
                · subst hp1
                  refine ⟨?_, ?_⟩ <;> simp <;> omega
                · have h5 := hpre p hp1
                  exact ⟨by omega, by omega⟩

theorem groupLoop_nil_cases (n : Nat) :
    ∀ (codes group : List Opcode), groupLoop n group codes = [] →
      group ++ codes = [] ∨
      ((group ++ codes).length = 1 ∧ ((group ++ codes).headD default).tag = "equal") := by
  intro codes
  induction codes with
  | nil =>
      intro group h
      simp only [groupLoop] at h
      by_cases hc : group ≠ [] ∧ ¬(group.length = 1 ∧ (group.headD default).tag = "equal")
      · rw [if_pos hc] at h
        simp at h
      · push_neg at hc
        rw [List.append_nil]
        by_cases hg : group = []
        · exact Or.inl hg
        · exact Or.inr (hc hg)
  | cons c rest ih =>
      intro group h
      simp only [groupLoop] at h
      by_cases hc : c.tag = "equal" ∧ n + n < c.i2 - c.i1
      · rw [if_pos hc] at h
        simp at h
      · rw [if_neg hc] at h
        have h1 := ih (group ++ [c]) h
        rw [List.append_assoc, List.singleton_append] at h1
        exact h1

theorem fixupHead_length (n : Nat) (codes : List Opcode) :
    (fixupHead n codes).length = codes.length := by
  match codes with
  | [] => rfl
  | c :: rest =>
      simp only [fixupHead]
      split <;> simp

theorem fixupLast_length (n : Nat) (codes : List Opcode) :
    (fixupLast n codes).length = codes.length := by
  unfold fixupLast
  cases hrev : codes.reverse with
  | nil =>
      rw [show codes = [] from by simpa using congrArg List.reverse hrev]
  | cons c rest =>
      have : codes.length = (c :: rest).length := by
        rw [← List.length_reverse codes, hrev]
      simp [this]

theorem fixupHead_sig (n : Nat) (c : Opcode) :
    ∃ c', fixupHead n [c] = [c'] ∧ c'.tag = c.tag := by
  simp only [fixupHead]
  by_cases hc : c.tag = "equal"
  · rw [if_pos hc]
    exact ⟨_, rfl, rfl⟩
  · rw [if_neg hc]
    exact ⟨c, rfl, rfl⟩

theorem fixupLast_sig (n : Nat) (c : Opcode) :
    ∃ c', fixupLast n [c] = [c'] ∧ c'.tag = c.tag := by
  unfold fixupLast
  rw [List.reverse_singleton]
  refine ⟨fixLastOp n c, by simp, ?_⟩
  unfold fixLastOp
  by_cases hc : c.tag = "equal"
  · rw [if_pos hc]
  · rw [if_neg hc]

theorem eq_of_getD_bound (a b : List (List Char)) (s : Nat)
    (hla : a.length ≤ s) (hlb : b.length ≤ s)
    (hm : ∀ t, t < s → a.getD t [] = b.getD t [])
    (hna : ∀ l ∈ a, l ≠ []) (hnb : ∀ l ∈ b, l ≠ []) : a = b := by
  have hlen : a.length = b.length := by
    by_contra hne
    rcases Nat.lt_or_ge a.length b.length with hlt | hge
    · have h1 := hm a.length (by omega)
      rw [List.getD_eq_default] at h1
      · have h2 : b.getD a.length [] ∈ b := by
          rw [List.getD_eq_getElem b [] hlt]
          exact List.getElem_mem hlt
        exact hnb _ h2 h1.symm
      · exact Nat.le_refl _
    · have hlt : b.length < a.length := by omega
      have h1 := hm b.length (by omega)
      rw [List.getD_eq_getElem a [] hlt] at h1
      rw [List.getD_eq_default b [] (Nat.le_refl _)] at h1
      have h2 : a[b.length] ∈ a := List.getElem_mem hlt
      exact hna _ h2 h1
  apply List.ext_getElem hlen
  intro i h1 h2
  have h3 := hm i (by omega)
  rwa [List.getD_eq_getElem a [] h1, List.getD_eq_getElem b [] h2] at h3

theorem getGroupedOpcodes_nil_imp (a b : List (List Char))
    (hna : ∀ l ∈ a, l ≠ []) (hnb : ∀ l ∈ b, l ≠ [])
    (h : getGroupedOpcodes (getOpcodes a b) 3 = []) : a = b := by
  have hsent : (a.length, b.length, (0 : Nat)) ∈ getMatchingBlocks a b := by
    unfold getMatchingBlocks
    exact List.mem_append_right _ (List.mem_singleton_self _)
  unfold getGroupedOpcodes at h
  by_cases hc0 : getOpcodes a b = []
  · have h0 := getOpcodesAux_nil_all (getMatchingBlocks a b) 0 0 hc0 _ hsent
    have ha : a = [] := by
      have := h0.1
      simp only at this
      exact List.eq_nil_of_length_eq_zero (by omega)
    have hb : b = [] := by
      have := h0.2.1
      simp only at this
      exact List.eq_nil_of_length_eq_zero (by omega)
    rw [ha, hb]
  · rw [if_neg hc0] at h
    have h1 := groupLoop_nil_cases 3 _ [] h
    rw [List.nil_append] at h1
    have hlen : (fixupLast 3 (fixupHead 3 (getOpcodes a b))).length =
        (getOpcodes a b).length := by
      rw [fixupLast_length, fixupHead_length]
    rcases h1 with h1 | h1
    · rw [h1] at hlen
      exact absurd (List.eq_nil_of_length_eq_zero hlen.symm) hc0
    · have hc1 : (getOpcodes a b).length = 1 := by omega
      rcases List.length_eq_one.mp hc1 with ⟨c, hc⟩
      rcases fixupHead_sig 3 c with ⟨c1, hc1f, htag1⟩
      rcases fixupLast_sig 3 c1 with ⟨c2, hc2f, htag2⟩
      have hfixed : fixupLast 3 (fixupHead 3 (getOpcodes a b)) = [c2] := by
        rw [hc, hc1f, hc2f]
      rw [hfixed] at h1
      have htagc : c.tag = "equal" := by
        have := h1.2
        simp only [List.headD_cons] at this
        rw [← htag1, ← htag2]
        exact this
      obtain ⟨tg, i1, i2, j1, j2⟩ := c
      simp only at htagc
      subst htagc
      have hsingle := getOpcodesAux_single_equal (getMatchingBlocks a b) 0 0 i1 i2 j1 j2 hc
      rcases hsingle with ⟨s, pre, post, hsplit, hs, hi2, hj2, hi1, hj1, hpre, hpost⟩
      have hi1z : i1 = 0 := by omega
      have hj1z : j1 = 0 := by omega
      subst hi1z
      subst hj1z
      rw [hsplit] at hsent
      rcases List.mem_append.mp hsent with hmem | hmem
      · have h5 := hpre _ hmem
        simp only at h5
        have ha : a = [] := List.eq_nil_of_length_eq_zero (by omega)
        have hb : b = [] := List.eq_nil_of_length_eq_zero (by omega)
        rw [ha, hb]
      · rcases List.mem_cons.mp hmem with hmem | hmem
        · have h5 : a.length = 0 ∧ b.length = 0 ∧ (0 : Nat) = s := by
            simpa [Prod.ext_iff] using hmem
          have ha : a = [] := List.eq_nil_of_length_eq_zero h5.1
          have hb : b = [] := List.eq_nil_of_length_eq_zero h5.2.1
          rw [ha, hb]
        · have h5 := getOpcodesAux_nil_all post i2 j2 hpost _ hmem
          simp only at h5
          have hms := getMatchingBlocks_sound a b (0, 0, s)
            (by rw [hsplit]
                exact List.mem_append_right _ (List.mem_cons_self _ post))
          refine eq_of_getD_bound a b s (by omega) (by omega) ?_ hna hnb
          intro t ht
          have h6 := hms t ht
          simpa using h6

/-! ## Lemmas: the shape of the output lines -/

theorem groupLines_shape (a b : List (List Char)) :
    ∀ (g : List Opcode), ∀ l ∈ groupLines a b g,
      (∃ t ∈ a, l = ' ' :: t ∨ l = '-' :: t) ∨ (∃ t ∈ b, l = '+' :: t) := by
  intro g
  induction g with
  | nil => intro l hl; simp [groupLines] at hl
  | cons c rest ih =>
      intro l hl
      simp only [groupLines] at hl
      rcases List.mem_append.mp hl with h | h
      · by_cases hc : c.tag = "equal"
        · rw [if_pos hc] at h
          rcases List.mem_map.mp h with ⟨t, ht, hlt⟩
          exact Or.inl ⟨t, List.mem_of_mem_drop (List.mem_of_mem_take ht), Or.inl hlt.symm⟩
        · rw [if_neg hc] at h
          rcases List.mem_append.mp h with h2 | h2
          · by_cases hc2 : c.tag = "replace" ∨ c.tag = "delete"
            · rw [if_pos hc2] at h2
              rcases List.mem_map.mp h2 with ⟨t, ht, hlt⟩
              exact Or.inl ⟨t, List.mem_of_mem_drop (List.mem_of_mem_take ht), Or.inr hlt.symm⟩
            · rw [if_neg hc2] at h2
              exact absurd h2 (List.not_mem_nil l)
          · by_cases hc2 : c.tag = "replace" ∨ c.tag = "insert"
            · rw [if_pos hc2] at h2
              rcases List.mem_map.mp h2 with ⟨t, ht, hlt⟩
              exact Or.inr ⟨t, List.mem_of_mem_drop (List.mem_of_mem_take ht), hlt.symm⟩
            · rw [if_neg hc2] at h2
              exact absurd h2 (List.not_mem_nil l)
      · exact ih l h

theorem groupsOut_shape (a b : List (List Char)) :
    ∀ (gs : List (List Opcode)), ∀ l ∈ groupsOut a b gs,
      (∃ i1 i2 j1 j2, l = hunkHeader i1 i2 j1 j2) ∨
      (∃ t ∈ a, l = ' ' :: t ∨ l = '-' :: t) ∨ (∃ t ∈ b, l = '+' :: t) := by
  intro gs
  induction gs with
  | nil => intro l hl; simp [groupsOut] at hl
  | cons g gs ih =>
      intro l hl
      simp only [groupsOut] at hl
      rcases List.mem_append.mp hl with h | h
      · rcases List.mem_cons.mp h with h2 | h2
        · exact Or.inl ⟨_, _, _, _, h2⟩
        · exact Or.inr (groupLines_shape a b g l h2)
      · exact ih l h

theorem unifiedDiffLines_mem_shape (a b : List (List Char)) (ff tf : List Char)
    (n : Nat) : ∀ l ∈ unifiedDiffLines a b ff tf n,
      l = "--- ".data ++ ff ∨ l = "+++ ".data ++ tf ∨
      (∃ i1 i2 j1 j2, l = hunkHeader i1 i2 j1 j2) ∨
      (∃ t ∈ a, l = ' ' :: t ∨ l = '-' :: t) ∨ (∃ t ∈ b, l = '+' :: t) := by
  intro l hl
  unfold unifiedDiffLines at hl
  by_cases hg : getGroupedOpcodes (getOpcodes a b) n = []
  · rw [if_pos hg] at hl
    exact absurd hl (List.not_mem_nil l)
  · rw [if_neg hg] at hl
    rcases List.mem_cons.mp hl with h | h
    · exact Or.inl h
    · rcases List.mem_cons.mp h with h2 | h2
      · exact Or.inr (Or.inl h2)
      · exact Or.inr (Or.inr (groupsOut_shape a b _ l h2))

/-! ## The empty-diff characterisation -/

theorem unifiedDiffLines_shape (a b : List (List Char)) (ff tf : List Char) (n : Nat) :
    unifiedDiffLines a b ff tf n = [] ∨
    ∃ rest, unifiedDiffLines a b ff tf n =
      ("--- ".data ++ ff) :: ("+++ ".data ++ tf) :: rest := by
  unfold unifiedDiffLines
  by_cases hg : getGroupedOpcodes (getOpcodes a b) n = []
  · rw [if_pos hg]
    exact Or.inl rfl
  · rw [if_neg hg]
    exact Or.inr ⟨_, rfl⟩

theorem unifiedDiffLines_nil_imp (a b : List (List Char)) (ff tf : List Char)
    (hna : ∀ l ∈ a, l ≠ []) (hnb : ∀ l ∈ b, l ≠ [])
    (h : unifiedDiffLines a b ff tf 3 = []) : a = b := by
  unfold unifiedDiffLines at h
  by_cases hg : getGroupedOpcodes (getOpcodes a b) 3 = []
  · exact getGroupedOpcodes_nil_imp a b hna hnb hg
  · rw [if_neg hg] at h
    simp at h

set_option maxHeartbeats 1000000 in
theorem sql_diff_data (x y : String) :
    (sql_diff x y).data = joinNL (sqlDiffLines x y) := rfl

theorem sql_diff_empty_iff (x y : String) :
    sql_diff x y = "" ↔ pyStrip x.data = pyStrip y.data := by
  constructor
  · intro h
    have hjoin : joinNL (sqlDiffLines x y) = [] := by
      have h2 := congrArg String.data h
      rw [sql_diff_data] at h2
      rw [show ("" : String).data = [] from rfl] at h2
      exact h2
    have hlines : sqlDiffLines x y = [] := by
      rcases unifiedDiffLines_shape (splitlinesKE (pyStrip x.data))
          (splitlinesKE (pyStrip y.data)) ("Original SQL (failed)".data)
          ("Healed SQL (succeeded)".data) 3 with hsh | ⟨rest, hsh⟩
      · exact hsh
      · have hsd : sqlDiffLines x y = _ := hsh
        rw [hsd] at hjoin
        rw [show joinNL (("--- ".data ++ "Original SQL (failed)".data) ::
            ("+++ ".data ++ "Healed SQL (succeeded)".data) :: rest) =
            ("--- ".data ++ "Original SQL (failed)".data) ++ '\n' ::
              joinNL (("+++ ".data ++ "Healed SQL (succeeded)".data) :: rest) from rfl]
          at hjoin
        simp at hjoin
    have heq := unifiedDiffLines_nil_imp _ _ _ _
      (splitlinesKE_ne_nil (pyStrip x.data)) (splitlinesKE_ne_nil (pyStrip y.data)) hlines
    have h2 := congrArg List.flatten heq
    rwa [splitlinesKE_flatten, splitlinesKE_flatten] at h2
  · intro h
    have hl : sqlDiffLines x y = [] := by
      unfold sqlDiffLines
      rw [h, unifiedDiffLines_self]
    have hrw : sql_diff x y = String.mk (joinNL (sqlDiffLines x y)) := rfl
    rw [hrw, hl]
    rfl


/-- C10 (amended): the diff reporter is a total function; its result is the
empty string exactly when the two inputs agree after `str.strip()` (not when
they are identical as given); and every output line is one of the two file
headers, a `@@` range header, or a line of one of the stripped inputs with a
one-character `' '`/`'-'`/`'+'` prefix, so line boundaries are preserved. -/
theorem sql_diff_empty_iff_stripped_eq_and_line_preserving (x y : String) :
    (sql_diff x y = "" ↔ pyStrip x.data = pyStrip y.data) ∧
    (∀ l ∈ sqlDiffLines x y,
      l = "--- Original SQL (failed)".data ∨
      l = "+++ Healed SQL (succeeded)".data ∨
      (∃ i1 i2 j1 j2, l = hunkHeader i1 i2 j1 j2) ∨
      (∃ t ∈ splitlinesKE (pyStrip x.data), l = ' ' :: t ∨ l = '-' :: t) ∨
      (∃ t ∈ splitlinesKE (pyStrip y.data), l = '+' :: t)) := by
  refine ⟨sql_diff_empty_iff x y, ?_⟩
  intro l hl
  have h := unifiedDiffLines_mem_shape (splitlinesKE (pyStrip x.data))
    (splitlinesKE (pyStrip y.data)) ("Original SQL (failed)".data)
    ("Healed SQL (succeeded)".data) 3 l hl
  rcases h with h | h | h | h
  · left
    rw [h]
    rfl
  · right; left
    rw [h]
    rfl
  · right; right; left
    exact h
  · right; right; right
    exact h

/-- Witness: on the pair `("a", "b")` the first file header is among the diff
lines, the emptiness criterion evaluates as stated, and the header satisfies
the line-shape disjunction. -/
theorem sql_diff_line_preserving_witness :
    ("--- Original SQL (failed)".data ∈ sqlDiffLines "a" "b") ∧
    (sql_diff "a" "b" = "" ↔ pyStrip ("a" : String).data = pyStrip ("b" : String).data) ∧
    ("--- Original SQL (failed)".data = "--- Original SQL (failed)".data ∨
     "--- Original SQL (failed)".data = "+++ Healed SQL (succeeded)".data ∨
     (∃ i1 i2 j1 j2, "--- Original SQL (failed)".data = hunkHeader i1 i2 j1 j2) ∨
     (∃ t ∈ splitlinesKE (pyStrip ("a" : String).data),
       "--- Original SQL (failed)".data = ' ' :: t ∨
       "--- Original SQL (failed)".data = '-' :: t) ∨
     (∃ t ∈ splitlinesKE (pyStrip ("b" : String).data),
       "--- Original SQL (failed)".data = '+' :: t)) :=
  ⟨by decide,
   (sql_diff_empty_iff_stripped_eq_and_line_preserving "a" "b").1,
   (sql_diff_empty_iff_stripped_eq_and_line_preserving "a" "b").2
     ("--- Original SQL (failed)".data) (by decide)⟩

/-- C10 counterexample to the claim as stated: the two inputs differ (one has
a trailing space), yet `sql_diff` returns the empty string, because both are
stripped before the comparison. -/
theorem sql_diff_empty_for_different_inputs :
    sql_diff "SELECT 1" "SELECT 1 " = "" ∧ ("SELECT 1" : String) ≠ "SELECT 1 " := by
  constructor
  · rfl
  · decide
